import Mathlib

/-!
# dmx: selection protocol and hierarchical navigation

A shallow embedding of `dmx.go` (the `dmx` package) and of the clients
`utils/dtodo.go`, `utils/fatdmenu.go` and `utils/fdmfc.go`.

Conventions of the embedding:

* a Go `string` and a Go `[]byte` are both a list of bytes (`Bytes`); a byte is
  a natural number (a real byte is one below 256; no function here does
  arithmetic on a byte, so nothing depends on the bound);
* the external picker process (`exec.Command(DmenuPath, ...).Run()`) is a
  parameter: a function from what the process is given to what it answers;
* a Go interface value that may be `nil` is an `Option`;
* the library routines the code calls (`fmt.Sprintf`, `utf8.RuneCountInString`,
  `sort.Sort`, `filepath.Join`, `strings.ToLower`) are either written out from
  the library's documented behaviour or taken as parameters.
-/

namespace Dmx

/-! ## Bytes and strings -/

abbrev Byte := Nat
abbrev Bytes := List Byte

/-- The bytes of an ASCII string literal. -/
def ascii (s : String) : Bytes := s.data.map Char.toNat

/-! ## The parts of `fmt` and `unicode/utf8` the code relies on -/

/-- The tables `first` and `acceptRanges` of `unicode/utf8`: for a leading byte,
the size of the encoding and the range the second byte must lie in; `none` for
the bytes that start no encoding (`xx`). ASCII bytes are handled by the caller. -/
def utf8First (c : Byte) : Option (Nat × Nat × Nat) :=
  if 0xC2 ≤ c ∧ c ≤ 0xDF then some (2, 0x80, 0xBF)
  else if c = 0xE0 then some (3, 0xA0, 0xBF)
  else if (0xE1 ≤ c ∧ c ≤ 0xEC) ∨ c = 0xEE ∨ c = 0xEF then some (3, 0x80, 0xBF)
  else if c = 0xED then some (3, 0x80, 0x9F)
  else if c = 0xF0 then some (4, 0x90, 0xBF)
  else if 0xF1 ≤ c ∧ c ≤ 0xF3 then some (4, 0x80, 0xBF)
  else if c = 0xF4 then some (4, 0x80, 0x8F)
  else none

/-- One iteration of the loop of `utf8.RuneCountInString`: the number of bytes
the rune starting with `c` (followed by `rest`) takes up. -/
def runeStep (c : Byte) (rest : Bytes) : Nat :=
  if c < 0x80 then 1
  else
    match utf8First c with
    | none => 1
    | some (size, lo, hi) =>
      if 1 + rest.length < size then 1
      else if rest.getD 0 0 < lo ∨ hi < rest.getD 0 0 then 1
      else if size = 2 then 2
      else if rest.getD 1 0 < 0x80 ∨ 0xBF < rest.getD 1 0 then 1
      else if size = 3 then 3
      else if rest.getD 2 0 < 0x80 ∨ 0xBF < rest.getD 2 0 then 1
      else 4

/-- The loop of `utf8.RuneCountInString`, bounded by the number of bytes. -/
def runeCountLoop : Nat → Bytes → Nat
  | 0, _ => 0
  | _, [] => 0
  | fuel + 1, c :: rest => 1 + runeCountLoop fuel (rest.drop (runeStep c rest - 1))

/-- The function `utf8.RuneCountInString`. -/
def utf8RuneCount (s : Bytes) : Nat := runeCountLoop s.length s

/-- The helper `tooLarge` of `fmt`: a width beyond a million is refused. -/
def tooLarge (x : Int) : Bool := decide (x > 1000000) || decide (x < -1000000)

/-- The text `fmt` writes in place of a refused width. -/
def badWidthString : Bytes := ascii "%!(BADWIDTH)"

/-- The method `writePadding` of `fmt`: `n` blanks, none when `n ≤ 0`. -/
def writePadding (n : Int) : Bytes := List.replicate n.toNat 32

/-- The methods `pad` and `padString` of `fmt`: `s` padded with blanks to `wid`
runes, on the right when the minus flag is set and on the left otherwise. -/
def padString (widPresent : Bool) (wid : Nat) (minus : Bool) (s : Bytes) : Bytes :=
  if !widPresent || wid == 0 then s
  else if !minus then writePadding ((wid : Int) - (utf8RuneCount s : Int)) ++ s
  else s ++ writePadding ((wid : Int) - (utf8RuneCount s : Int))

/-- A verb whose width is given by a `*` argument, as `doPrintf` treats it: a
refused width writes `badWidthString` and formats without a width; a negative
width is its absolute value with the minus flag set. -/
def starPad (w : Int) (minus : Bool) (s : Bytes) : Bytes :=
  if tooLarge w then badWidthString ++ padString false 0 minus s
  else if w < 0 then padString true (-w).toNat true s
  else padString true w.toNat minus s

/-- The decimal digits of a natural number, most significant first. -/
def decDigits : Nat → Nat → Bytes
  | 0, _ => []
  | fuel + 1, n => if n < 10 then [48 + n] else decDigits fuel (n / 10) ++ [48 + n % 10]

/-- The verb `%d` applied to a natural number. -/
def fmtNat (n : Nat) : Bytes := decDigits (n + 1) n

/-- The verb `%d` applied to an integer. -/
def fmtInt (n : Int) : Bytes :=
  if n < 0 then 45 :: fmtNat n.natAbs else fmtNat n.toNat

/-- The number a string of decimal digits stands for. -/
def digitsVal (ds : Bytes) : Nat := ds.foldl (fun acc d => acc * 10 + (d - 48)) 0

/-- The run of bytes other than the blank that follows the leading blanks of a
line. -/
def numField (line : Bytes) : Bytes :=
  (line.dropWhile (fun c => c == 32)).takeWhile (fun c => c != 32)

/-! ## dmx.go -/

/-- The variable `CRLF`, as `init()` sets it. -/
def CRLF : Bytes := [10]

/-- The variable `crlfLength`, as `init()` sets it. -/
def crlfLength : Nat := CRLF.length

/-- The interface `Item`, as the method table of a type `α` of objects; the
elements of an `ItemList` are objects of one such type. -/
structure Item (α : Type) where
  Key : α → Bytes
  MenuLine : α → Int → Bytes
  SortsBefore : α → α → Bool

/-- Comparison of two Go strings with `<`: bytewise lexicographic. -/
def strLt : Bytes → Bytes → Bool
  | [], [] => false
  | [], _ :: _ => true
  | _ :: _, [] => false
  | a :: as, b :: bs => if a < b then true else if b < a then false else strLt as bs

/-- The method `ItemList.keyLen`. -/
def keyLen {α : Type} (I : Item α) (il : List α) : Nat :=
  il.foldl (fun kl itm => if (I.Key itm).length > kl then (I.Key itm).length else kl) 0

/-- The function `ensureReturnminated`. -/
def ensureReturnminated (bs : Bytes) : Bytes :=
  if bs.length < crlfLength then bs ++ CRLF
  else if bs.drop (bs.length - crlfLength) = CRLF then bs
  else bs ++ CRLF

/-- The `error` of `exec.Cmd.Run`: the process could not be started, or it
exited with a non-zero status. -/
inductive Error where
  | spawn
  | exit (code : Nat)
  deriving DecidableEq, Repr

/-- What `dcmd.Run()` leaves behind: the error it returns (`nil` is `none`) and
the bytes written to the output buffer. -/
structure RunResult where
  err : Option Error
  stdout : Bytes
  deriving DecidableEq, Repr

/-- The external picker: from the `-l` line count, the `-p` prompt and the bytes
on standard input to the result of the run. -/
abbrev Picker := Nat → Bytes → Bytes → RunResult

/-- The lines `DmenuSelect` builds in `menu_lines`. -/
def menuLines {α : Type} (I : Item α) (input : List α) : List Bytes :=
  input.map (fun itm => ensureReturnminated (I.MenuLine itm (keyLen I input)))

/-- The final loop of `DmenuSelect`: the item at the first line equal to the
output. -/
def scanLines {α : Type} (stdout_bytes : Bytes) : List Bytes → List α → Option α
  | ml :: mls, itm :: rest =>
      if stdout_bytes = ml then some itm else scanLines stdout_bytes mls rest
  | _, _ => none

/-- The function `DmenuSelect`; the result is the pair `(Item, error)`. -/
def DmenuSelect {α : Type} (I : Item α) (dcmd : Picker) (prompt : Bytes) (input : List α) :
    Option α × Option Error :=
  let menu_lines := menuLines I input
  let r := dcmd input.length prompt menu_lines.flatten
  match r.err with
  | some e => (none, some e)
  | none => (scanLines r.stdout menu_lines input, none)

/-- The inner loop of `insertionSort` of package `sort`: `x` moves left past
every element it is `less` than; the part already in order is given last
element first. -/
def insertBack {α : Type} (less : α → α → Bool) (x : α) : List α → List α
  | [] => [x]
  | y :: ys => if less x y then y :: insertBack less x ys else x :: y :: ys

/-- The routine `insertionSort` of package `sort`, which is what `sort.Sort`
runs on a short slice. -/
def insertionSort {α : Type} (less : α → α → Bool) (l : List α) : List α :=
  (l.foldl (fun acc x => insertBack less x acc) []).reverse

/-- The picker `dcmd` with every failing run replaced by a successful run with
an empty output. -/
def failureAsCancel (dcmd : Picker) : Picker :=
  fun n prompt stdin =>
    if (dcmd n prompt stdin).err.isSome then ⟨none, []⟩ else dcmd n prompt stdin

/-! ## utils/dtodo.go -/

namespace Dtodo

/-- The type `Item` of dtodo. -/
structure Item where
  N : Int
  Title : Bytes
  deriving DecidableEq, Repr

def Item.Key (itm : Item) : Bytes := fmtInt itm.N

def Item.SortsBefore (itm oi : Item) : Bool := decide (itm.N < oi.N)

def Item.MenuLine (itm : Item) (w : Int) : Bytes :=
  starPad w false (fmtInt itm.N) ++ ascii "  " ++ itm.Title ++ ascii "\n"

/-- The methods by which `Item` implements `dmx.Item`. -/
def itemOps : Dmx.Item Item where
  Key := Item.Key
  MenuLine := Item.MenuLine
  SortsBefore := Item.SortsBefore

/-- The method `Item.fileName`. -/
def Item.fileName (itm : Item) : Bytes := fmtInt itm.N ++ ascii ".md"

/-- The loop of add mode in `main` that looks for a free number: `n` is the
index of the first item of the list given; the result is the value the loop
assigns to `n_sup` before it breaks, `none` when it runs to the end. -/
def nSupLoop : Nat → List Item → Option Int
  | _, [] => none
  | n, x :: rest => if (n : Int) < x.N then some (n : Int) else nSupLoop (n + 1) rest

/-- The number `n_sup` add mode of `main` computes for the new item: `len(lst) + 1`
unless the loop assigns an index. -/
def nSup (lst : List Item) : Int :=
  (nSupLoop 0 lst).getD ((lst.length : Int) + 1)

end Dtodo

/-! ## utils/fatdmenu.go -/

namespace Fatdmenu

/-- The three types of fatdmenu that implement `dmx.Item`, as one type: what a
`*Entry`, a `*Category` or a `*SpecialEntry` points to. -/
inductive FItem where
  | entry (Token Desc Val : Bytes)
  | category (Token Desc : Bytes) (Stuff : List FItem)
  | special (line : Bytes)
  deriving Repr

/-- The type `Category`. -/
structure Category where
  Token : Bytes
  Desc : Bytes
  Stuff : List FItem
  deriving Repr

/-- A `*Category` as a `dmx.Item`. -/
def Category.toItem (cat : Category) : FItem := FItem.category cat.Token cat.Desc cat.Stuff

/-- Whether an item is a `*SpecialEntry`. -/
def FItem.isSpecial : FItem → Bool
  | FItem.special _ => true
  | _ => false

/-- The methods `Key` of `Entry`, `Category` and `SpecialEntry`; `separator` is
the variable set by the `-s` flag. -/
def FItem.Key (separator : Bytes) : FItem → Bytes
  | FItem.entry tok _ _ => tok
  | FItem.category tok _ _ => tok ++ separator
  | FItem.special _ => []

/-- The methods `MenuLine` of `Entry`, `Category` and `SpecialEntry`. -/
def FItem.MenuLine (separator : Bytes) : FItem → Int → Bytes
  | FItem.entry tok desc _, width =>
      starPad width true tok ++ ascii "    " ++ desc ++ ascii "\n"
  | FItem.category tok desc _, width =>
      starPad width true (tok ++ separator) ++ ascii "    " ++ desc ++ ascii "\n"
  | FItem.special line, _ => line

/-- The methods `SortsBefore` of `Entry`, `Category` and `SpecialEntry`. -/
def FItem.SortsBefore : FItem → FItem → Bool
  | FItem.entry _ _ _, FItem.category _ _ _ => false
  | FItem.entry tok _ _, FItem.entry tok2 _ _ => strLt tok tok2
  | FItem.entry _ _ _, FItem.special _ => false
  | FItem.category tok _ _, FItem.category tok2 _ _ => strLt tok tok2
  | FItem.category _ _ _, FItem.entry _ _ _ => true
  | FItem.category _ _ _, FItem.special _ => false
  | FItem.special _, _ => true

/-- The methods by which the three types implement `dmx.Item`. -/
def itemOps (separator : Bytes) : Dmx.Item FItem where
  Key := FItem.Key separator
  MenuLine := FItem.MenuLine separator
  SortsBefore := FItem.SortsBefore

/-- The line of `catSelector`, as `main` builds it. -/
def catSelectorLine (separator : Bytes) : Bytes :=
  separator ++ ascii " [ choose current category ]\n"

/-- The variable `catSelector`, the only `SpecialEntry` the program creates. -/
def catSelector (separator : Bytes) : FItem := FItem.special (catSelectorLine separator)

/-- The loop of `heiroSelect` that fills `new_list` from the sorted `cat.Stuff`. -/
def realItems (onlySelectCat : Bool) : List FItem → List FItem
  | [] => []
  | FItem.category tok desc stuff :: rest =>
      FItem.category tok desc stuff :: realItems onlySelectCat rest
  | FItem.entry tok desc val :: rest =>
      if !onlySelectCat then FItem.entry tok desc val :: realItems onlySelectCat rest
      else realItems onlySelectCat rest
  | FItem.special _ :: rest => realItems onlySelectCat rest

/-- The list `new_list` of `heiroSelect`; `sortFn` is `sort.Sort` on an
`ItemList`, whose `Less` is `SortsBefore`. -/
def newList (separator : Bytes) (sortFn : (FItem → FItem → Bool) → List FItem → List FItem)
    (canSelectCat onlySelectCat : Bool) (cat : Category) : List FItem :=
  (if canSelectCat then [catSelector separator] else []) ++
    realItems onlySelectCat (sortFn FItem.SortsBefore cat.Stuff)

/-- The picker invocations made so far, oldest first: the prompt and the list
each one was given. -/
abbrev Shown := List (Bytes × List FItem)

/-- The `for` loop of `heiroSelect` on the category `cat` with its `new_list`,
the recursive call included. The picker is `picker k` at its `k`-th invocation
(counted from 0 over the whole run). The result is `none` when `fuel`
invocations did not end the loop; otherwise the value returned (`nil` is
`none`) and the invocations made. An item is returned as it stands in the list
shown; for `return cat` the children are in the order `sort.Sort` left them.
The order `sort.Sort` leaves in memory below the level shown is not tracked: a
category entered again is sorted from the order in which it was first read.
The test `x == catSelector` compares pointers; `catSelector` is the only
`SpecialEntry` the program creates, so it is the test on the line. -/
def heiroLoop (separator : Bytes) (sortFn : (FItem → FItem → Bool) → List FItem → List FItem)
    (picker : Nat → Picker) (canSelectCat onlySelectCat : Bool) :
    Nat → Category → Bytes → List FItem → Shown → Option (Option FItem × Shown)
  | 0, _, _, _, _ => none
  | fuel + 1, cat, prompt, new_list, shown =>
    let shown1 := shown ++ [(prompt, new_list)]
    match DmenuSelect (itemOps separator) (picker shown.length) prompt new_list with
    | (_, some _) => some (none, shown1)
    | (some (FItem.entry tok desc val), none) => some (some (FItem.entry tok desc val), shown1)
    | (some (FItem.special line), none) =>
        if line = catSelectorLine separator then
          some (some (FItem.category cat.Token cat.Desc (sortFn FItem.SortsBefore cat.Stuff)),
            shown1)
        else some (none, shown1)
    | (some (FItem.category tok desc stuff), none) =>
        match heiroLoop separator sortFn picker canSelectCat onlySelectCat fuel
            ⟨tok, desc, stuff⟩ (prompt ++ FItem.Key separator (FItem.category tok desc stuff))
            (newList separator sortFn canSelectCat onlySelectCat ⟨tok, desc, stuff⟩) shown1 with
        | none => none
        | some (some new_rval, shown2) => some (some new_rval, shown2)
        | some (none, shown2) =>
            heiroLoop separator sortFn picker canSelectCat onlySelectCat fuel cat prompt
              new_list shown2
    | (none, none) => some (none, shown1)

/-- The method `Category.AddItem`. -/
def Category.AddItem (cat : Category) (itm : FItem) : Category :=
  { cat with Stuff := cat.Stuff ++ [itm] }

/-- The item add mode of `main` builds from the flags `-k`, `-d` and `-v`: a
category without children under `-c`, an entry otherwise. -/
def newItem (selectCat : Bool) (newKey newDesc newVal : Bytes) : FItem :=
  if selectCat then FItem.category newKey newDesc [] else FItem.entry newKey newDesc newVal

/-- The list `l` with `f` applied to its element at index `i`. -/
def modifyNth {α : Type} (f : α → α) : Nat → List α → List α
  | _, [] => []
  | 0, a :: l => f a :: l
  | i + 1, a :: l => a :: modifyNth f i l

/-- The call `containerCat.AddItem(itm)` seen from the root of the hierarchy:
`containerCat` points to the category reached from the root by the child
indices of `path`; what lies elsewhere in memory is not touched. -/
def FItem.addItemAt (itm : FItem) : List Nat → FItem → FItem
  | [], FItem.category tok desc stuff =>
      (Category.AddItem ⟨tok, desc, stuff⟩ itm).toItem
  | i :: path, FItem.category tok desc stuff =>
      FItem.category tok desc (modifyNth (FItem.addItemAt itm path) i stuff)
  | _, x => x

/-- The children of the category reached from the root by the child indices of
`path`; `none` when the path leads to no category. -/
def FItem.stuffAt : List Nat → FItem → Option (List FItem)
  | [], FItem.category _ _ stuff => some stuff
  | i :: path, FItem.category _ _ stuff => (stuff[i]?).bind (FItem.stuffAt path)
  | _, _ => none

mutual
/-- Whether no two children of one category have the same `Key()`, in the
category itself and in every category below it. -/
def FItem.noDupKeys (separator : Bytes) : FItem → Bool
  | FItem.category _ _ stuff =>
      decide ((stuff.map (FItem.Key separator)).Nodup) && noDupKeysIn separator stuff
  | FItem.entry _ _ _ => true
  | FItem.special _ => true
/-- Whether `FItem.noDupKeys` holds of every item of a list. -/
def noDupKeysIn (separator : Bytes) : List FItem → Bool
  | [] => true
  | itm :: rest => FItem.noDupKeys separator itm && noDupKeysIn separator rest
end

/-- An item of the hierarchy as it lies in memory: the address a `*Entry` or a
`*Category` holds, and what it points to. Two such pointers are equal when their
addresses are. -/
inductive Node where
  | entry (addr : Nat) (Token Desc Val : Bytes)
  | category (addr : Nat) (Token Desc : Bytes) (Stuff : List Node)
  deriving Repr

/-- The address a pointer holds. -/
def Node.addr : Node → Nat
  | Node.entry a _ _ _ => a
  | Node.category a _ _ _ => a

mutual
/-- The call `x.Expunge(itm)` the loop of `Expunge` makes on an item `i` of the
list when `i` is a `*Category`; for an `*Entry` the type test fails and nothing
is called. The result is the value returned and the item as it is afterwards.
Called on the root category, this is the method `Category.Expunge`. -/
def Node.Expunge (itm : Nat) : Node → Bool × Node
  | Node.entry a tok desc val => (false, Node.entry a tok desc val)
  | Node.category a tok desc stuff =>
      ((expungeRange itm stuff).1, Node.category a tok desc (expungeRange itm stuff).2)
/-- The body of the method `Category.Expunge` on `cat.Stuff`: the loop over the
list and the removal of the item found in it. The result is the value returned
and `cat.Stuff` as it is afterwards. -/
def expungeRange (itm : Nat) : List Node → Bool × List Node
  | [] => (false, [])
  | i :: rest =>
      if i.addr = itm then (true, rest)
      else if (Node.Expunge itm i).1 then (true, (Node.Expunge itm i).2 :: rest)
      else ((expungeRange itm rest).1, (Node.Expunge itm i).2 :: (expungeRange itm rest).2)
end

mutual
/-- The addresses of an item and of every item below it. -/
def Node.addrs : Node → List Nat
  | Node.entry a _ _ _ => [a]
  | Node.category a _ _ stuff => a :: addrsIn stuff
/-- The addresses of the items of a list and of every item below them. -/
def addrsIn : List Node → List Nat
  | [] => []
  | i :: rest => Node.addrs i ++ addrsIn rest
end

/-- The addresses of the items below an item, at any depth. -/
def Node.descendants : Node → List Nat
  | Node.entry _ _ _ _ => []
  | Node.category _ _ _ stuff => addrsIn stuff

mutual
/-- The statement of what `Expunge` is to do, not code of the repository: the
hierarchy with the item at address `x`, and what it contains, taken out of the
list that holds it, every other item staying in its list and in its order. -/
def Node.takenOut (x : Nat) : Node → Node
  | Node.entry a tok desc val => Node.entry a tok desc val
  | Node.category a tok desc stuff => Node.category a tok desc (takenOutIn x stuff)
/-- The list part of `Node.takenOut`. -/
def takenOutIn (x : Nat) : List Node → List Node
  | [] => []
  | i :: rest =>
      if i.addr = x then takenOutIn x rest else Node.takenOut x i :: takenOutIn x rest
end

/-- The function `heiroSelect`. -/
def heiroSelect (separator : Bytes) (sortFn : (FItem → FItem → Bool) → List FItem → List FItem)
    (picker : Nat → Picker) (canSelectCat onlySelectCat : Bool)
    (fuel : Nat) (cat : Category) (prompt : Bytes) (shown : Shown) :
    Option (Option FItem × Shown) :=
  heiroLoop separator sortFn picker canSelectCat onlySelectCat fuel cat prompt
    (newList separator sortFn canSelectCat onlySelectCat cat) shown

/-! ### The navigator of the specification

Not code of the repository: the navigator as the specification words it (its
section 4.4), with an explicit stack of levels in place of the recursion of
`heiroSelect`. It is what `heiroSelect` is compared with. -/

/-- A level of the navigation: the category displayed, the prompt it is
displayed under and the list shown for it. -/
structure Frame where
  cat : Category
  prompt : Bytes
  new_list : List FItem

/-- What one picker invocation makes of the navigation: its end with a result
(`none` is no selection), or the stack of levels to go on with, the level to
display next on top. -/
inductive NavStep where
  | done (result : Option FItem)
  | goOn (stack : List Frame)

/-- No selection at the level displayed: the navigation ends with no selection
when there is no level below it, and goes on with the parent level otherwise. -/
def popFrame (below : List Frame) : NavStep :=
  match below with
  | [] => NavStep.done none
  | parent :: rest => NavStep.goOn (parent :: rest)

/-- One iteration of the navigator of the specification at the level `top`, the
levels of its ancestors being `below`: a leaf entry ends the navigation with
that entry; the sentinel of the current category ends it with that category; a
child category becomes the new top level, under the prompt of `top` followed by
the key of the child; no selection steps back by `popFrame`. A picker run that
fails, and any other special entry, count as no selection. -/
def specNavStep (separator : Bytes)
    (sortFn : (FItem → FItem → Bool) → List FItem → List FItem)
    (canSelectCat onlySelectCat : Bool) (dcmd : Picker) (top : Frame) (below : List Frame) :
    NavStep :=
  match DmenuSelect (itemOps separator) dcmd top.prompt top.new_list with
  | (_, some _) => popFrame below
  | (some (FItem.entry tok desc val), none) => NavStep.done (some (FItem.entry tok desc val))
  | (some (FItem.special line), none) =>
      if line = catSelectorLine separator then
        NavStep.done
          (some (FItem.category top.cat.Token top.cat.Desc
            (sortFn FItem.SortsBefore top.cat.Stuff)))
      else popFrame below
  | (some (FItem.category tok desc stuff), none) =>
      NavStep.goOn
        (⟨⟨tok, desc, stuff⟩, top.prompt ++ FItem.Key separator (FItem.category tok desc stuff),
            newList separator sortFn canSelectCat onlySelectCat ⟨tok, desc, stuff⟩⟩ ::
          top :: below)
  | (none, none) => popFrame below

/-- The navigator of the specification run for at most `n` picker invocations
from a stack of levels: each invocation shows the list of the top level under
its prompt. The result is `none` when `n` invocations did not end the
navigation. -/
def specNavigate (separator : Bytes)
    (sortFn : (FItem → FItem → Bool) → List FItem → List FItem)
    (picker : Nat → Picker) (canSelectCat onlySelectCat : Bool) :
    Nat → List Frame → Shown → Option (Option FItem × Shown)
  | 0, _, _ => none
  | _ + 1, [], shown => some (none, shown)
  | n + 1, top :: below, shown =>
      match specNavStep separator sortFn canSelectCat onlySelectCat (picker shown.length)
          top below with
      | NavStep.done result => some (result, shown ++ [(top.prompt, top.new_list)])
      | NavStep.goOn stack =>
          specNavigate separator sortFn picker canSelectCat onlySelectCat n stack
            (shown ++ [(top.prompt, top.new_list)])

/-- The navigator of the specification after the top level has been left with
no selection: the end when no level is below, the run from the parent level
otherwise. -/
def afterPop (separator : Bytes)
    (sortFn : (FItem → FItem → Bool) → List FItem → List FItem)
    (picker : Nat → Picker) (canSelectCat onlySelectCat : Bool)
    (n : Nat) (below : List Frame) (shown : Shown) : Option (Option FItem × Shown) :=
  match below with
  | [] => some (none, shown)
  | parent :: rest =>
      specNavigate separator sortFn picker canSelectCat onlySelectCat n (parent :: rest) shown

/-- What a mode of `main` comes to. -/
inductive Outcome where
  /-- a run-time panic of a failed type assertion -/
  | panicked
  /-- `main` returns without output and without writing the data file -/
  | nothingDone
  /-- browse mode: the value of the chosen entry is printed -/
  | printed (val : Bytes)
  /-- add mode: the category the new item is added to, the data file being
  written afterwards -/
  | addedTo (containerCat : Category)
  deriving Repr

/-- The browse mode of `main`, from the result of `heiroSelect(base_cat_p,
basePrompt, false, false)` on: the conversion `uncast_item.(*Entry)` is made
only for a non-nil result. -/
def browseFrom : Option FItem → Outcome
  | none => Outcome.nothingDone
  | some (FItem.entry _ _ val) => Outcome.printed val
  | some _ => Outcome.panicked

/-- The add mode of `main`, from the result of `heiroSelect(base_cat_p,
basePrompt, true, true)` on: the conversion `.(*Category)` comes first and
panics on a nil interface value, so the test `containerCat == nil` that follows
it is reached with a non-nil pointer only. -/
def addFrom : Option FItem → Outcome
  | none => Outcome.panicked
  | some (FItem.category tok desc stuff) => Outcome.addedTo ⟨tok, desc, stuff⟩
  | some _ => Outcome.panicked

/-- The browse mode of `main` after the data file is read. -/
def browseMode (separator : Bytes) (sortFn : (FItem → FItem → Bool) → List FItem → List FItem)
    (picker : Nat → Picker) (fuel : Nat) (base_cat : Category) (basePrompt : Bytes) :
    Option Outcome :=
  (heiroSelect separator sortFn picker false false fuel base_cat basePrompt []).map
    (fun r => browseFrom r.1)

/-- The add mode of `main` after the data file is read and the flags checked. -/
def addMode (separator : Bytes) (sortFn : (FItem → FItem → Bool) → List FItem → List FItem)
    (picker : Nat → Picker) (fuel : Nat) (base_cat : Category) (basePrompt : Bytes) :
    Option Outcome :=
  (heiroSelect separator sortFn picker true true fuel base_cat basePrompt []).map
    (fun r => addFrom r.1)

end Fatdmenu

/-! ## utils/fdmfc.go -/

namespace Fdmfc

/-- The variable `pathSeparator`: `os.PathSeparator`, the slash. -/
def pathSeparator : Byte := 47

/-- The variable `hiddenIndicator`. -/
def hiddenIndicator : Byte := 46

/-- The type `DirEntry`. -/
structure DirEntry where
  name : Bytes
  isDir : Bool
  sort : Bytes
  deriving DecidableEq, Repr

/-- A `*DirEntry`: one of the three variables `init()` sets, or the result of a
call of `NewDirEntry`. The code compares these pointers, not what they point to. -/
inductive EntryRef where
  | directorySelector
  | hiddenShower
  | hiddenHider
  | fresh (de : DirEntry)
  deriving DecidableEq, Repr

/-- Whether a `*DirEntry` is one of the three variables of `init()`. -/
def EntryRef.isSentinel : EntryRef → Bool
  | EntryRef.fresh _ => false
  | _ => true

/-- What a `*DirEntry` points to; the three variables are as `init()` sets them. -/
def EntryRef.get : EntryRef → DirEntry
  | EntryRef.directorySelector =>
      { name := pathSeparator :: ascii " [ select current directory ]", sort := [1],
        isDir := false }
  | EntryRef.hiddenShower =>
      { name := hiddenIndicator :: ascii " [ show hidden files ]", sort := [2],
        isDir := false }
  | EntryRef.hiddenHider =>
      { name := hiddenIndicator :: ascii " [ hide hidden files ]", sort := [2],
        isDir := false }
  | EntryRef.fresh de => de

/-- The part of an `os.FileInfo` the code reads. -/
structure FileInfo where
  Name : Bytes
  IsDir : Bool
  deriving DecidableEq, Repr

/-- The function `NewDirEntry`; `toLower` is `strings.ToLower`. -/
def NewDirEntry (caseSensitiveSort : Bool) (toLower : Bytes → Bytes) (fi : FileInfo) :
    EntryRef :=
  EntryRef.fresh
    { name := fi.Name, isDir := fi.IsDir,
      sort := if caseSensitiveSort then fi.Name else toLower fi.Name }

def DirEntry.Key (_ : DirEntry) : Bytes := []

def DirEntry.MenuLine (de : DirEntry) (_ : Int) : Bytes :=
  if de.isDir then de.name ++ [pathSeparator] else de.name

def DirEntry.SortsBefore (de rhs : DirEntry) : Bool :=
  if de.isDir = rhs.isDir then
    if strLt de.sort rhs.sort then true else false
  else de.isDir

/-- The methods by which `*DirEntry` implements `dmx.Item`. -/
def itemOps : Dmx.Item EntryRef where
  Key := fun e => e.get.Key
  MenuLine := fun e w => e.get.MenuLine w
  SortsBefore := fun e rhs => e.get.SortsBefore rhs.get

/-- The function `isHidden`; `none` is the index panic on an empty name. -/
def isHidden (fi : FileInfo) : Option Bool :=
  match fi.Name with
  | [] => none
  | c :: _ => some (c == hiddenIndicator)

/-- The loop of `selectPath` that appends the entries of the directory. -/
def appendFiles (caseSensitiveSort : Bool) (toLower : Bytes → Bytes) (showHidden : Bool) :
    List EntryRef → List FileInfo → Option (List EntryRef)
  | entriez, [] => some entriez
  | entriez, fi :: rest =>
      if showHidden then
        appendFiles caseSensitiveSort toLower showHidden
          (entriez ++ [NewDirEntry caseSensitiveSort toLower fi]) rest
      else
        match isHidden fi with
        | none => none
        | some true => appendFiles caseSensitiveSort toLower showHidden entriez rest
        | some false =>
            appendFiles caseSensitiveSort toLower showHidden
              (entriez ++ [NewDirEntry caseSensitiveSort toLower fi]) rest

/-- The list `entriez` of `selectPath`, as handed to `DmenuSelect`; `sortFn` is
`sort.Sort` on an `ItemList`, and `none` is the panic of `isHidden`. -/
def buildEntriez (caseSensitiveSort : Bool) (toLower : Bytes → Bytes)
    (sortFn : (EntryRef → EntryRef → Bool) → List EntryRef → List EntryRef)
    (returnDir showHidden : Bool) (actual_filez : List FileInfo) : Option (List EntryRef) :=
  let entriez0 := if returnDir then [EntryRef.directorySelector] else []
  let entriez1 :=
    if showHidden then entriez0 ++ [EntryRef.hiddenHider]
    else entriez0 ++ [EntryRef.hiddenShower]
  match appendFiles caseSensitiveSort toLower showHidden entriez1 actual_filez with
  | none => none
  | some entriez =>
      if returnDir then some (entriez.take 2 ++ sortFn itemOps.SortsBefore (entriez.drop 2))
      else some (entriez.take 1 ++ sortFn itemOps.SortsBefore (entriez.drop 1))

/-! ### The parts of `path/filepath` the code relies on, for a Unix path -/

/-- The elements of a path: the runs of bytes between its separators. -/
def splitSlash : Bytes → List Bytes
  | [] => [[]]
  | c :: rest =>
      if c = pathSeparator then [] :: splitSlash rest
      else
        match splitSlash rest with
        | elt :: elts => (c :: elt) :: elts
        | [] => [[c]]

/-- The treatment of one element by `filepath.Clean`; `out` holds the elements
kept so far, the last one first. An empty element and `.` are dropped; `..`
takes back the element before it when there is one that is not `..`, is dropped
at the start of a rooted path and is kept otherwise. -/
def cleanStep (rooted : Bool) (out : List Bytes) (elt : Bytes) : List Bytes :=
  if elt = [] ∨ elt = [46] then out
  else if elt = [46, 46] then
    match out with
    | top :: below => if top = [46, 46] then elt :: out else below
    | [] => if rooted then [] else [elt]
  else elt :: out

/-- The function `filepath.Clean`. -/
def filepathClean (path : Bytes) : Bytes :=
  match path with
  | [] => [46]
  | c :: _ =>
      let out := ((splitSlash path).foldl (cleanStep (c == pathSeparator)) []).reverse
      if c = pathSeparator then pathSeparator :: [pathSeparator].intercalate out
      else if out = [] then [46]
      else [pathSeparator].intercalate out

/-- The function `filepath.Base`. -/
def filepathBase (path : Bytes) : Bytes :=
  if path = [] then [46]
  else
    let stripped := (path.reverse.dropWhile (fun c => c == pathSeparator)).reverse
    let last := (stripped.reverse.takeWhile (fun c => c != pathSeparator)).reverse
    if last = [] then [pathSeparator] else last

/-- The function `filepath.Dir`. -/
def filepathDir (path : Bytes) : Bytes :=
  filepathClean (path.reverse.dropWhile (fun c => c != pathSeparator)).reverse

/-- The function `filepath.Join`. -/
def filepathJoin (elem : List Bytes) : Bytes :=
  match elem.dropWhile (fun e => e == []) with
  | [] => []
  | e :: rest => filepathClean ([pathSeparator].intercalate (e :: rest))

/-- The function `parsePath`; `none` when the recursion is `fuel` calls deep
without having returned. -/
def parsePath : Nat → Bytes → Option (List Bytes)
  | 0, _ => none
  | fuel + 1, pathname =>
      if filepathBase pathname = [pathSeparator] then some [filepathBase pathname]
      else if filepathDir pathname = [pathSeparator] then
        some [filepathDir pathname, filepathBase pathname]
      else (parsePath fuel (filepathDir pathname)).map (fun l => l ++ [filepathBase pathname])

/-- The elements `c1`, ..., `cn`, each with a separator before it. -/
def slashed (comps : List Bytes) : Bytes :=
  (comps.map (fun c => pathSeparator :: c)).flatten

/-- An element of a clean path: not empty, without separator, and neither `.`
nor `..`. -/
def plainName (c : Bytes) : Prop :=
  c ≠ [] ∧ pathSeparator ∉ c ∧ c ≠ [46] ∧ c ≠ [46, 46]

instance (c : Bytes) : Decidable (plainName c) := by
  unfold plainName
  infer_instance

/-- The toggle sentinel `selectPath` puts into the list: `hiddenHider` when
hidden files are shown, `hiddenShower` when they are not. -/
def toggleSentinel (showHidden : Bool) : EntryRef :=
  if showHidden then EntryRef.hiddenHider else EntryRef.hiddenShower

/-- The picker invocations made so far, oldest first. -/
abbrev Shown := List (Bytes × List EntryRef)

/-- How a run of `selectPath` ends. -/
inductive Exit where
  /-- the call of `die`: the directory could not be opened or read -/
  | died
  /-- a run-time panic -/
  | panicked
  /-- the string returned -/
  | returned (v : Bytes)
  deriving DecidableEq, Repr

/-- One pass of the loop of `selectPath` from the state `(pathElts, showHidden)`:
either the end of the run, or the state of the next pass; with it the picker
invocation made, if one was. `join` is `filepath.Join` and `readdir` the
directory listing (`os.Open` and `Readdir`), `none` when either fails. -/
def selectStep (caseSensitiveSort : Bool) (toLower : Bytes → Bytes)
    (sortFn : (EntryRef → EntryRef → Bool) → List EntryRef → List EntryRef)
    (join : List Bytes → Bytes) (readdir : Bytes → Option (List FileInfo))
    (dcmd : Picker) (returnDir : Bool) (pathElts : List Bytes) (showHidden : Bool) :
    (Exit ⊕ (List Bytes × Bool)) × Option (Bytes × List EntryRef) :=
  let cur_path := join pathElts
  match readdir cur_path with
  | none => (Sum.inl Exit.died, none)
  | some actual_filez =>
    match buildEntriez caseSensitiveSort toLower sortFn returnDir showHidden actual_filez with
    | none => (Sum.inl Exit.panicked, none)
    | some entriez =>
      match (DmenuSelect itemOps dcmd cur_path entriez).1 with
      | none =>
          if pathElts.length ≤ 1 then (Sum.inl (Exit.returned []), some (cur_path, entriez))
          else (Sum.inr (pathElts.take (pathElts.length - 1), showHidden),
                some (cur_path, entriez))
      | some EntryRef.directorySelector =>
          (Sum.inl (Exit.returned cur_path), some (cur_path, entriez))
      | some EntryRef.hiddenShower => (Sum.inr (pathElts, true), some (cur_path, entriez))
      | some EntryRef.hiddenHider => (Sum.inr (pathElts, false), some (cur_path, entriez))
      | some (EntryRef.fresh choice) =>
          if choice.isDir then
            (Sum.inr (pathElts ++ [choice.name], showHidden), some (cur_path, entriez))
          else
            (Sum.inl (Exit.returned (join [cur_path, choice.name])), some (cur_path, entriez))

/-- The function `selectPath`: `none` when `fuel` passes of the loop did not end
the run; otherwise how it ended and the picker invocations made. The picker is
`picker k` at its `k`-th invocation. -/
def selectPath (caseSensitiveSort : Bool) (toLower : Bytes → Bytes)
    (sortFn : (EntryRef → EntryRef → Bool) → List EntryRef → List EntryRef)
    (join : List Bytes → Bytes) (readdir : Bytes → Option (List FileInfo))
    (picker : Nat → Picker) (returnDir : Bool) :
    Nat → List Bytes → Bool → Shown → Option (Exit × Shown)
  | 0, _, _, _ => none
  | fuel + 1, pathElts, showHidden, shown =>
    match selectStep caseSensitiveSort toLower sortFn join readdir (picker shown.length)
        returnDir pathElts showHidden with
    | (Sum.inl e, call) => some (e, shown ++ call.toList)
    | (Sum.inr (pathElts1, showHidden1), call) =>
        selectPath caseSensitiveSort toLower sortFn join readdir picker returnDir fuel
          pathElts1 showHidden1 (shown ++ call.toList)

end Fdmfc

/-! ## utils/fdmcm.go -/

namespace Fdmcm

/-- The verb `%0*d` of `fmt` for a width that is not negative: the digits are
filled with zeros on the left up to the width, one less when a sign is written,
and the result goes through `pad` with the zero flag off. -/
def zeroPadInt (wid : Nat) (n : Int) : Bytes :=
  let digits := fmtNat n.natAbs
  let prec := if n < 0 then wid - 1 else wid
  let body := List.replicate (prec - digits.length) 48 ++ digits
  padString true wid false (if n < 0 then 45 :: body else body)

/-- The verb `%0*d` of `fmt`: a refused width writes `badWidthString` and the
plain number; a negative width is its absolute value with the minus flag set
and the zero flag cleared. -/
def starZeroInt (w : Int) (n : Int) : Bytes :=
  if tooLarge w then badWidthString ++ fmtInt n
  else if w < 0 then padString true (-w).toNat true (fmtInt n)
  else zeroPadInt w.toNat n

/-- The type `Entry` of fdmcm. -/
structure Entry where
  n : Int
  path : Bytes
  prev : Bytes
  deriving DecidableEq, Repr

def Entry.Key (e : Entry) : Bytes := fmtInt e.n

def Entry.MenuLine (e : Entry) (k_width : Int) : Bytes :=
  starZeroInt k_width e.n ++ ascii "    " ++ e.prev ++ ascii "\n"

def Entry.SortsBefore (e oi : Entry) : Bool := decide (e.n > oi.n)

/-- The methods by which `*Entry` implements `dmx.Item`. -/
def itemOps : Dmx.Item Entry where
  Key := Entry.Key
  MenuLine := Entry.MenuLine
  SortsBefore := Entry.SortsBefore

end Fdmcm

/-! ## Concrete inputs -/

/-- The three to-do items numbered 1, 2 and 3. -/
def threeItems : List Dtodo.Item :=
  [⟨1, ascii "rake"⟩, ⟨2, ascii "mow"⟩, ⟨3, ascii "sow"⟩]

/-- A picker that exits successfully with the given output. -/
def echoPicker (out : Bytes) : Picker := fun _ _ _ => ⟨none, out⟩

/-- An entry of fatdmenu whose description ends with a newline. -/
def noteEntry : Fatdmenu.FItem :=
  Fatdmenu.FItem.entry (ascii "k") (ascii "note\n") (ascii "v")

/-- A small hierarchy: a category `web` holding one entry, and an entry `mail`. -/
def baseCat : Fatdmenu.Category :=
  { Token := [], Desc := ascii "Base Category",
    Stuff := [Fatdmenu.FItem.entry (ascii "mail") (ascii "the mail") (ascii "mutt"),
              Fatdmenu.FItem.category (ascii "web") (ascii "sites")
                [Fatdmenu.FItem.entry (ascii "lean") (ascii "prover") (ascii "lean-lang.org")]] }

/-- A picker for `baseCat` in browse mode: the line of `web/` is chosen, then
nothing in `web/`, then the line of `mail`. -/
def backPicker : Nat → Picker
  | 0 => echoPicker (ascii "web/    sites\n")
  | 1 => echoPicker []
  | _ => echoPicker (ascii "mail    the mail\n")

/-- A picker for `baseCat` in browse mode: the line of `web/` is chosen, then
the picker fails in `web/`, then the line of `mail` is chosen. -/
def failPicker : Nat → Picker
  | 0 => echoPicker (ascii "web/    sites\n")
  | 1 => fun _ _ _ => ⟨some (Error.exit 1), []⟩
  | _ => echoPicker (ascii "mail    the mail\n")

/-- The function `strings.ToLower` on ASCII text. -/
def asciiToLower (s : Bytes) : Bytes := s.map (fun c => if 65 ≤ c ∧ c ≤ 90 then c + 32 else c)

/-- The function `filepath.Join` on the root and plain names: the elements
joined by slashes, with no slash doubled after the root. -/
def plainJoin : List Bytes → Bytes
  | [] => []
  | [e] => e
  | e :: rest => if e = [47] then 47 :: plainJoin rest else e ++ 47 :: plainJoin rest

/-- A small file system: `/` holds the directory `etc`, the hidden directory
`.git` and the file `f`; `/etc` holds the file `hosts`. -/
def smallFs (path : Bytes) : Option (List Fdmfc.FileInfo) :=
  if path = ascii "/" then some [⟨ascii "f", false⟩, ⟨ascii ".git", true⟩, ⟨ascii "etc", true⟩]
  else if path = ascii "/etc" then some [⟨ascii "hosts", false⟩]
  else none

/-- A picker for `smallFs` started in `/etc`: it fails there, then the line of
`f` is chosen in `/`. -/
def failThenFile : Nat → Picker
  | 0 => fun _ _ _ => ⟨some Error.spawn, []⟩
  | _ => echoPicker (ascii "f\n")

/-- A hierarchy in memory: the root at address 0 holds the entry `mail` at 1 and
the category `web` at 2, which holds the entry `lean` at 3. -/
def baseNode : Fatdmenu.Node :=
  Fatdmenu.Node.category 0 [] (ascii "Base Category")
    [Fatdmenu.Node.entry 1 (ascii "mail") (ascii "the mail") (ascii "mutt"),
     Fatdmenu.Node.category 2 (ascii "web") (ascii "sites")
       [Fatdmenu.Node.entry 3 (ascii "lean") (ascii "prover") (ascii "lean-lang.org")]]

/-- A picker for `smallFs` started in `/etc`: nothing is chosen there, then the
line of `f` is chosen in `/`. -/
def cancelThenFile : Nat → Picker
  | 0 => echoPicker []
  | _ => echoPicker (ascii "f\n")

/-- A to-do list in ascending order with a number held twice and a gap. -/
def gapItems : List Dtodo.Item :=
  [⟨0, ascii "rake"⟩, ⟨0, ascii "mow"⟩, ⟨1, ascii "sow"⟩, ⟨5, ascii "hoe"⟩]

/-- A hierarchy three levels deep: `web` holds the category `sub`, which holds
the entry `lean`; next to `web` stands the entry `mail`. -/
def deepCat : Fatdmenu.Category :=
  { Token := [], Desc := ascii "Base Category",
    Stuff := [Fatdmenu.FItem.entry (ascii "mail") (ascii "the mail") (ascii "mutt"),
              Fatdmenu.FItem.category (ascii "web") (ascii "sites")
                [Fatdmenu.FItem.category (ascii "sub") (ascii "deeper")
                  [Fatdmenu.FItem.entry (ascii "lean") (ascii "prover")
                    (ascii "lean-lang.org")]]] }

/-- A picker for `deepCat` in browse mode: `web/` is chosen, then `sub/`, then
nothing in `sub/`, then nothing in `web/`, then `mail`. -/
def deepPicker : Nat → Picker
  | 0 => echoPicker (ascii "web/    sites\n")
  | 1 => echoPicker (ascii "sub/    deeper\n")
  | 2 => echoPicker []
  | 3 => echoPicker []
  | _ => echoPicker (ascii "mail    the mail\n")

/-- A picker for `baseCat` in browse mode: the line of `web/` is chosen, and
nothing at any invocation after it. -/
def leavePicker : Nat → Picker
  | 0 => echoPicker (ascii "web/    sites\n")
  | _ => echoPicker []

/-! ## Theorems -/

/-! ### ensureReturnminated -/

theorem ensureReturnminated_snoc (init : Bytes) (x : Byte) :
    ensureReturnminated (init ++ [x]) = if x = 10 then init ++ [x] else init ++ [x] ++ [10] := by
  unfold ensureReturnminated
  have h1 : ¬ ((init ++ [x]).length < crlfLength) := by simp [crlfLength, CRLF]
  have h2 : (init ++ [x]).drop ((init ++ [x]).length - crlfLength) = [x] := by
    simp [crlfLength, CRLF]
  rw [if_neg h1, h2]
  by_cases hx : x = 10
  · simp [hx, CRLF]
  · simp [hx, CRLF]

theorem ensureReturnminated_eq (bs : Bytes) :
    ensureReturnminated bs = if bs.getLast? = some 10 then bs else bs ++ [10] := by
  rcases List.eq_nil_or_concat bs with h | ⟨init, x, h⟩
  · subst h; rfl
  · subst h
    rw [List.concat_eq_append, ensureReturnminated_snoc]
    by_cases hx : x = 10
    · simp [hx]
    · simp [hx]

theorem ensureReturnminated_getLast (bs : Bytes) :
    (ensureReturnminated bs).getLast? = some 10 := by
  rw [ensureReturnminated_eq]
  by_cases h : bs.getLast? = some 10
  · simp [h]
  · simp [h]

theorem ensureReturnminated_ne_nil (bs : Bytes) : ensureReturnminated bs ≠ [] := by
  intro h
  have := ensureReturnminated_getLast bs
  rw [h] at this
  simp at this

/-! ### The final loop of DmenuSelect -/

theorem scanLines_not_mem {α : Type} (out : Bytes) :
    ∀ (lines : List Bytes) (items : List α), out ∉ lines → scanLines out lines items = none
  | [], _, _ => by simp [scanLines]
  | _ :: _, [], _ => by simp [scanLines]
  | ml :: mls, itm :: rest, h => by
      have h1 : out ≠ ml := fun e => h (by simp [e])
      have h2 : out ∉ mls := fun e => h (by simp [e])
      simp [scanLines, h1, scanLines_not_mem out mls rest h2]

theorem scanLines_map {α : Type} (f : α → Bytes) (out : Bytes) :
    ∀ (l : List α) (i : Nat) (hi : i < l.length), (l.map f).Nodup →
      f (l.get ⟨i, hi⟩) = out → scanLines out (l.map f) l = some (l.get ⟨i, hi⟩)
  | [], i, hi, _, _ => by simp at hi
  | a :: rest, 0, _, _, h => by
      simp only [List.get_eq_getElem, List.getElem_cons_zero] at h
      simp [scanLines, h]
  | a :: rest, i + 1, hi, hnd, h => by
      have hi1 : i < rest.length := by simpa using hi
      simp only [List.get_eq_getElem, List.getElem_cons_succ] at h
      rw [List.map_cons, List.nodup_cons] at hnd
      have hmem : out ∈ rest.map f := by
        rw [← h]; exact List.mem_map_of_mem f (List.getElem_mem hi1)
      have hne : out ≠ f a := fun e => hnd.1 (e ▸ hmem)
      have ih := scanLines_map f out rest i hi1 hnd.2 (by simpa using h)
      simp only [List.get_eq_getElem] at ih
      simp [scanLines, hne, ih]

theorem DmenuSelect_of_ok {α : Type} (I : Item α) (dcmd : Picker) (prompt : Bytes)
    (input : List α) (h : (dcmd input.length prompt (menuLines I input).flatten).err = none) :
    DmenuSelect I dcmd prompt input =
      (scanLines (dcmd input.length prompt (menuLines I input).flatten).stdout
        (menuLines I input) input, none) := by
  simp only [DmenuSelect, h]

theorem DmenuSelect_of_err {α : Type} (I : Item α) (dcmd : Picker) (prompt : Bytes)
    (input : List α) (e : Error)
    (h : (dcmd input.length prompt (menuLines I input).flatten).err = some e) :
    DmenuSelect I dcmd prompt input = (none, some e) := by
  simp only [DmenuSelect, h]

/-! ### C1 -/

/-- C1: round trip of `DmenuSelect`. For every prompt, every item list whose
formatted lines are pairwise distinct and every index `i` of the list, if the
picker exits successfully and its output is the formatted line of item `i`, then
`DmenuSelect` returns item `i` and no error. -/
theorem DmenuSelect_round_trip {α : Type} (I : Item α) (dcmd : Picker) (prompt : Bytes)
    (input : List α) (i : Nat) (hi : i < input.length)
    (hdistinct : (menuLines I input).Nodup)
    (hok : (dcmd input.length prompt (menuLines I input).flatten).err = none)
    (hout : (dcmd input.length prompt (menuLines I input).flatten).stdout =
      ensureReturnminated (I.MenuLine (input.get ⟨i, hi⟩) (keyLen I input))) :
    DmenuSelect I dcmd prompt input = (some (input.get ⟨i, hi⟩), none) := by
  rw [DmenuSelect_of_ok I dcmd prompt input hok, hout]
  have := scanLines_map (fun itm => ensureReturnminated (I.MenuLine itm (keyLen I input)))
    (ensureReturnminated (I.MenuLine (input.get ⟨i, hi⟩) (keyLen I input))) input i hi
    hdistinct rfl
  unfold menuLines
  rw [this]

/-- C1, witness: of three to-do items numbered 1, 2, 3, the output equal to the
line of item 2 yields item 2. -/
theorem DmenuSelect_round_trip_witness :
    menuLines Dtodo.itemOps threeItems = [ascii "1  rake\n", ascii "2  mow\n", ascii "3  sow\n"] ∧
    DmenuSelect Dtodo.itemOps (echoPicker (ascii "2  mow\n")) (ascii ">") threeItems =
      (some ⟨2, ascii "mow"⟩, none) :=
  ⟨by decide,
   DmenuSelect_round_trip Dtodo.itemOps (echoPicker (ascii "2  mow\n")) (ascii ">") threeItems 1
     (by decide) (by decide) (by decide) (by decide)⟩

/-! ### C2 -/

/-- C2, counterexample: the picker exits successfully with the non-empty output
`zzz\n`, which is the line of none of the three items; `DmenuSelect` returns no
item and no error, the very result it gives for an empty output. -/
theorem DmenuSelect_mismatch_counterexample :
    ascii "zzz\n" ≠ [] ∧ ascii "zzz\n" ∉ menuLines Dtodo.itemOps threeItems ∧
    DmenuSelect Dtodo.itemOps (echoPicker (ascii "zzz\n")) (ascii ">") threeItems = (none, none) ∧
    DmenuSelect Dtodo.itemOps (echoPicker (ascii "zzz\n")) (ascii ">") threeItems =
      DmenuSelect Dtodo.itemOps (echoPicker []) (ascii ">") threeItems := by
  decide

/-- C2, amended: for every item list and every picker output (the picker having
exited successfully) that is the formatted line of no item, `DmenuSelect`
returns no item and no error, so that a non-empty unmatched output gives the
same result as no selection. -/
theorem DmenuSelect_mismatch {α : Type} (I : Item α) (dcmd : Picker) (prompt : Bytes)
    (input : List α)
    (hok : (dcmd input.length prompt (menuLines I input).flatten).err = none)
    (hno : (dcmd input.length prompt (menuLines I input).flatten).stdout ∉ menuLines I input) :
    DmenuSelect I dcmd prompt input = (none, none) := by
  rw [DmenuSelect_of_ok I dcmd prompt input hok, scanLines_not_mem _ _ _ hno]

/-- C2, witness of the amended claim: the output `zzz\n` against the three items. -/
theorem DmenuSelect_mismatch_witness :
    DmenuSelect Dtodo.itemOps (echoPicker (ascii "zzz\n")) (ascii ">") threeItems = (none, none) :=
  DmenuSelect_mismatch Dtodo.itemOps (echoPicker (ascii "zzz\n")) (ascii ">") threeItems
    (by decide) (by decide)

/-! ### C3 -/

theorem menuLines_ne_nil {α : Type} (I : Item α) (input : List α) :
    ∀ ml ∈ menuLines I input, ml ≠ [] := by
  intro ml h
  unfold menuLines at h
  rcases List.mem_map.1 h with ⟨itm, _, rfl⟩
  exact ensureReturnminated_ne_nil _

theorem DmenuSelect_cancel {α : Type} (I : Item α) (dcmd : Picker) (prompt : Bytes)
    (input : List α)
    (h : dcmd input.length prompt (menuLines I input).flatten = ⟨none, []⟩) :
    DmenuSelect I dcmd prompt input = (none, none) := by
  have hno : ([] : Bytes) ∉ menuLines I input := fun h => menuLines_ne_nil I input [] h rfl
  rw [DmenuSelect_of_ok I dcmd prompt input (by rw [h]), h, scanLines_not_mem _ _ _ hno]

/-- C3: for every prompt and every item list, the empty one included and
whatever `MenuLine` returns, if the picker exits successfully with an empty
output then `DmenuSelect` returns no item and no error; no formatted line is
empty, so the empty output matches no item. -/
theorem DmenuSelect_empty_output {α : Type} (I : Item α) (dcmd : Picker) (prompt : Bytes)
    (input : List α)
    (hok : (dcmd input.length prompt (menuLines I input).flatten).err = none)
    (hempty : (dcmd input.length prompt (menuLines I input).flatten).stdout = []) :
    DmenuSelect I dcmd prompt input = (none, none) ∧
      (∀ ml ∈ menuLines I input, ml ≠ []) ∧
      scanLines [] (menuLines I input) input = none := by
  have hno : ([] : Bytes) ∉ menuLines I input := fun h => menuLines_ne_nil I input [] h rfl
  refine ⟨?_, menuLines_ne_nil I input, scanLines_not_mem _ _ _ hno⟩
  rw [DmenuSelect_of_ok I dcmd prompt input hok, hempty, scanLines_not_mem _ _ _ hno]

/-- C3, witness: an empty output against the three to-do items. -/
theorem DmenuSelect_empty_output_witness :
    DmenuSelect Dtodo.itemOps (echoPicker []) (ascii ">") threeItems = (none, none) ∧
      (∀ ml ∈ menuLines Dtodo.itemOps threeItems, ml ≠ []) ∧
      scanLines [] (menuLines Dtodo.itemOps threeItems) threeItems = none :=
  DmenuSelect_empty_output Dtodo.itemOps (echoPicker []) (ascii ">") threeItems rfl rfl

/-! ### C9 -/

theorem suffix_newline_iff (bs : Bytes) : [10] <:+ bs ↔ bs.getLast? = some 10 := by
  rcases List.eq_nil_or_concat bs with h | ⟨init, x, h⟩
  · subst h; simp
  · subst h
    rw [List.concat_eq_append, ← List.reverse_prefix]
    simp [eq_comm]

theorem suffix_two_newlines_snoc (init : Bytes) (x : Byte) :
    [10, 10] <:+ init ++ [x] ↔ x = 10 ∧ [10] <:+ init := by
  rw [← List.reverse_prefix, ← List.reverse_prefix]
  simp [List.cons_prefix_cons, eq_comm]

theorem ensureReturnminated_two_newlines (bs : Bytes) :
    [10, 10] <:+ ensureReturnminated bs ↔ [10, 10] <:+ bs := by
  rcases List.eq_nil_or_concat bs with h | ⟨init, x, h⟩
  · subst h
    have : ensureReturnminated [] = [10] := rfl
    rw [this]
    constructor
    · intro h; have := h.length_le; simp at this
    · intro h; have := h.length_le; simp at this
  · subst h
    rw [List.concat_eq_append, ensureReturnminated_snoc]
    by_cases hx : x = 10
    · simp [hx]
    · rw [if_neg hx, suffix_two_newlines_snoc, suffix_two_newlines_snoc, suffix_newline_iff]
      simp [hx]

/-- C9, counterexample: the line sent to the picker for an `Entry` whose
description ends with a newline ends with two consecutive newlines. -/
theorem menuLine_two_newlines_counterexample :
    menuLines (Fatdmenu.itemOps (ascii "/")) [noteEntry] = [ascii "k    note\n\n"] ∧
    [10, 10] <:+ ascii "k    note\n\n" := by
  refine ⟨by decide, ascii "k    note", by decide⟩

/-- C9, amended: for every item list and every item in it, whatever bytes the
item's `MenuLine` returns, the line sent to the picker has the newline as its
last byte; it is the bytes of `MenuLine` themselves when these end with a
newline and these bytes followed by one newline otherwise, so it ends with two
consecutive newlines exactly when the bytes of `MenuLine` already do. -/
theorem menuLine_terminated {α : Type} (I : Item α) (input : List α) (itm : α)
    (hmem : itm ∈ input) :
    ensureReturnminated (I.MenuLine itm (keyLen I input)) ∈ menuLines I input ∧
    (ensureReturnminated (I.MenuLine itm (keyLen I input))).getLast? = some 10 ∧
    ensureReturnminated (I.MenuLine itm (keyLen I input)) =
      (if [10] <:+ I.MenuLine itm (keyLen I input) then I.MenuLine itm (keyLen I input)
       else I.MenuLine itm (keyLen I input) ++ [10]) ∧
    ([10, 10] <:+ ensureReturnminated (I.MenuLine itm (keyLen I input)) ↔
      [10, 10] <:+ I.MenuLine itm (keyLen I input)) := by
  refine ⟨?_, ensureReturnminated_getLast _, ?_, ensureReturnminated_two_newlines _⟩
  · unfold menuLines
    exact List.mem_map_of_mem _ hmem
  · rw [ensureReturnminated_eq]
    simp only [suffix_newline_iff]

/-- C9, witness of the amended claim: the second of the three to-do items. -/
theorem menuLine_terminated_witness :
    ensureReturnminated (Dtodo.itemOps.MenuLine ⟨2, ascii "mow"⟩ (keyLen Dtodo.itemOps threeItems))
      ∈ menuLines Dtodo.itemOps threeItems ∧
    (ensureReturnminated (Dtodo.itemOps.MenuLine ⟨2, ascii "mow"⟩
      (keyLen Dtodo.itemOps threeItems))).getLast? = some 10 ∧
    ensureReturnminated (Dtodo.itemOps.MenuLine ⟨2, ascii "mow"⟩ (keyLen Dtodo.itemOps threeItems)) =
      (if [10] <:+ Dtodo.itemOps.MenuLine ⟨2, ascii "mow"⟩ (keyLen Dtodo.itemOps threeItems)
       then Dtodo.itemOps.MenuLine ⟨2, ascii "mow"⟩ (keyLen Dtodo.itemOps threeItems)
       else Dtodo.itemOps.MenuLine ⟨2, ascii "mow"⟩ (keyLen Dtodo.itemOps threeItems) ++ [10]) ∧
    ([10, 10] <:+ ensureReturnminated (Dtodo.itemOps.MenuLine ⟨2, ascii "mow"⟩
        (keyLen Dtodo.itemOps threeItems)) ↔
      [10, 10] <:+ Dtodo.itemOps.MenuLine ⟨2, ascii "mow"⟩ (keyLen Dtodo.itemOps threeItems)) :=
  menuLine_terminated Dtodo.itemOps threeItems ⟨2, ascii "mow"⟩ (by decide)

/-! ### C10 -/

/-- C10: for every byte sequence `bs`, the empty one and those shorter than the
terminator included, `ensureReturnminated bs` is `bs` when `bs` ends with the
newline and `bs` followed by exactly one newline otherwise. -/
theorem ensureReturnminated_spec (bs : Bytes) :
    ensureReturnminated bs = if CRLF <:+ bs then bs else bs ++ [10] := by
  rw [ensureReturnminated_eq]
  simp only [CRLF, suffix_newline_iff]

/-! ### heiroSelect -/

namespace Fatdmenu

theorem scanLines_mem {α : Type} (out : Bytes) :
    ∀ (lines : List Bytes) (items : List α) (x : α),
      scanLines out lines items = some x → x ∈ items
  | [], _, _, h => by simp [scanLines] at h
  | _ :: _, [], _, h => by simp [scanLines] at h
  | ml :: mls, itm :: rest, x, h => by
      rw [scanLines] at h
      by_cases e : out = ml
      · rw [if_pos e] at h
        simp only [Option.some.injEq] at h
        simp [h]
      · rw [if_neg e] at h
        exact List.mem_cons_of_mem _ (scanLines_mem out mls rest x h)

theorem DmenuSelect_mem {α : Type} (I : Item α) (dcmd : Picker) (prompt : Bytes)
    (input : List α) (x : α) (e : Option Error)
    (h : DmenuSelect I dcmd prompt input = (some x, e)) : x ∈ input := by
  unfold DmenuSelect at h
  cases hr : (dcmd input.length prompt (menuLines I input).flatten).err with
  | some err => simp [hr] at h
  | none =>
    simp only [hr, Prod.mk.injEq] at h
    exact scanLines_mem _ _ _ _ h.1

theorem realItems_not_special (onlySelectCat : Bool) :
    ∀ (l : List FItem) (x : FItem), x ∈ realItems onlySelectCat l →
      ∀ line, x ≠ FItem.special line
  | [], x, h => by simp [realItems] at h
  | FItem.category tok desc stuff :: rest, x, h => by
      rw [realItems] at h
      rcases List.mem_cons.1 h with h | h
      · intro line; rw [h]; simp
      · exact realItems_not_special onlySelectCat rest x h
  | FItem.entry tok desc val :: rest, x, h => by
      rw [realItems] at h
      cases onlySelectCat with
      | true => exact realItems_not_special true rest x (by simpa using h)
      | false =>
        simp only [Bool.not_false, if_true] at h
        rcases List.mem_cons.1 h with h | h
        · intro line; rw [h]; simp
        · exact realItems_not_special false rest x h
  | FItem.special l :: rest, x, h => by
      rw [realItems] at h
      exact realItems_not_special onlySelectCat rest x h

theorem newList_not_special (separator : Bytes)
    (sortFn : (FItem → FItem → Bool) → List FItem → List FItem) (onlySelectCat : Bool)
    (cat : Category) :
    ∀ x ∈ newList separator sortFn false onlySelectCat cat, ∀ line, x ≠ FItem.special line := by
  intro x h
  simp only [newList, Bool.false_eq_true, if_false, List.nil_append] at h
  exact realItems_not_special onlySelectCat _ x h

/-- Without category selection the loop of `heiroSelect` returns nil or an entry. -/
theorem heiroLoop_entry_or_nil (separator : Bytes)
    (sortFn : (FItem → FItem → Bool) → List FItem → List FItem)
    (picker : Nat → Picker) (onlySelectCat : Bool) :
    ∀ (fuel : Nat) (cat : Category) (prompt : Bytes) (new_list : List FItem) (shown : Shown)
      (r : Option FItem) (sh : Shown),
      (∀ x ∈ new_list, ∀ line, x ≠ FItem.special line) →
      heiroLoop separator sortFn picker false onlySelectCat fuel cat prompt new_list shown
        = some (r, sh) →
      r = none ∨ ∃ tok desc val, r = some (FItem.entry tok desc val)
  | 0, _, _, _, _, _, _, _, h => by simp [heiroLoop] at h
  | fuel + 1, cat, prompt, new_list, shown, r, sh, hns, h => by
      rw [heiroLoop] at h
      rcases hD : DmenuSelect (itemOps separator) (picker shown.length) prompt new_list
        with ⟨c, e⟩
      rw [hD] at h
      cases e with
      | some err =>
        simp only [Option.some.injEq, Prod.mk.injEq] at h
        exact Or.inl h.1.symm
      | none =>
        cases c with
        | none =>
          simp only [Option.some.injEq, Prod.mk.injEq] at h
          exact Or.inl h.1.symm
        | some x =>
          have hx := DmenuSelect_mem _ _ _ _ _ _ hD
          cases x with
          | entry tok desc val =>
            simp only [Option.some.injEq, Prod.mk.injEq] at h
            exact Or.inr ⟨tok, desc, val, h.1.symm⟩
          | special line => exact absurd rfl (hns _ hx line)
          | category tok desc stuff =>
            simp only at h
            cases hrec : heiroLoop separator sortFn picker false onlySelectCat fuel
                ⟨tok, desc, stuff⟩
                (prompt ++ FItem.Key separator (FItem.category tok desc stuff))
                (newList separator sortFn false onlySelectCat ⟨tok, desc, stuff⟩)
                (shown ++ [(prompt, new_list)]) with
            | none => rw [hrec] at h; simp at h
            | some res =>
              rcases res with ⟨r2, sh2⟩
              rw [hrec] at h
              cases r2 with
              | none =>
                simp only at h
                exact heiroLoop_entry_or_nil separator sortFn picker onlySelectCat fuel cat
                  prompt new_list sh2 r sh hns h
              | some v =>
                simp only [Option.some.injEq, Prod.mk.injEq] at h
                rw [← h.1]
                exact heiroLoop_entry_or_nil separator sortFn picker onlySelectCat fuel _ _ _ _
                  (some v) sh2 (newList_not_special separator sortFn onlySelectCat _) hrec

/-! ### heiroSelect and the navigator of the specification -/

theorem popFrame_run (separator : Bytes)
    (sortFn : (FItem → FItem → Bool) → List FItem → List FItem)
    (picker : Nat → Picker) (canSelectCat onlySelectCat : Bool)
    (n : Nat) (below : List Frame) (shown1 : Shown) :
    (match popFrame below with
      | NavStep.done result => some (result, shown1)
      | NavStep.goOn stack =>
          specNavigate separator sortFn picker canSelectCat onlySelectCat n stack shown1)
    = afterPop separator sortFn picker canSelectCat onlySelectCat n below shown1 := by
  cases below <;> rfl

/-- Every run of the loop of `heiroSelect` that returns is a run of the
navigator of the specification on the stack with the level of the call on top:
a result ends the navigation, and a nil steps back to the level below. -/
theorem heiroLoop_specNavigate (separator : Bytes)
    (sortFn : (FItem → FItem → Bool) → List FItem → List FItem)
    (picker : Nat → Picker) (canSelectCat onlySelectCat : Bool) :
    ∀ (fuel : Nat) (cat : Category) (prompt : Bytes) (new_list : List FItem) (shown : Shown)
      (r : Option FItem) (sh : Shown),
      heiroLoop separator sortFn picker canSelectCat onlySelectCat fuel cat prompt new_list shown
        = some (r, sh) →
      ∃ n, ∀ (below : List Frame) (k : Nat),
        specNavigate separator sortFn picker canSelectCat onlySelectCat (k + n)
            (⟨cat, prompt, new_list⟩ :: below) shown
          = (match r with
             | some v => some (some v, sh)
             | none => afterPop separator sortFn picker canSelectCat onlySelectCat k below sh)
  | 0, _, _, _, _, _, _, h => by simp [heiroLoop] at h
  | fuel + 1, cat, prompt, new_list, shown, r, sh, h => by
      rw [heiroLoop] at h
      rcases hD : DmenuSelect (itemOps separator) (picker shown.length) prompt new_list
        with ⟨c, e⟩
      rw [hD] at h
      have hpop : ∀ (below : List Frame) (k : Nat),
            (match popFrame below with
              | NavStep.done result => some (result, shown ++ [(prompt, new_list)])
              | NavStep.goOn stack =>
                  specNavigate separator sortFn picker canSelectCat onlySelectCat k stack
                    (shown ++ [(prompt, new_list)]))
            = afterPop separator sortFn picker canSelectCat onlySelectCat k below
                (shown ++ [(prompt, new_list)]) :=
        fun below k => popFrame_run separator sortFn picker canSelectCat onlySelectCat k below _
      cases e with
      | some err =>
        simp only [Option.some.injEq, Prod.mk.injEq] at h
        rcases h with ⟨rfl, rfl⟩
        refine ⟨1, fun below k => ?_⟩
        rw [specNavigate]
        simp only [specNavStep, hD]
        exact hpop below k
      | none =>
        cases c with
        | none =>
          simp only [Option.some.injEq, Prod.mk.injEq] at h
          rcases h with ⟨rfl, rfl⟩
          refine ⟨1, fun below k => ?_⟩
          rw [specNavigate]
          simp only [specNavStep, hD]
          exact hpop below k
        | some x =>
          cases x with
          | entry tok desc val =>
            simp only [Option.some.injEq, Prod.mk.injEq] at h
            rcases h with ⟨rfl, rfl⟩
            refine ⟨1, fun below k => ?_⟩
            rw [specNavigate]
            simp only [specNavStep, hD]
          | special line =>
            by_cases hl : line = catSelectorLine separator
            · simp only [hl, if_true, Option.some.injEq, Prod.mk.injEq] at h
              rcases h with ⟨rfl, rfl⟩
              refine ⟨1, fun below k => ?_⟩
              rw [specNavigate]
              simp only [specNavStep, hD, hl, if_true]
            · simp only [hl, if_false, Option.some.injEq, Prod.mk.injEq] at h
              rcases h with ⟨rfl, rfl⟩
              refine ⟨1, fun below k => ?_⟩
              rw [specNavigate]
              simp only [specNavStep, hD, hl, if_false]
              exact hpop below k
          | category tok desc stuff =>
            simp only at h
            cases hrec : heiroLoop separator sortFn picker canSelectCat onlySelectCat fuel
                ⟨tok, desc, stuff⟩
                (prompt ++ FItem.Key separator (FItem.category tok desc stuff))
                (newList separator sortFn canSelectCat onlySelectCat ⟨tok, desc, stuff⟩)
                (shown ++ [(prompt, new_list)]) with
            | none => rw [hrec] at h; simp at h
            | some res =>
              rcases res with ⟨r2, sh2⟩
              rw [hrec] at h
              rcases heiroLoop_specNavigate separator sortFn picker canSelectCat onlySelectCat
                fuel _ _ _ _ r2 sh2 hrec with ⟨n1, ih1⟩
              cases r2 with
              | some v =>
                simp only [Option.some.injEq, Prod.mk.injEq] at h
                rcases h with ⟨rfl, rfl⟩
                refine ⟨n1 + 1, fun below k => ?_⟩
                have e : k + (n1 + 1) = (k + n1) + 1 := by omega
                rw [e, specNavigate]
                simp only [specNavStep, hD]
                exact ih1 _ k
              | none =>
                simp only at h
                rcases heiroLoop_specNavigate separator sortFn picker canSelectCat
                  onlySelectCat fuel cat prompt new_list sh2 r sh h with ⟨n2, ih2⟩
                refine ⟨n2 + n1 + 1, fun below k => ?_⟩
                have e : k + (n2 + n1 + 1) = (k + n2 + n1) + 1 := by omega
                rw [e, specNavigate]
                simp only [specNavStep, hD]
                rw [ih1 _ (k + n2)]
                exact ih2 below k

/-- Every run of the navigator of the specification that ends is, level by
level, a run of the loop of `heiroSelect` given enough fuel. -/
theorem specNavigate_heiroLoop (separator : Bytes)
    (sortFn : (FItem → FItem → Bool) → List FItem → List FItem)
    (picker : Nat → Picker) (canSelectCat onlySelectCat : Bool) :
    ∀ (n : Nat) (top : Frame) (below : List Frame) (shown : Shown)
      (out : Option FItem × Shown),
      specNavigate separator sortFn picker canSelectCat onlySelectCat n (top :: below) shown
        = some out →
      ∃ (n1 : Nat) (r : Option FItem) (sh : Shown),
        (∀ fuel, n1 ≤ fuel →
          heiroLoop separator sortFn picker canSelectCat onlySelectCat fuel top.cat top.prompt
            top.new_list shown = some (r, sh)) ∧
        (match r with
         | some v => out = (some v, sh)
         | none => ∃ k, k < n ∧
            afterPop separator sortFn picker canSelectCat onlySelectCat k below sh = some out) := by
  intro n
  induction n using Nat.strong_induction_on with
  | _ n ih =>
    intro top below shown out h
    cases n with
    | zero => simp [specNavigate] at h
    | succ m =>
      rw [specNavigate] at h
      rcases hD : DmenuSelect (itemOps separator) (picker shown.length) top.prompt top.new_list
        with ⟨c, e⟩
      rw [specNavStep, hD] at h
      have hpop : (match popFrame below with
            | NavStep.done result => some (result, shown ++ [(top.prompt, top.new_list)])
            | NavStep.goOn stack =>
                specNavigate separator sortFn picker canSelectCat onlySelectCat m stack
                  (shown ++ [(top.prompt, top.new_list)])) = some out →
          (∀ fuel, 1 ≤ fuel →
            heiroLoop separator sortFn picker canSelectCat onlySelectCat fuel top.cat
              top.prompt top.new_list shown
              = some (none, shown ++ [(top.prompt, top.new_list)])) →
          ∃ (n1 : Nat) (r : Option FItem) (sh : Shown),
            (∀ fuel, n1 ≤ fuel →
              heiroLoop separator sortFn picker canSelectCat onlySelectCat fuel top.cat
                top.prompt top.new_list shown = some (r, sh)) ∧
            (match r with
             | some v => out = (some v, sh)
             | none => ∃ k, k < m + 1 ∧
                afterPop separator sortFn picker canSelectCat onlySelectCat k below sh
                  = some out) := by
        intro h hrun
        rw [popFrame_run] at h
        exact ⟨1, none, _, hrun, m, Nat.lt_succ_self m, h⟩
      cases e with
      | some err =>
        simp only at h
        refine hpop h ?_
        intro fuel hf
        obtain ⟨f, rfl⟩ : ∃ f, fuel = f + 1 := ⟨fuel - 1, by omega⟩
        rw [heiroLoop, hD]
        simp only
      | none =>
        cases c with
        | none =>
          simp only at h
          refine hpop h ?_
          intro fuel hf
          obtain ⟨f, rfl⟩ : ∃ f, fuel = f + 1 := ⟨fuel - 1, by omega⟩
          rw [heiroLoop, hD]
        | some x =>
          cases x with
          | entry tok desc val =>
            simp only [Option.some.injEq] at h
            refine ⟨1, some (FItem.entry tok desc val), _, ?_, h.symm⟩
            intro fuel hf
            obtain ⟨f, rfl⟩ : ∃ f, fuel = f + 1 := ⟨fuel - 1, by omega⟩
            rw [heiroLoop, hD]
          | special line =>
            by_cases hl : line = catSelectorLine separator
            · simp only [hl, if_true, Option.some.injEq] at h
              refine ⟨1, some (FItem.category top.cat.Token top.cat.Desc
                (sortFn FItem.SortsBefore top.cat.Stuff)), _, ?_, h.symm⟩
              intro fuel hf
              obtain ⟨f, rfl⟩ : ∃ f, fuel = f + 1 := ⟨fuel - 1, by omega⟩
              rw [heiroLoop, hD]
              simp only [hl, if_true]
            · simp only [hl, if_false] at h
              refine hpop h ?_
              intro fuel hf
              obtain ⟨f, rfl⟩ : ∃ f, fuel = f + 1 := ⟨fuel - 1, by omega⟩
              rw [heiroLoop, hD]
              simp only [hl, if_false]
          | category tok desc stuff =>
            simp only at h
            rcases ih m (Nat.lt_succ_self m) _ _ _ out h with ⟨n1, r2, sh2, hchild, hcond⟩
            dsimp only at hchild
            cases r2 with
            | some v =>
              refine ⟨n1 + 1, some v, sh2, ?_, hcond⟩
              intro fuel hf
              obtain ⟨f, rfl⟩ : ∃ f, fuel = f + 1 := ⟨fuel - 1, by omega⟩
              rw [heiroLoop, hD]
              simp only
              rw [hchild f (by omega)]
            | none =>
              rcases hcond with ⟨k, hk, hrun⟩
              rcases ih k (by omega) top below sh2 out hrun with ⟨n2, r, sh, hpar, hc2⟩
              refine ⟨max n1 n2 + 1, r, sh, ?_, ?_⟩
              · intro fuel hf
                obtain ⟨f, rfl⟩ : ∃ f, fuel = f + 1 := ⟨fuel - 1, by omega⟩
                have hf1 : n1 ≤ f := by omega
                have hf2 : n2 ≤ f := by omega
                rw [heiroLoop, hD]
                simp only
                rw [hchild f hf1]
                exact hpar f hf2
              · cases r with
                | some v => exact hc2
                | none =>
                  rcases hc2 with ⟨k2, hk2, hrun2⟩
                  exact ⟨k2, by omega, hrun2⟩

/-! ### C4 -/

/-- C4: back-navigation in `heiroSelect`, for every category, prompt, flags,
picker (hence every sequence of responses) and earlier invocations `shown`.
(1) A no-selection response to the list of the call makes the call return nil
after that one invocation, which for the outermost call ends the navigation
with nothing. (2) When a child category is chosen, the child's list is shown
under the prompt followed by the child's `Key()`, and when the response there is
no selection, the next invocation shows the parent's list under the parent's
prompt again, and an entry chosen there is the result. (3) Whatever happened in
the call on a chosen child category, however deep it went: when it returns nil
with the invocations `sh2` made, the call on the parent goes on as the call on
the parent's category and prompt after `sh2`; so the invocation after `sh2`
shows the parent's list under the parent's prompt, an entry chosen there is the
result, and no selection there makes the call on the parent return nil. (4) and
(5) Over whole runs `heiroSelect` is the navigator of the specification started
on the stack that holds the level of the call alone: every result of
`heiroSelect` is the result of the navigator with the same invocations, and
every run of the navigator that ends is the result of `heiroSelect` with any
fuel from some bound on. (6) In the navigator a no-selection response ends the
navigation with nothing when no level is below the one displayed, and makes the
parent level the one displayed next otherwise. -/
theorem heiroSelect_back_navigation (separator : Bytes)
    (sortFn : (FItem → FItem → Bool) → List FItem → List FItem) (picker : Nat → Picker)
    (canSelectCat onlySelectCat : Bool) (fuel : Nat) (cat : Category) (prompt : Bytes)
    (shown : Shown) :
    (picker shown.length (newList separator sortFn canSelectCat onlySelectCat cat).length prompt
        (menuLines (itemOps separator)
          (newList separator sortFn canSelectCat onlySelectCat cat)).flatten = ⟨none, []⟩ →
      heiroSelect separator sortFn picker canSelectCat onlySelectCat (fuel + 1) cat prompt shown
        = some (none,
            shown ++ [(prompt, newList separator sortFn canSelectCat onlySelectCat cat)])) ∧
    (∀ (tok desc : Bytes) (stuff : List FItem) (tok2 desc2 val2 : Bytes),
      DmenuSelect (itemOps separator) (picker shown.length) prompt
          (newList separator sortFn canSelectCat onlySelectCat cat)
        = (some (FItem.category tok desc stuff), none) →
      picker (shown.length + 1)
          (newList separator sortFn canSelectCat onlySelectCat ⟨tok, desc, stuff⟩).length
          (prompt ++ FItem.Key separator (FItem.category tok desc stuff))
          (menuLines (itemOps separator)
            (newList separator sortFn canSelectCat onlySelectCat ⟨tok, desc, stuff⟩)).flatten
        = ⟨none, []⟩ →
      DmenuSelect (itemOps separator) (picker (shown.length + 2)) prompt
          (newList separator sortFn canSelectCat onlySelectCat cat)
        = (some (FItem.entry tok2 desc2 val2), none) →
      heiroSelect separator sortFn picker canSelectCat onlySelectCat (fuel + 3) cat prompt shown
        = some (some (FItem.entry tok2 desc2 val2),
            shown ++ [(prompt, newList separator sortFn canSelectCat onlySelectCat cat),
              (prompt ++ FItem.Key separator (FItem.category tok desc stuff),
                newList separator sortFn canSelectCat onlySelectCat ⟨tok, desc, stuff⟩),
              (prompt, newList separator sortFn canSelectCat onlySelectCat cat)])) ∧
    (∀ (tok desc : Bytes) (stuff : List FItem) (sh2 : Shown),
      DmenuSelect (itemOps separator) (picker shown.length) prompt
          (newList separator sortFn canSelectCat onlySelectCat cat)
        = (some (FItem.category tok desc stuff), none) →
      heiroSelect separator sortFn picker canSelectCat onlySelectCat fuel ⟨tok, desc, stuff⟩
          (prompt ++ FItem.Key separator (FItem.category tok desc stuff))
          (shown ++ [(prompt, newList separator sortFn canSelectCat onlySelectCat cat)])
        = some (none, sh2) →
      heiroSelect separator sortFn picker canSelectCat onlySelectCat (fuel + 1) cat prompt shown
          = heiroSelect separator sortFn picker canSelectCat onlySelectCat fuel cat prompt sh2 ∧
      (∀ (tok2 desc2 val2 : Bytes),
        DmenuSelect (itemOps separator) (picker sh2.length) prompt
            (newList separator sortFn canSelectCat onlySelectCat cat)
          = (some (FItem.entry tok2 desc2 val2), none) →
        heiroSelect separator sortFn picker canSelectCat onlySelectCat (fuel + 1) cat prompt
            shown
          = some (some (FItem.entry tok2 desc2 val2),
              sh2 ++ [(prompt, newList separator sortFn canSelectCat onlySelectCat cat)])) ∧
      (picker sh2.length (newList separator sortFn canSelectCat onlySelectCat cat).length prompt
          (menuLines (itemOps separator)
            (newList separator sortFn canSelectCat onlySelectCat cat)).flatten = ⟨none, []⟩ →
        heiroSelect separator sortFn picker canSelectCat onlySelectCat (fuel + 1) cat prompt
            shown
          = some (none,
              sh2 ++ [(prompt, newList separator sortFn canSelectCat onlySelectCat cat)]))) ∧
    (∀ (out : Option FItem × Shown),
      heiroSelect separator sortFn picker canSelectCat onlySelectCat fuel cat prompt shown
        = some out →
      ∃ n, specNavigate separator sortFn picker canSelectCat onlySelectCat n
          [⟨cat, prompt, newList separator sortFn canSelectCat onlySelectCat cat⟩] shown
        = some out) ∧
    (∀ (n : Nat) (out : Option FItem × Shown),
      specNavigate separator sortFn picker canSelectCat onlySelectCat n
          [⟨cat, prompt, newList separator sortFn canSelectCat onlySelectCat cat⟩] shown
        = some out →
      ∃ n1, ∀ f, n1 ≤ f →
        heiroSelect separator sortFn picker canSelectCat onlySelectCat f cat prompt shown
          = some out) ∧
    (∀ (dcmd : Picker) (top : Frame),
      dcmd top.new_list.length top.prompt (menuLines (itemOps separator) top.new_list).flatten
        = ⟨none, []⟩ →
      specNavStep separator sortFn canSelectCat onlySelectCat dcmd top [] = NavStep.done none ∧
      ∀ (parent : Frame) (rest : List Frame),
        specNavStep separator sortFn canSelectCat onlySelectCat dcmd top (parent :: rest)
          = NavStep.goOn (parent :: rest)) := by
  refine ⟨?_, ?_, ?_, ?_, ?_, ?_⟩
  · intro hcancel
    have hD := DmenuSelect_cancel (itemOps separator) (picker shown.length) prompt
      (newList separator sortFn canSelectCat onlySelectCat cat) hcancel
    rw [heiroSelect, heiroLoop, hD]
  · intro tok desc stuff tok2 desc2 val2 hchild hcancel hleaf
    have hD := DmenuSelect_cancel (itemOps separator) (picker (shown.length + 1))
      (prompt ++ FItem.Key separator (FItem.category tok desc stuff))
      (newList separator sortFn canSelectCat onlySelectCat ⟨tok, desc, stuff⟩) hcancel
    have hlen1 : (shown ++ [(prompt,
        newList separator sortFn canSelectCat onlySelectCat cat)]).length = shown.length + 1 := by
      simp
    have hlen2 : (shown ++ [(prompt, newList separator sortFn canSelectCat onlySelectCat cat)] ++
        [(prompt ++ FItem.Key separator (FItem.category tok desc stuff),
          newList separator sortFn canSelectCat onlySelectCat ⟨tok, desc, stuff⟩)]).length
        = shown.length + 2 := by
      simp
    have hchildRun : heiroLoop separator sortFn picker canSelectCat onlySelectCat (fuel + 2)
        ⟨tok, desc, stuff⟩ (prompt ++ FItem.Key separator (FItem.category tok desc stuff))
        (newList separator sortFn canSelectCat onlySelectCat ⟨tok, desc, stuff⟩)
        (shown ++ [(prompt, newList separator sortFn canSelectCat onlySelectCat cat)])
        = some (none,
            shown ++ [(prompt, newList separator sortFn canSelectCat onlySelectCat cat)] ++
            [(prompt ++ FItem.Key separator (FItem.category tok desc stuff),
              newList separator sortFn canSelectCat onlySelectCat ⟨tok, desc, stuff⟩)]) := by
      rw [heiroLoop, hlen1, hD]
    have hparentRun : heiroLoop separator sortFn picker canSelectCat onlySelectCat (fuel + 2)
        cat prompt (newList separator sortFn canSelectCat onlySelectCat cat)
        (shown ++ [(prompt, newList separator sortFn canSelectCat onlySelectCat cat)] ++
            [(prompt ++ FItem.Key separator (FItem.category tok desc stuff),
              newList separator sortFn canSelectCat onlySelectCat ⟨tok, desc, stuff⟩)])
        = some (some (FItem.entry tok2 desc2 val2),
            shown ++ [(prompt, newList separator sortFn canSelectCat onlySelectCat cat)] ++
            [(prompt ++ FItem.Key separator (FItem.category tok desc stuff),
              newList separator sortFn canSelectCat onlySelectCat ⟨tok, desc, stuff⟩)] ++
            [(prompt, newList separator sortFn canSelectCat onlySelectCat cat)]) := by
      rw [heiroLoop, hlen2, hleaf]
    rw [heiroSelect, heiroLoop, hchild]
    simp only [hchildRun, hparentRun]
    simp
  · intro tok desc stuff sh2 hchild hrun
    have hstep : heiroSelect separator sortFn picker canSelectCat onlySelectCat (fuel + 1) cat
        prompt shown
        = heiroSelect separator sortFn picker canSelectCat onlySelectCat fuel cat prompt sh2 := by
      rw [heiroSelect] at hrun
      rw [heiroSelect, heiroLoop, hchild]
      simp only [hrun]
      rfl
    cases fuel with
    | zero => simp [heiroSelect, heiroLoop] at hrun
    | succ f =>
      refine ⟨hstep, ?_, ?_⟩
      · intro tok2 desc2 val2 hleaf
        rw [hstep, heiroSelect, heiroLoop, hleaf]
      · intro hcancel
        have hD := DmenuSelect_cancel (itemOps separator) (picker sh2.length) prompt
          (newList separator sortFn canSelectCat onlySelectCat cat) hcancel
        rw [hstep, heiroSelect, heiroLoop, hD]
  · intro out h
    rcases out with ⟨r, sh⟩
    rcases heiroLoop_specNavigate separator sortFn picker canSelectCat onlySelectCat fuel cat
      prompt _ shown r sh h with ⟨n, hn⟩
    refine ⟨0 + n, ?_⟩
    rw [hn [] 0]
    cases r <;> rfl
  · intro n out h
    rcases specNavigate_heiroLoop separator sortFn picker canSelectCat onlySelectCat n _ []
      shown out h with ⟨n1, r, sh, hrun, hc⟩
    cases r with
    | some v =>
      dsimp only at hc
      subst hc
      exact ⟨n1, hrun⟩
    | none =>
      rcases hc with ⟨k, _, hk⟩
      simp only [afterPop, Option.some.injEq] at hk
      subst hk
      exact ⟨n1, hrun⟩
  · intro dcmd top hcancel
    have hD := DmenuSelect_cancel (itemOps separator) dcmd top.prompt top.new_list hcancel
    constructor
    · rw [specNavStep, hD]
      rfl
    · intro parent rest
      rw [specNavStep, hD]
      rfl

/-- C4, witness: in `baseCat` the category `web/` is entered under the prompt
`web/`, nothing is chosen there, and the entry `mail` chosen next in the list of
`baseCat` is the result; a no-selection response to the list of `baseCat` ends
the navigation with nothing, also after `web/` was entered and left. In
`deepCat` the responses `web/`, `sub/`, nothing, nothing, `mail` show `web/`
under `web/`, `sub/` under `web/sub/`, `web/` again, the root again, and return
`mail`; the navigator of the specification does the same in five invocations,
and on no selection it ends at `baseCat` alone and steps back from `web/` to
`baseCat`. -/
theorem heiroSelect_back_navigation_witness :
    heiroSelect (ascii "/") insertionSort (fun _ => echoPicker []) false false 1 baseCat [] []
      = some (none, [([], newList (ascii "/") insertionSort false false baseCat)]) ∧
    heiroSelect (ascii "/") insertionSort backPicker false false 3 baseCat [] []
      = some (some (FItem.entry (ascii "mail") (ascii "the mail") (ascii "mutt")),
          [([], newList (ascii "/") insertionSort false false baseCat),
           (ascii "web/", [FItem.entry (ascii "lean") (ascii "prover") (ascii "lean-lang.org")]),
           ([], newList (ascii "/") insertionSort false false baseCat)]) ∧
    heiroSelect (ascii "/") insertionSort deepPicker false false 4 deepCat [] []
      = some (some (FItem.entry (ascii "mail") (ascii "the mail") (ascii "mutt")),
          [([], newList (ascii "/") insertionSort false false deepCat),
           (ascii "web/", [FItem.category (ascii "sub") (ascii "deeper")
              [FItem.entry (ascii "lean") (ascii "prover") (ascii "lean-lang.org")]]),
           (ascii "web/sub/",
              [FItem.entry (ascii "lean") (ascii "prover") (ascii "lean-lang.org")]),
           (ascii "web/", [FItem.category (ascii "sub") (ascii "deeper")
              [FItem.entry (ascii "lean") (ascii "prover") (ascii "lean-lang.org")]]),
           ([], newList (ascii "/") insertionSort false false deepCat)]) ∧
    heiroSelect (ascii "/") insertionSort leavePicker false false 3 baseCat [] []
      = some (none,
          [([], newList (ascii "/") insertionSort false false baseCat),
           (ascii "web/", [FItem.entry (ascii "lean") (ascii "prover") (ascii "lean-lang.org")]),
           ([], newList (ascii "/") insertionSort false false baseCat)]) ∧
    (∃ n, specNavigate (ascii "/") insertionSort deepPicker false false n
        [⟨deepCat, [], newList (ascii "/") insertionSort false false deepCat⟩] []
      = some (some (FItem.entry (ascii "mail") (ascii "the mail") (ascii "mutt")),
          [([], newList (ascii "/") insertionSort false false deepCat),
           (ascii "web/", [FItem.category (ascii "sub") (ascii "deeper")
              [FItem.entry (ascii "lean") (ascii "prover") (ascii "lean-lang.org")]]),
           (ascii "web/sub/",
              [FItem.entry (ascii "lean") (ascii "prover") (ascii "lean-lang.org")]),
           (ascii "web/", [FItem.category (ascii "sub") (ascii "deeper")
              [FItem.entry (ascii "lean") (ascii "prover") (ascii "lean-lang.org")]]),
           ([], newList (ascii "/") insertionSort false false deepCat)])) ∧
    (∃ n1, ∀ f, n1 ≤ f →
      heiroSelect (ascii "/") insertionSort deepPicker false false f deepCat [] []
        = some (some (FItem.entry (ascii "mail") (ascii "the mail") (ascii "mutt")),
            [([], newList (ascii "/") insertionSort false false deepCat),
             (ascii "web/", [FItem.category (ascii "sub") (ascii "deeper")
                [FItem.entry (ascii "lean") (ascii "prover") (ascii "lean-lang.org")]]),
             (ascii "web/sub/",
                [FItem.entry (ascii "lean") (ascii "prover") (ascii "lean-lang.org")]),
             (ascii "web/", [FItem.category (ascii "sub") (ascii "deeper")
                [FItem.entry (ascii "lean") (ascii "prover") (ascii "lean-lang.org")]]),
             ([], newList (ascii "/") insertionSort false false deepCat)])) ∧
    specNavStep (ascii "/") insertionSort false false (echoPicker [])
        ⟨baseCat, [], newList (ascii "/") insertionSort false false baseCat⟩ []
      = NavStep.done none ∧
    specNavStep (ascii "/") insertionSort false false (echoPicker [])
        ⟨⟨ascii "web", ascii "sites",
            [FItem.entry (ascii "lean") (ascii "prover") (ascii "lean-lang.org")]⟩,
          ascii "web/",
          [FItem.entry (ascii "lean") (ascii "prover") (ascii "lean-lang.org")]⟩
        [⟨baseCat, [], newList (ascii "/") insertionSort false false baseCat⟩]
      = NavStep.goOn [⟨baseCat, [], newList (ascii "/") insertionSort false false baseCat⟩] :=
  ⟨(heiroSelect_back_navigation (ascii "/") insertionSort (fun _ => echoPicker []) false false 0
      baseCat [] []).1 rfl,
   (heiroSelect_back_navigation (ascii "/") insertionSort backPicker false false 0
      baseCat [] []).2.1 (ascii "web") (ascii "sites")
      [FItem.entry (ascii "lean") (ascii "prover") (ascii "lean-lang.org")]
      (ascii "mail") (ascii "the mail") (ascii "mutt") rfl rfl rfl,
   ((heiroSelect_back_navigation (ascii "/") insertionSort deepPicker false false 3
      deepCat [] []).2.2.1 (ascii "web") (ascii "sites")
      [FItem.category (ascii "sub") (ascii "deeper")
        [FItem.entry (ascii "lean") (ascii "prover") (ascii "lean-lang.org")]]
      [([], newList (ascii "/") insertionSort false false deepCat),
       (ascii "web/", [FItem.category (ascii "sub") (ascii "deeper")
          [FItem.entry (ascii "lean") (ascii "prover") (ascii "lean-lang.org")]]),
       (ascii "web/sub/",
          [FItem.entry (ascii "lean") (ascii "prover") (ascii "lean-lang.org")]),
       (ascii "web/", [FItem.category (ascii "sub") (ascii "deeper")
          [FItem.entry (ascii "lean") (ascii "prover") (ascii "lean-lang.org")]])]
      rfl rfl).2.1 (ascii "mail") (ascii "the mail") (ascii "mutt") rfl,
   ((heiroSelect_back_navigation (ascii "/") insertionSort leavePicker false false 2
      baseCat [] []).2.2.1 (ascii "web") (ascii "sites")
      [FItem.entry (ascii "lean") (ascii "prover") (ascii "lean-lang.org")]
      [([], newList (ascii "/") insertionSort false false baseCat),
       (ascii "web/", [FItem.entry (ascii "lean") (ascii "prover") (ascii "lean-lang.org")])]
      rfl rfl).2.2 rfl,
   (heiroSelect_back_navigation (ascii "/") insertionSort deepPicker false false 4
      deepCat [] []).2.2.2.1 _ rfl,
   (heiroSelect_back_navigation (ascii "/") insertionSort deepPicker false false 0
      deepCat [] []).2.2.2.2.1 5 _ rfl,
   ((heiroSelect_back_navigation (ascii "/") insertionSort deepPicker false false 0
      deepCat [] []).2.2.2.2.2 (echoPicker [])
      ⟨baseCat, [], newList (ascii "/") insertionSort false false baseCat⟩ rfl).1,
   ((heiroSelect_back_navigation (ascii "/") insertionSort deepPicker false false 0
      deepCat [] []).2.2.2.2.2 (echoPicker [])
      ⟨⟨ascii "web", ascii "sites",
          [FItem.entry (ascii "lean") (ascii "prover") (ascii "lean-lang.org")]⟩,
        ascii "web/",
        [FItem.entry (ascii "lean") (ascii "prover") (ascii "lean-lang.org")]⟩ rfl).2
      ⟨baseCat, [], newList (ascii "/") insertionSort false false baseCat⟩ []⟩

/-! ### C6 -/

/-- C6: a category is chosen only when category selection is enabled. For every
category tree, prompt and picker behaviour, a result of `heiroSelect` called
with `canSelectCat = false` is nil or an `Entry`, never a `Category`, so the
conversion of a non-nil result to `*Entry` in browse mode does not panic. -/
theorem heiroSelect_no_category (separator : Bytes)
    (sortFn : (FItem → FItem → Bool) → List FItem → List FItem) (picker : Nat → Picker)
    (onlySelectCat : Bool) (fuel : Nat) (cat : Category) (prompt : Bytes) (shown : Shown) :
    (∀ (r : Option FItem) (sh : Shown),
      heiroSelect separator sortFn picker false onlySelectCat fuel cat prompt shown
        = some (r, sh) →
      (r = none ∨ ∃ tok desc val, r = some (FItem.entry tok desc val)) ∧
      (∀ tok desc stuff, r ≠ some (FItem.category tok desc stuff)) ∧
      browseFrom r ≠ Outcome.panicked) ∧
    browseMode separator sortFn picker fuel cat prompt ≠ some Outcome.panicked := by
  have key : ∀ (oc : Bool) (sh0 : Shown) (r : Option FItem) (sh : Shown),
      heiroSelect separator sortFn picker false oc fuel cat prompt sh0 = some (r, sh) →
      (r = none ∨ ∃ tok desc val, r = some (FItem.entry tok desc val)) ∧
      (∀ tok desc stuff, r ≠ some (FItem.category tok desc stuff)) ∧
      browseFrom r ≠ Outcome.panicked := by
    intro oc sh0 r sh h
    have h1 := heiroLoop_entry_or_nil separator sortFn picker oc fuel cat prompt _ sh0 r sh
      (newList_not_special separator sortFn oc cat) h
    rcases h1 with h1 | ⟨tok, desc, val, h1⟩
    · subst h1
      exact ⟨Or.inl rfl, fun _ _ _ h => (by cases h), by simp [browseFrom]⟩
    · subst h1
      exact ⟨Or.inr ⟨tok, desc, val, rfl⟩, fun _ _ _ h => (by cases h), by simp [browseFrom]⟩
  refine ⟨key onlySelectCat shown, ?_⟩
  unfold browseMode
  cases hrun : heiroSelect separator sortFn picker false false fuel cat prompt [] with
  | none => simp
  | some res =>
    rcases res with ⟨r, sh⟩
    simp only [Option.map_some', ne_eq, Option.some.injEq]
    exact (key false [] r sh hrun).2.2

/-- C6, witness: the run of `backPicker` on `baseCat` in browse mode returns the
entry `mail`, whose value is printed. -/
theorem heiroSelect_no_category_witness :
    browseFrom (some (FItem.entry (ascii "mail") (ascii "the mail") (ascii "mutt")))
      ≠ Outcome.panicked ∧
    browseMode (ascii "/") insertionSort backPicker 3 baseCat [] ≠ some Outcome.panicked :=
  ⟨((heiroSelect_no_category (ascii "/") insertionSort backPicker false 3 baseCat [] []).1
      (some (FItem.entry (ascii "mail") (ascii "the mail") (ascii "mutt"))) _ rfl).2.2,
   (heiroSelect_no_category (ascii "/") insertionSort backPicker false 3 baseCat [] []).2⟩

end Fatdmenu

/-! ### sort.Sort permutes -/

theorem insertBack_perm {α : Type} (less : α → α → Bool) (x : α) :
    ∀ l : List α, (insertBack less x l).Perm (x :: l)
  | [] => List.Perm.refl _
  | y :: ys => by
      rw [insertBack]
      by_cases h : less x y = true
      · rw [if_pos h]
        exact ((insertBack_perm less x ys).cons y).trans (List.Perm.swap x y ys)
      · rw [if_neg h]

theorem foldl_insertBack_perm {α : Type} (less : α → α → Bool) :
    ∀ (l acc : List α), (l.foldl (fun acc x => insertBack less x acc) acc).Perm (l ++ acc)
  | [], acc => List.Perm.refl _
  | x :: rest, acc => by
      rw [List.foldl_cons]
      refine (foldl_insertBack_perm less rest (insertBack less x acc)).trans ?_
      refine ((insertBack_perm less x acc).append_left rest).trans ?_
      exact List.perm_middle

theorem insertionSort_perm {α : Type} (less : α → α → Bool) (l : List α) :
    (insertionSort less l).Perm l := by
  unfold insertionSort
  refine (List.reverse_perm _).trans ?_
  simpa using foldl_insertBack_perm less l []

/-! ### C5 -/

theorem DmenuSelect_err_fst {α : Type} (I : Item α) (dcmd : Picker) (prompt : Bytes)
    (input : List α) (c : Option α) (e : Error)
    (h : DmenuSelect I dcmd prompt input = (c, some e)) : c = none := by
  unfold DmenuSelect at h
  cases hr : (dcmd input.length prompt (menuLines I input).flatten).err with
  | some err =>
    simp only [hr, Prod.mk.injEq] at h
    exact h.1.symm
  | none => simp [hr] at h

theorem DmenuSelect_failureAsCancel {α : Type} (I : Item α) (dcmd : Picker) (prompt : Bytes)
    (input : List α) :
    DmenuSelect I (failureAsCancel dcmd) prompt input
      = ((DmenuSelect I dcmd prompt input).1, none) := by
  cases hr : (dcmd input.length prompt (menuLines I input).flatten).err with
  | some err =>
    have h1 : failureAsCancel dcmd input.length prompt (menuLines I input).flatten
        = ⟨none, []⟩ := by
      simp [failureAsCancel, hr]
    rw [DmenuSelect_of_err I dcmd prompt input err hr]
    exact DmenuSelect_cancel I (failureAsCancel dcmd) prompt input h1
  | none =>
    have h1 : failureAsCancel dcmd input.length prompt (menuLines I input).flatten
        = dcmd input.length prompt (menuLines I input).flatten := by
      simp [failureAsCancel, hr]
    rw [DmenuSelect_of_ok I dcmd prompt input hr,
      DmenuSelect_of_ok I (failureAsCancel dcmd) prompt input (by rw [h1, hr]), h1]

namespace Fatdmenu

theorem heiroLoop_failureAsCancel (separator : Bytes)
    (sortFn : (FItem → FItem → Bool) → List FItem → List FItem)
    (picker : Nat → Picker) (canSelectCat onlySelectCat : Bool) :
    ∀ (fuel : Nat) (cat : Category) (prompt : Bytes) (new_list : List FItem) (shown : Shown),
      heiroLoop separator sortFn picker canSelectCat onlySelectCat fuel cat prompt new_list shown
      = heiroLoop separator sortFn (fun k => failureAsCancel (picker k)) canSelectCat
          onlySelectCat fuel cat prompt new_list shown
  | 0, _, _, _, _ => by simp [heiroLoop]
  | fuel + 1, cat, prompt, new_list, shown => by
      rw [heiroLoop, heiroLoop, DmenuSelect_failureAsCancel]
      rcases hD : DmenuSelect (itemOps separator) (picker shown.length) prompt new_list
        with ⟨c, e⟩
      cases e with
      | some err =>
        have := DmenuSelect_err_fst _ _ _ _ _ _ hD
        subst this
        rfl
      | none =>
        cases c with
        | none => rfl
        | some x =>
          cases x with
          | entry tok desc val => rfl
          | special line => rfl
          | category tok desc stuff =>
            simp only
            rw [← heiroLoop_failureAsCancel separator sortFn picker canSelectCat onlySelectCat
              fuel ⟨tok, desc, stuff⟩]
            cases heiroLoop separator sortFn picker canSelectCat onlySelectCat fuel
                ⟨tok, desc, stuff⟩
                (prompt ++ FItem.Key separator (FItem.category tok desc stuff))
                (newList separator sortFn canSelectCat onlySelectCat ⟨tok, desc, stuff⟩)
                (shown ++ [(prompt, new_list)]) with
            | none => rfl
            | some res =>
              rcases res with ⟨r2, sh2⟩
              cases r2 with
              | none =>
                simp only
                exact heiroLoop_failureAsCancel separator sortFn picker canSelectCat
                  onlySelectCat fuel cat prompt new_list sh2
              | some v => rfl

end Fatdmenu

namespace Fdmfc

theorem selectStep_failureAsCancel (caseSensitiveSort : Bool) (toLower : Bytes → Bytes)
    (sortFn : (EntryRef → EntryRef → Bool) → List EntryRef → List EntryRef)
    (join : List Bytes → Bytes) (readdir : Bytes → Option (List FileInfo))
    (dcmd : Picker) (returnDir : Bool) (pathElts : List Bytes) (showHidden : Bool) :
    selectStep caseSensitiveSort toLower sortFn join readdir dcmd returnDir pathElts showHidden
    = selectStep caseSensitiveSort toLower sortFn join readdir (failureAsCancel dcmd) returnDir
        pathElts showHidden := by
  unfold selectStep
  simp only [DmenuSelect_failureAsCancel]

theorem selectPath_failureAsCancel (caseSensitiveSort : Bool) (toLower : Bytes → Bytes)
    (sortFn : (EntryRef → EntryRef → Bool) → List EntryRef → List EntryRef)
    (join : List Bytes → Bytes) (readdir : Bytes → Option (List FileInfo))
    (picker : Nat → Picker) (returnDir : Bool) :
    ∀ (fuel : Nat) (pathElts : List Bytes) (showHidden : Bool) (shown : Shown),
      selectPath caseSensitiveSort toLower sortFn join readdir picker returnDir fuel pathElts
        showHidden shown
      = selectPath caseSensitiveSort toLower sortFn join readdir
          (fun k => failureAsCancel (picker k)) returnDir fuel pathElts showHidden shown
  | 0, _, _, _ => by simp [selectPath]
  | fuel + 1, pathElts, showHidden, shown => by
      rw [selectPath, selectPath, ← selectStep_failureAsCancel]
      rcases selectStep caseSensitiveSort toLower sortFn join readdir (picker shown.length)
        returnDir pathElts showHidden with ⟨e | ⟨p1, s1⟩, call⟩
      · rfl
      · simp only
        exact selectPath_failureAsCancel caseSensitiveSort toLower sortFn join readdir picker
          returnDir fuel p1 s1 _

end Fdmfc

/-- C5, counterexample: in `baseCat` the picker fails at its second invocation,
inside `web/`; `heiroSelect` then invokes the picker a third time, on the list
of `baseCat`, and returns the entry chosen there. Started in `/etc`, `selectPath`
meets a picker that cannot be started, invokes it again on `/` and returns the
file chosen there. A failure at the first invocation gives the result of a
no-selection response. -/
theorem picker_failure_counterexample :
    (failPicker 1 1 (ascii "web/") (ascii "lean    prover\n")).err = some (Error.exit 1) ∧
    Fatdmenu.heiroSelect (ascii "/") insertionSort failPicker false false 3 baseCat [] []
      = some (some (Fatdmenu.FItem.entry (ascii "mail") (ascii "the mail") (ascii "mutt")),
          [([], Fatdmenu.newList (ascii "/") insertionSort false false baseCat),
           (ascii "web/",
             [Fatdmenu.FItem.entry (ascii "lean") (ascii "prover") (ascii "lean-lang.org")]),
           ([], Fatdmenu.newList (ascii "/") insertionSort false false baseCat)]) ∧
    Fdmfc.selectPath false asciiToLower insertionSort plainJoin smallFs failThenFile false 2
        [ascii "/", ascii "etc"] false []
      = some (Fdmfc.Exit.returned (ascii "/f"),
          [(ascii "/etc", [Fdmfc.EntryRef.hiddenShower,
              Fdmfc.EntryRef.fresh ⟨ascii "hosts", false, ascii "hosts"⟩]),
           (ascii "/", [Fdmfc.EntryRef.hiddenShower,
              Fdmfc.EntryRef.fresh ⟨ascii "etc", true, ascii "etc"⟩,
              Fdmfc.EntryRef.fresh ⟨ascii "f", false, ascii "f"⟩])]) ∧
    Fatdmenu.heiroSelect (ascii "/") insertionSort (fun _ _ _ _ => ⟨some Error.spawn, []⟩)
        false false 1 baseCat [] []
      = Fatdmenu.heiroSelect (ascii "/") insertionSort (fun _ => echoPicker [])
        false false 1 baseCat [] [] := by
  refine ⟨rfl, rfl, ?_, rfl⟩
  decide

theorem Fatdmenu.heiroSelect_of_err (separator : Bytes)
    (sortFn : (Fatdmenu.FItem → Fatdmenu.FItem → Bool) → List Fatdmenu.FItem →
      List Fatdmenu.FItem)
    (picker : Nat → Picker) (canSelectCat onlySelectCat : Bool) (fuel : Nat)
    (cat : Fatdmenu.Category) (prompt : Bytes) (shown : Fatdmenu.Shown) (e : Error)
    (h : (picker shown.length
        (Fatdmenu.newList separator sortFn canSelectCat onlySelectCat cat).length prompt
        (menuLines (Fatdmenu.itemOps separator)
          (Fatdmenu.newList separator sortFn canSelectCat onlySelectCat cat)).flatten).err
      = some e) :
    Fatdmenu.heiroSelect separator sortFn picker canSelectCat onlySelectCat (fuel + 1) cat
        prompt shown
      = some (none, shown ++
          [(prompt, Fatdmenu.newList separator sortFn canSelectCat onlySelectCat cat)]) := by
  rw [Fatdmenu.heiroSelect, Fatdmenu.heiroLoop, DmenuSelect_of_err _ _ _ _ e h]

theorem Fdmfc.selectPath_of_err (caseSensitiveSort : Bool) (toLower : Bytes → Bytes)
    (sortFn : (Fdmfc.EntryRef → Fdmfc.EntryRef → Bool) → List Fdmfc.EntryRef →
      List Fdmfc.EntryRef)
    (join : List Bytes → Bytes) (readdir : Bytes → Option (List Fdmfc.FileInfo))
    (picker : Nat → Picker) (returnDir : Bool) (fuel : Nat) (pathElts : List Bytes)
    (showHidden : Bool) (shown : Fdmfc.Shown) (actual_filez : List Fdmfc.FileInfo)
    (entriez : List Fdmfc.EntryRef) (e : Error)
    (hread : readdir (join pathElts) = some actual_filez)
    (hbuilt : Fdmfc.buildEntriez caseSensitiveSort toLower sortFn returnDir showHidden
      actual_filez = some entriez)
    (h : (picker shown.length entriez.length (join pathElts)
        (menuLines Fdmfc.itemOps entriez).flatten).err = some e) :
    Fdmfc.selectPath caseSensitiveSort toLower sortFn join readdir picker returnDir (fuel + 1)
        pathElts showHidden shown
      = if pathElts.length ≤ 1 then
          some (Fdmfc.Exit.returned [], shown ++ [(join pathElts, entriez)])
        else
          Fdmfc.selectPath caseSensitiveSort toLower sortFn join readdir picker returnDir fuel
            (pathElts.take (pathElts.length - 1)) showHidden
            (shown ++ [(join pathElts, entriez)]) := by
  rw [Fdmfc.selectPath, Fdmfc.selectStep]
  simp only [hread, hbuilt, DmenuSelect_of_err _ _ _ _ e h]
  by_cases hl : pathElts.length ≤ 1
  · simp [hl]
  · simp [hl]

/-- C5, amended: a picker failure is handled as a no-selection response. For
every hierarchy and every picker behaviour, `heiroSelect` and `selectPath` make
the same picker invocations and end with the same result as they do when every
failing invocation is replaced by a successful one with an empty output. The
call of `heiroSelect` in which the picker fails returns nil after that
invocation; `selectPath` returns the empty string after it when at the root and
goes on one directory up otherwise. -/
theorem picker_failure_as_no_selection :
    (∀ (separator : Bytes)
      (sortFn : (Fatdmenu.FItem → Fatdmenu.FItem → Bool) → List Fatdmenu.FItem →
        List Fatdmenu.FItem)
      (picker : Nat → Picker) (canSelectCat onlySelectCat : Bool) (fuel : Nat)
      (cat : Fatdmenu.Category) (prompt : Bytes) (shown : Fatdmenu.Shown),
      Fatdmenu.heiroSelect separator sortFn picker canSelectCat onlySelectCat fuel cat prompt
        shown
      = Fatdmenu.heiroSelect separator sortFn (fun k => failureAsCancel (picker k))
          canSelectCat onlySelectCat fuel cat prompt shown) ∧
    (∀ (caseSensitiveSort : Bool) (toLower : Bytes → Bytes)
      (sortFn : (Fdmfc.EntryRef → Fdmfc.EntryRef → Bool) → List Fdmfc.EntryRef →
        List Fdmfc.EntryRef)
      (join : List Bytes → Bytes) (readdir : Bytes → Option (List Fdmfc.FileInfo))
      (picker : Nat → Picker) (returnDir : Bool) (fuel : Nat) (pathElts : List Bytes)
      (showHidden : Bool) (shown : Fdmfc.Shown),
      Fdmfc.selectPath caseSensitiveSort toLower sortFn join readdir picker returnDir fuel
        pathElts showHidden shown
      = Fdmfc.selectPath caseSensitiveSort toLower sortFn join readdir
          (fun k => failureAsCancel (picker k)) returnDir fuel pathElts showHidden shown) ∧
    (∀ (separator : Bytes)
      (sortFn : (Fatdmenu.FItem → Fatdmenu.FItem → Bool) → List Fatdmenu.FItem →
        List Fatdmenu.FItem)
      (picker : Nat → Picker) (canSelectCat onlySelectCat : Bool) (fuel : Nat)
      (cat : Fatdmenu.Category) (prompt : Bytes) (shown : Fatdmenu.Shown) (e : Error),
      (picker shown.length
          (Fatdmenu.newList separator sortFn canSelectCat onlySelectCat cat).length prompt
          (menuLines (Fatdmenu.itemOps separator)
            (Fatdmenu.newList separator sortFn canSelectCat onlySelectCat cat)).flatten).err
        = some e →
      Fatdmenu.heiroSelect separator sortFn picker canSelectCat onlySelectCat (fuel + 1) cat
          prompt shown
        = some (none, shown ++
            [(prompt, Fatdmenu.newList separator sortFn canSelectCat onlySelectCat cat)])) ∧
    (∀ (caseSensitiveSort : Bool) (toLower : Bytes → Bytes)
      (sortFn : (Fdmfc.EntryRef → Fdmfc.EntryRef → Bool) → List Fdmfc.EntryRef →
        List Fdmfc.EntryRef)
      (join : List Bytes → Bytes) (readdir : Bytes → Option (List Fdmfc.FileInfo))
      (picker : Nat → Picker) (returnDir : Bool) (fuel : Nat) (pathElts : List Bytes)
      (showHidden : Bool) (shown : Fdmfc.Shown) (actual_filez : List Fdmfc.FileInfo)
      (entriez : List Fdmfc.EntryRef) (e : Error),
      readdir (join pathElts) = some actual_filez →
      Fdmfc.buildEntriez caseSensitiveSort toLower sortFn returnDir showHidden actual_filez
        = some entriez →
      (picker shown.length entriez.length (join pathElts)
        (menuLines Fdmfc.itemOps entriez).flatten).err = some e →
      Fdmfc.selectPath caseSensitiveSort toLower sortFn join readdir picker returnDir
          (fuel + 1) pathElts showHidden shown
        = if pathElts.length ≤ 1 then
            some (Fdmfc.Exit.returned [], shown ++ [(join pathElts, entriez)])
          else
            Fdmfc.selectPath caseSensitiveSort toLower sortFn join readdir picker returnDir
              fuel (pathElts.take (pathElts.length - 1)) showHidden
              (shown ++ [(join pathElts, entriez)])) :=
  ⟨fun separator sortFn picker canSelectCat onlySelectCat fuel cat prompt shown =>
    Fatdmenu.heiroLoop_failureAsCancel separator sortFn picker canSelectCat onlySelectCat fuel
      cat prompt _ shown,
   fun caseSensitiveSort toLower sortFn join readdir picker returnDir fuel pathElts showHidden
      shown =>
    Fdmfc.selectPath_failureAsCancel caseSensitiveSort toLower sortFn join readdir picker
      returnDir fuel pathElts showHidden shown,
   fun separator sortFn picker canSelectCat onlySelectCat fuel cat prompt shown e h =>
    Fatdmenu.heiroSelect_of_err separator sortFn picker canSelectCat onlySelectCat fuel cat
      prompt shown e h,
   fun caseSensitiveSort toLower sortFn join readdir picker returnDir fuel pathElts showHidden
      shown actual_filez entriez e hread hbuilt h =>
    Fdmfc.selectPath_of_err caseSensitiveSort toLower sortFn join readdir picker returnDir fuel
      pathElts showHidden shown actual_filez entriez e hread hbuilt h⟩

/-- C5, witness of the amended claim: a picker that cannot be started, on the
list of `baseCat` and on the root directory of `smallFs`. -/
theorem picker_failure_as_no_selection_witness :
    Fatdmenu.heiroSelect (ascii "/") insertionSort (fun _ _ _ _ => ⟨some Error.spawn, []⟩)
        false false 1 baseCat [] []
      = some (none, [([], Fatdmenu.newList (ascii "/") insertionSort false false baseCat)]) ∧
    Fdmfc.selectPath false asciiToLower insertionSort plainJoin smallFs
        (fun _ _ _ _ => ⟨some Error.spawn, []⟩) false 1 [ascii "/"] false []
      = some (Fdmfc.Exit.returned [],
          [(ascii "/", [Fdmfc.EntryRef.hiddenShower,
              Fdmfc.EntryRef.fresh ⟨ascii "etc", true, ascii "etc"⟩,
              Fdmfc.EntryRef.fresh ⟨ascii "f", false, ascii "f"⟩])]) :=
  ⟨picker_failure_as_no_selection.2.2.1 (ascii "/") insertionSort
      (fun _ _ _ _ => ⟨some Error.spawn, []⟩) false false 0 baseCat [] [] Error.spawn rfl,
   picker_failure_as_no_selection.2.2.2 false asciiToLower insertionSort plainJoin smallFs
      (fun _ _ _ _ => ⟨some Error.spawn, []⟩) false 0 [ascii "/"] false []
      [⟨ascii "f", false⟩, ⟨ascii ".git", true⟩, ⟨ascii "etc", true⟩]
      [Fdmfc.EntryRef.hiddenShower, Fdmfc.EntryRef.fresh ⟨ascii "etc", true, ascii "etc"⟩,
        Fdmfc.EntryRef.fresh ⟨ascii "f", false, ascii "f"⟩]
      Error.spawn (by decide) (by decide) rfl⟩

/-! ### C7 -/

/-- C7, the code at the failing input: in add mode on `baseCat` the picker
answers the first list with no selection; `heiroSelect` returns nil after that
one invocation, the conversion of nil to `*Category` panics, and the test
`containerCat == nil` is not reached. Browse mode, which tests for nil before it
converts, ends normally on the same response. The same panic follows a picker
that exits with a non-zero status. -/
theorem addMode_cancel_panics :
    Fatdmenu.heiroSelect (ascii "/") insertionSort (fun _ => echoPicker []) true true 1 baseCat
        [] []
      = some (none, [([], Fatdmenu.newList (ascii "/") insertionSort true true baseCat)]) ∧
    Fatdmenu.addFrom none = Fatdmenu.Outcome.panicked ∧
    Fatdmenu.addMode (ascii "/") insertionSort (fun _ => echoPicker []) 1 baseCat []
      = some Fatdmenu.Outcome.panicked ∧
    Fatdmenu.addMode (ascii "/") insertionSort (fun _ _ _ _ => ⟨some (Error.exit 1), []⟩) 1
        baseCat []
      = some Fatdmenu.Outcome.panicked ∧
    Fatdmenu.browseMode (ascii "/") insertionSort (fun _ => echoPicker []) 1 baseCat []
      = some Fatdmenu.Outcome.nothingDone :=
  ⟨rfl, rfl, rfl, rfl, rfl⟩

/-! ### C8 -/

theorem index_lt_of_append {α : Type} (p : α → Bool) (pre post : List α)
    (hpre : ∀ x ∈ pre, p x = true) (hpost : ∀ x ∈ post, p x = false)
    (i j : Nat) (s r : α) (hs : (pre ++ post)[i]? = some s) (hr : (pre ++ post)[j]? = some r)
    (ps : p s = true) (pr : p r = false) : i < j := by
  by_contra hij
  have hji : j ≤ i := Nat.le_of_not_lt hij
  by_cases hi : i < pre.length
  · have hj : j < pre.length := Nat.lt_of_le_of_lt hji hi
    rw [List.getElem?_append_left hj] at hr
    have := hpre r (List.getElem?_mem hr)
    rw [pr] at this
    cases this
  · rw [List.getElem?_append_right (Nat.le_of_not_lt hi)] at hs
    have := hpost s (List.getElem?_mem hs)
    rw [ps] at this
    cases this

namespace Fatdmenu

theorem realItems_isSpecial (onlySelectCat : Bool) (l : List FItem) :
    ∀ x ∈ realItems onlySelectCat l, x.isSpecial = false := by
  intro x hx
  have h := realItems_not_special onlySelectCat l x hx
  cases x with
  | entry _ _ _ => rfl
  | category _ _ _ => rfl
  | special line => exact absurd rfl (h line)

end Fatdmenu

namespace Fdmfc

theorem appendFiles_split (caseSensitiveSort : Bool) (toLower : Bytes → Bytes)
    (showHidden : Bool) :
    ∀ (files : List FileInfo) (acc r : List EntryRef),
      appendFiles caseSensitiveSort toLower showHidden acc files = some r →
      ∃ vis, r = acc ++ vis ∧ (∀ x ∈ vis, x.isSentinel = false) ∧ (files = [] → vis = [])
  | [], acc, r, h => by
      simp only [appendFiles, Option.some.injEq] at h
      exact ⟨[], by simp [h], by simp, fun _ => rfl⟩
  | fi :: rest, acc, r, h => by
      rw [appendFiles] at h
      have step : ∀ r, appendFiles caseSensitiveSort toLower showHidden
          (acc ++ [NewDirEntry caseSensitiveSort toLower fi]) rest = some r →
          ∃ vis, r = acc ++ vis ∧ (∀ x ∈ vis, x.isSentinel = false) ∧
            (fi :: rest = [] → vis = []) := by
        intro r h
        rcases appendFiles_split caseSensitiveSort toLower showHidden rest _ r h
          with ⟨vis, h1, h2, _⟩
        refine ⟨NewDirEntry caseSensitiveSort toLower fi :: vis, by simp [h1], ?_,
          fun e => by cases e⟩
        intro x hx
        rcases List.mem_cons.1 hx with hx | hx
        · rw [hx]; rfl
        · exact h2 x hx
      cases showHidden with
      | true => exact step r (by simpa using h)
      | false =>
        simp only [Bool.false_eq_true, if_false] at h
        cases hh : isHidden fi with
        | none => rw [hh] at h; simp at h
        | some b =>
          rw [hh] at h
          cases b with
          | true =>
            rcases appendFiles_split caseSensitiveSort toLower false rest acc r h
              with ⟨vis, h1, h2, _⟩
            exact ⟨vis, h1, h2, fun e => by cases e⟩
          | false => exact step r h

theorem buildEntriez_split (caseSensitiveSort : Bool) (toLower : Bytes → Bytes)
    (sortFn : (EntryRef → EntryRef → Bool) → List EntryRef → List EntryRef)
    (hperm : ∀ less l, (sortFn less l).Perm l)
    (returnDir showHidden : Bool) (actual_filez : List FileInfo) (entriez : List EntryRef)
    (h : buildEntriez caseSensitiveSort toLower sortFn returnDir showHidden actual_filez
      = some entriez) :
    ∃ reals, entriez = ((if returnDir then [EntryRef.directorySelector] else []) ++
        [if showHidden then EntryRef.hiddenHider else EntryRef.hiddenShower]) ++ reals ∧
      (∀ x ∈ reals, x.isSentinel = false) ∧ (actual_filez = [] → reals = []) := by
  unfold buildEntriez at h
  simp only at h
  generalize hacc : (if showHidden = true then
      (if returnDir = true then [EntryRef.directorySelector] else []) ++ [EntryRef.hiddenHider]
    else (if returnDir = true then [EntryRef.directorySelector] else []) ++
      [EntryRef.hiddenShower]) = acc at h
  have hacc2 : acc = (if returnDir then [EntryRef.directorySelector] else []) ++
      [if showHidden then EntryRef.hiddenHider else EntryRef.hiddenShower] := by
    rw [← hacc]; cases showHidden <;> simp
  have hlen : acc.length = if returnDir then 2 else 1 := by
    rw [hacc2]; cases returnDir <;> simp
  cases hap : appendFiles caseSensitiveSort toLower showHidden acc actual_filez with
  | none => rw [hap] at h; simp at h
  | some e =>
    rw [hap] at h
    rcases appendFiles_split caseSensitiveSort toLower showHidden actual_filez acc e hap
      with ⟨vis, h1, h2, h3⟩
    subst h1
    have key : ∀ n, acc.length = n →
        ∃ reals, (acc ++ vis).take n ++ sortFn itemOps.SortsBefore ((acc ++ vis).drop n)
            = acc ++ reals ∧
          (∀ x ∈ reals, x.isSentinel = false) ∧ (actual_filez = [] → reals = []) := by
      intro n hn
      subst hn
      refine ⟨sortFn itemOps.SortsBefore vis, by simp, ?_, ?_⟩
      · intro x hx
        exact h2 x ((hperm _ _).mem_iff.1 hx)
      · intro hf
        have := (hperm itemOps.SortsBefore vis).length_eq
        rw [h3 hf] at this ⊢
        exact List.eq_nil_of_length_eq_zero this
    rw [← hacc2]
    cases returnDir with
    | true =>
      simp only [if_true, Option.some.injEq] at h
      rw [← h]
      exact key 2 (by simpa using hlen)
    | false =>
      simp only [Bool.false_eq_true, if_false, Option.some.injEq] at h
      rw [← h]
      exact key 1 (by simpa using hlen)

end Fdmfc

/-- C8: sentinels come first in every displayed list. `sort.Sort` permuting its
argument, for every category, flag setting and directory listing: in the list
`heiroSelect` hands to `DmenuSelect` the only special entry is `catSelector`,
and it stands at a lower index than every entry and category; in the list
`selectPath` hands to `DmenuSelect` each of `directorySelector`, `hiddenShower`
and `hiddenHider` stands at a lower index than every entry made from a file;
for an empty category or directory the list holds the sentinels only. -/
theorem sentinels_first (separator : Bytes)
    (sortF : (Fatdmenu.FItem → Fatdmenu.FItem → Bool) → List Fatdmenu.FItem →
      List Fatdmenu.FItem)
    (hpermF : ∀ less l, (sortF less l).Perm l)
    (canSelectCat onlySelectCat : Bool) (cat : Fatdmenu.Category)
    (caseSensitiveSort : Bool) (toLower : Bytes → Bytes)
    (sortD : (Fdmfc.EntryRef → Fdmfc.EntryRef → Bool) → List Fdmfc.EntryRef →
      List Fdmfc.EntryRef)
    (hpermD : ∀ less l, (sortD less l).Perm l)
    (returnDir showHidden : Bool) (actual_filez : List Fdmfc.FileInfo)
    (entriez : List Fdmfc.EntryRef)
    (hbuilt : Fdmfc.buildEntriez caseSensitiveSort toLower sortD returnDir showHidden
      actual_filez = some entriez) :
    (∀ (i j : Nat) (s r : Fatdmenu.FItem),
      (Fatdmenu.newList separator sortF canSelectCat onlySelectCat cat)[i]? = some s →
      (Fatdmenu.newList separator sortF canSelectCat onlySelectCat cat)[j]? = some r →
      s.isSpecial = true → r.isSpecial = false → i < j) ∧
    (∀ s ∈ Fatdmenu.newList separator sortF canSelectCat onlySelectCat cat,
      s.isSpecial = true → s = Fatdmenu.catSelector separator) ∧
    (cat.Stuff = [] → Fatdmenu.newList separator sortF canSelectCat onlySelectCat cat
      = if canSelectCat then [Fatdmenu.catSelector separator] else []) ∧
    (∀ (i j : Nat) (s r : Fdmfc.EntryRef), entriez[i]? = some s → entriez[j]? = some r →
      s.isSentinel = true → r.isSentinel = false → i < j) ∧
    (actual_filez = [] → entriez = (if returnDir then [Fdmfc.EntryRef.directorySelector] else [])
      ++ [if showHidden then Fdmfc.EntryRef.hiddenHider else Fdmfc.EntryRef.hiddenShower]) := by
  have hpreF : ∀ x ∈ (if canSelectCat then [Fatdmenu.catSelector separator] else []),
      x.isSpecial = true ∧ x = Fatdmenu.catSelector separator := by
    intro x hx
    cases canSelectCat with
    | true =>
      simp only [if_true, List.mem_singleton] at hx
      subst hx
      exact ⟨rfl, rfl⟩
    | false => simp at hx
  rcases Fdmfc.buildEntriez_split caseSensitiveSort toLower sortD hpermD returnDir showHidden
    actual_filez entriez hbuilt with ⟨reals, he, hreal, hempty⟩
  refine ⟨?_, ?_, ?_, ?_, ?_⟩
  · intro i j s r hs hr ps pr
    exact index_lt_of_append Fatdmenu.FItem.isSpecial _ _ (fun x hx => (hpreF x hx).1)
      (Fatdmenu.realItems_isSpecial onlySelectCat _) i j s r hs hr ps pr
  · intro s hs ps
    rcases List.mem_append.1 hs with h | h
    · exact (hpreF s h).2
    · rw [Fatdmenu.realItems_isSpecial onlySelectCat _ s h] at ps
      cases ps
  · intro hstuff
    have hnil : sortF Fatdmenu.FItem.SortsBefore cat.Stuff = [] := by
      have := (hpermF Fatdmenu.FItem.SortsBefore cat.Stuff).length_eq
      rw [hstuff] at this ⊢
      exact List.eq_nil_of_length_eq_zero this
    simp [Fatdmenu.newList, hnil, Fatdmenu.realItems]
  · intro i j s r hs hr ps pr
    rw [he] at hs hr
    refine index_lt_of_append Fdmfc.EntryRef.isSentinel _ reals ?_ hreal i j s r hs hr ps pr
    intro x hx
    cases returnDir <;> cases showHidden <;> simp at hx <;> rcases hx with rfl | rfl <;> rfl
  · intro hf
    rw [he, hempty hf, List.append_nil]

/-- C8, witness: with category selection on, the list of `baseCat` starts with
`catSelector`; the list built for the directory `/` of `smallFs`, with
directory selection on and hidden files hidden, is the two sentinels followed
by `etc/` and `f`, and a sentinel in it stands before every entry of a file. -/
theorem sentinels_first_witness :
    Fdmfc.buildEntriez false asciiToLower insertionSort true false
        [⟨ascii "f", false⟩, ⟨ascii ".git", true⟩, ⟨ascii "etc", true⟩]
      = some [Fdmfc.EntryRef.directorySelector, Fdmfc.EntryRef.hiddenShower,
          Fdmfc.EntryRef.fresh ⟨ascii "etc", true, ascii "etc"⟩,
          Fdmfc.EntryRef.fresh ⟨ascii "f", false, ascii "f"⟩] ∧
    (∀ s ∈ Fatdmenu.newList (ascii "/") insertionSort true false baseCat,
      s.isSpecial = true → s = Fatdmenu.catSelector (ascii "/")) ∧
    (∀ (i j : Nat) (s r : Fdmfc.EntryRef),
      [Fdmfc.EntryRef.directorySelector, Fdmfc.EntryRef.hiddenShower,
        Fdmfc.EntryRef.fresh ⟨ascii "etc", true, ascii "etc"⟩,
        Fdmfc.EntryRef.fresh ⟨ascii "f", false, ascii "f"⟩][i]? = some s →
      [Fdmfc.EntryRef.directorySelector, Fdmfc.EntryRef.hiddenShower,
        Fdmfc.EntryRef.fresh ⟨ascii "etc", true, ascii "etc"⟩,
        Fdmfc.EntryRef.fresh ⟨ascii "f", false, ascii "f"⟩][j]? = some r →
      s.isSentinel = true → r.isSentinel = false → i < j) :=
  ⟨by decide,
   (sentinels_first (ascii "/") insertionSort (fun less l => insertionSort_perm less l) true
      false baseCat false asciiToLower insertionSort (fun less l => insertionSort_perm less l)
      true false [⟨ascii "f", false⟩, ⟨ascii ".git", true⟩, ⟨ascii "etc", true⟩]
      [Fdmfc.EntryRef.directorySelector, Fdmfc.EntryRef.hiddenShower,
        Fdmfc.EntryRef.fresh ⟨ascii "etc", true, ascii "etc"⟩,
        Fdmfc.EntryRef.fresh ⟨ascii "f", false, ascii "f"⟩]
      (by decide)).2.1,
   (sentinels_first (ascii "/") insertionSort (fun less l => insertionSort_perm less l) true
      false baseCat false asciiToLower insertionSort (fun less l => insertionSort_perm less l)
      true false [⟨ascii "f", false⟩, ⟨ascii ".git", true⟩, ⟨ascii "etc", true⟩]
      [Fdmfc.EntryRef.directorySelector, Fdmfc.EntryRef.hiddenShower,
        Fdmfc.EntryRef.fresh ⟨ascii "etc", true, ascii "etc"⟩,
        Fdmfc.EntryRef.fresh ⟨ascii "f", false, ascii "f"⟩]
      (by decide)).2.2.2.1⟩

/-! ### C11 -/

/-- C11: `ensureReturnminated` is idempotent: applying it to its own result
changes nothing. -/
theorem ensureReturnminated_idempotent (bs : Bytes) :
    ensureReturnminated (ensureReturnminated bs) = ensureReturnminated bs := by
  rw [ensureReturnminated_eq (ensureReturnminated bs), if_pos (ensureReturnminated_getLast bs)]

/-! ### Comparison of strings -/

theorem strLt_irrefl : ∀ a : Bytes, strLt a a = false
  | [] => rfl
  | x :: xs => by simp [strLt, strLt_irrefl xs]

theorem strLt_trans : ∀ a b c : Bytes, strLt a b = true → strLt b c = true → strLt a c = true
  | [], [], _, h, _ => by simp [strLt] at h
  | [], _ :: _, [], _, h => by simp [strLt] at h
  | [], _ :: _, _ :: _, _, _ => by simp [strLt]
  | _ :: _, [], _, h, _ => by simp [strLt] at h
  | _ :: _, _ :: _, [], _, h => by simp [strLt] at h
  | x :: xs, y :: ys, z :: zs, h1, h2 => by
      rw [strLt] at h1 h2 ⊢
      by_cases hxy : x < y
      · by_cases hyz : y < z
        · simp [Nat.lt_trans hxy hyz]
        · by_cases hzy : z < y
          · simp [hyz, hzy] at h2
          · have : y = z := Nat.le_antisymm (Nat.le_of_not_lt hzy) (Nat.le_of_not_lt hyz)
            subst this
            simp [hxy]
      · by_cases hyx : y < x
        · simp [hxy, hyx] at h1
        · have : x = y := Nat.le_antisymm (Nat.le_of_not_lt hyx) (Nat.le_of_not_lt hxy)
          subst this
          simp only [hxy, if_false] at h1
          by_cases hxz : x < z
          · simp [hxz]
          · by_cases hzx : z < x
            · simp [hxz, hzx] at h2
            · simp only [hxz, hzx, if_false] at h2 ⊢
              exact strLt_trans xs ys zs h1 h2

theorem strLt_asymm (a b : Bytes) (h : strLt a b = true) : strLt b a = false := by
  cases hba : strLt b a with
  | false => rfl
  | true =>
    have := strLt_trans a b a h hba
    rw [strLt_irrefl] at this
    cases this

namespace Fatdmenu

theorem FItem.SortsBefore_trans_items (a b c : FItem) (h1 : a.SortsBefore b = true)
    (h2 : b.SortsBefore c = true) : a.SortsBefore c = true := by
  cases a <;> cases b <;> cases c <;> simp only [FItem.SortsBefore] at h1 h2 ⊢ <;>
    first
      | exact strLt_trans _ _ _ h1 h2
      | exact Bool.noConfusion h1
      | exact Bool.noConfusion h2

end Fatdmenu

namespace Fdmfc

theorem DirEntry.SortsBefore_trans_entries (a b c : DirEntry) (h1 : a.SortsBefore b = true)
    (h2 : b.SortsBefore c = true) : a.SortsBefore c = true := by
  unfold DirEntry.SortsBefore at h1 h2 ⊢
  cases ha : a.isDir <;> cases hb : b.isDir <;> cases hc : c.isDir <;>
    simp only [ha, hb, hc] at h1 h2 ⊢ <;> simp at h1 h2 ⊢ <;>
    exact strLt_trans _ _ _ h1 h2

end Fdmfc

/-! ### C13 -/

/-- C13: `SortsBefore` is transitive across mixed kinds: for all items `a`, `b`,
`c` of fatdmenu, each an `Entry`, a `Category` or a `SpecialEntry` with any
fields, and for all `DirEntry` values `a`, `b`, `c` of fdmfc, if `a` sorts
before `b` and `b` before `c` then `a` sorts before `c`. -/
theorem SortsBefore_transitive :
    (∀ a b c : Fatdmenu.FItem, a.SortsBefore b = true → b.SortsBefore c = true →
      a.SortsBefore c = true) ∧
    (∀ a b c : Fdmfc.DirEntry, a.SortsBefore b = true → b.SortsBefore c = true →
      a.SortsBefore c = true) :=
  ⟨Fatdmenu.FItem.SortsBefore_trans_items, Fdmfc.DirEntry.SortsBefore_trans_entries⟩

/-- C13, witness: a category, an entry and a later entry of fatdmenu; a
directory and two files of fdmfc. -/
theorem SortsBefore_transitive_witness :
    (Fatdmenu.FItem.category (ascii "web") [] []).SortsBefore
      (Fatdmenu.FItem.entry (ascii "news") [] []) = true ∧
    (Fdmfc.DirEntry.mk (ascii "etc") true (ascii "etc")).SortsBefore
      (Fdmfc.DirEntry.mk (ascii "g") false (ascii "g")) = true :=
  ⟨SortsBefore_transitive.1 (Fatdmenu.FItem.category (ascii "web") [] [])
      (Fatdmenu.FItem.entry (ascii "mail") [] []) (Fatdmenu.FItem.entry (ascii "news") [] [])
      rfl (by decide),
   SortsBefore_transitive.2 (Fdmfc.DirEntry.mk (ascii "etc") true (ascii "etc"))
      (Fdmfc.DirEntry.mk (ascii "f") false (ascii "f"))
      (Fdmfc.DirEntry.mk (ascii "g") false (ascii "g")) (by decide) (by decide)⟩

/-! ### C14 -/

/-- C14, counterexample: `catSelector`, a `SpecialEntry`, sorts before itself. -/
theorem SortsBefore_irreflexive_counterexample :
    (Fatdmenu.catSelector (ascii "/")).SortsBefore (Fatdmenu.catSelector (ascii "/")) = true :=
  rfl

/-- C14, amended: no `Entry` and no `Category` sorts before itself; a
`SpecialEntry` sorts before every item, itself included. -/
theorem SortsBefore_irreflexive :
    (∀ tok desc val : Bytes,
      (Fatdmenu.FItem.entry tok desc val).SortsBefore (Fatdmenu.FItem.entry tok desc val)
        = false) ∧
    (∀ (tok desc : Bytes) (stuff : List Fatdmenu.FItem),
      (Fatdmenu.FItem.category tok desc stuff).SortsBefore
        (Fatdmenu.FItem.category tok desc stuff) = false) ∧
    (∀ (line : Bytes) (itm : Fatdmenu.FItem),
      (Fatdmenu.FItem.special line).SortsBefore itm = true) :=
  ⟨fun tok _ _ => by simp [Fatdmenu.FItem.SortsBefore, strLt_irrefl tok],
   fun tok _ _ => by simp [Fatdmenu.FItem.SortsBefore, strLt_irrefl tok],
   fun _ itm => by cases itm <;> rfl⟩

/-! ### C15 -/

/-- C15, counterexample: in fdmfc the entry of the directory `etc` sorts before
`directorySelector`, which does not sort before it; the entry of a file whose
name is the byte 1 sorts before `hiddenShower`, which does not sort before it. -/
theorem sentinel_compare_counterexample :
    Fdmfc.itemOps.SortsBefore Fdmfc.EntryRef.directorySelector
      (Fdmfc.NewDirEntry false asciiToLower ⟨ascii "etc", true⟩) = false ∧
    Fdmfc.itemOps.SortsBefore (Fdmfc.NewDirEntry false asciiToLower ⟨ascii "etc", true⟩)
      Fdmfc.EntryRef.directorySelector = true ∧
    Fdmfc.itemOps.SortsBefore Fdmfc.EntryRef.hiddenShower
      (Fdmfc.NewDirEntry false asciiToLower ⟨[1], false⟩) = false ∧
    Fdmfc.itemOps.SortsBefore (Fdmfc.NewDirEntry false asciiToLower ⟨[1], false⟩)
      Fdmfc.EntryRef.hiddenShower = true := by
  decide

theorem Fdmfc.sentinel_sort (s : Fdmfc.EntryRef) (hs : s.isSentinel = true) :
    s.get.isDir = false ∧ (s.get.sort = [1] ∨ s.get.sort = [2]) := by
  cases s with
  | fresh de => cases hs
  | directorySelector => exact ⟨rfl, Or.inl rfl⟩
  | hiddenShower => exact ⟨rfl, Or.inr rfl⟩
  | hiddenHider => exact ⟨rfl, Or.inr rfl⟩

/-- C15, amended: in fatdmenu `catSelector` sorts before every `Entry` and
`Category`, and none of them sorts before it. In fdmfc each of
`directorySelector`, `hiddenShower` and `hiddenHider` sorts before the entry
made from a file (not a directory), and that entry does not sort before the
sentinel, exactly when the sort key of the sentinel is bytewise less than the
sort key of the entry; it is so whenever the sort key of the entry starts with
a byte above 2. -/
theorem sentinel_compare :
    (∀ (separator : Bytes) (r : Fatdmenu.FItem), r.isSpecial = false →
      (Fatdmenu.catSelector separator).SortsBefore r = true ∧
      r.SortsBefore (Fatdmenu.catSelector separator) = false) ∧
    (∀ (s : Fdmfc.EntryRef) (caseSensitiveSort : Bool) (toLower : Bytes → Bytes)
      (fi : Fdmfc.FileInfo) (c : Byte) (rest : Bytes),
      s.isSentinel = true → fi.IsDir = false →
      (Fdmfc.NewDirEntry caseSensitiveSort toLower fi).get.sort = c :: rest → 2 < c →
      Fdmfc.itemOps.SortsBefore s (Fdmfc.NewDirEntry caseSensitiveSort toLower fi) = true ∧
      Fdmfc.itemOps.SortsBefore (Fdmfc.NewDirEntry caseSensitiveSort toLower fi) s = false) ∧
    (∀ (s : Fdmfc.EntryRef) (caseSensitiveSort : Bool) (toLower : Bytes → Bytes)
      (fi : Fdmfc.FileInfo), s.isSentinel = true → fi.IsDir = false →
      ((Fdmfc.itemOps.SortsBefore s (Fdmfc.NewDirEntry caseSensitiveSort toLower fi) = true ∧
        Fdmfc.itemOps.SortsBefore (Fdmfc.NewDirEntry caseSensitiveSort toLower fi) s = false) ↔
       strLt s.get.sort (Fdmfc.NewDirEntry caseSensitiveSort toLower fi).get.sort = true)) := by
  refine ⟨?_, ?_, ?_⟩
  · intro separator r hr
    cases r with
    | entry _ _ _ => exact ⟨rfl, rfl⟩
    | category _ _ _ => exact ⟨rfl, rfl⟩
    | special _ => cases hr
  rotate_left
  · intro s caseSensitiveSort toLower fi hs hfile
    have hd := (Fdmfc.sentinel_sort s hs).1
    have hrd : (Fdmfc.NewDirEntry caseSensitiveSort toLower fi).get.isDir = false := hfile
    simp only [Fdmfc.itemOps, Fdmfc.DirEntry.SortsBefore, hd, hrd]
    constructor
    · intro h
      simpa using h.1
    · intro h
      simp [h, strLt_asymm _ _ h]
  · intro s caseSensitiveSort toLower fi c rest hs hfile hsort hc
    rcases Fdmfc.sentinel_sort s hs with ⟨hd, hk⟩
    have hrd : (Fdmfc.NewDirEntry caseSensitiveSort toLower fi).get.isDir = false := hfile
    have h1c : (1 : Nat) < c := Nat.lt_trans (by decide) hc
    have hlt : strLt s.get.sort (c :: rest) = true := by
      rcases hk with hk | hk
      · rw [hk]; simp [strLt, h1c]
      · rw [hk]; simp [strLt, hc]
    have hgt := strLt_asymm _ _ hlt
    simp only [Fdmfc.itemOps, Fdmfc.DirEntry.SortsBefore, hd, hrd, hsort, hlt, hgt]
    simp

/-- C15, witness of the amended claim: `catSelector` against the entry `mail`,
and `hiddenShower` against the entry of the file `f`. -/
theorem sentinel_compare_witness :
    ((Fatdmenu.catSelector (ascii "/")).SortsBefore
        (Fatdmenu.FItem.entry (ascii "mail") (ascii "the mail") (ascii "mutt")) = true ∧
      (Fatdmenu.FItem.entry (ascii "mail") (ascii "the mail") (ascii "mutt")).SortsBefore
        (Fatdmenu.catSelector (ascii "/")) = false) ∧
    (Fdmfc.itemOps.SortsBefore Fdmfc.EntryRef.hiddenShower
        (Fdmfc.NewDirEntry false asciiToLower ⟨ascii "f", false⟩) = true ∧
      Fdmfc.itemOps.SortsBefore (Fdmfc.NewDirEntry false asciiToLower ⟨ascii "f", false⟩)
        Fdmfc.EntryRef.hiddenShower = false) :=
  ⟨sentinel_compare.1 (ascii "/")
      (Fatdmenu.FItem.entry (ascii "mail") (ascii "the mail") (ascii "mutt")) rfl,
   sentinel_compare.2.1 Fdmfc.EntryRef.hiddenShower false asciiToLower ⟨ascii "f", false⟩ 102 []
      rfl rfl (by decide) (by decide)⟩

/-! ### C12 -/

theorem length_le_ensureReturnminated (bs : Bytes) :
    bs.length ≤ (ensureReturnminated bs).length := by
  rw [ensureReturnminated_eq]
  by_cases h : bs.getLast? = some 10
  · rw [if_pos h]
  · rw [if_neg h]; simp

theorem length_le_padString (widPresent : Bool) (wid : Nat) (minus : Bool) (s : Bytes) :
    s.length ≤ (padString widPresent wid minus s).length := by
  unfold padString
  split
  · exact Nat.le_refl _
  · split <;> simp

theorem length_le_starPad (w : Int) (minus : Bool) (s : Bytes) :
    s.length ≤ (starPad w minus s).length := by
  unfold starPad
  split
  · rw [List.length_append]
    exact Nat.le_trans (length_le_padString _ _ _ _) (Nat.le_add_left _ _)
  · split <;> exact length_le_padString _ _ _ _

theorem Fdmcm.length_le_zeroPadInt (wid : Nat) (n : Int) :
    (fmtInt n).length ≤ (Fdmcm.zeroPadInt wid n).length := by
  unfold Fdmcm.zeroPadInt fmtInt
  refine Nat.le_trans ?_ (length_le_padString _ _ _ _)
  by_cases h : n < 0
  · simp only [h, if_true, List.length_cons, List.length_append, List.length_replicate]
    omega
  · have h2 : n.toNat = n.natAbs := by omega
    simp only [h, if_false, h2, List.length_append, List.length_replicate]
    omega

theorem Fdmcm.length_le_starZeroInt (w : Int) (n : Int) :
    (fmtInt n).length ≤ (Fdmcm.starZeroInt w n).length := by
  unfold Fdmcm.starZeroInt
  split
  · simp
  · split
    · exact length_le_padString _ _ _ _
    · exact Fdmcm.length_le_zeroPadInt _ _

theorem Fatdmenu.key_le_menuLine_fitem (separator : Bytes) (itm : Fatdmenu.FItem) (w : Int) :
    (Fatdmenu.FItem.Key separator itm).length ≤ (Fatdmenu.FItem.MenuLine separator itm w).length := by
  cases itm with
  | entry tok desc val =>
    simp only [Fatdmenu.FItem.Key, Fatdmenu.FItem.MenuLine, List.length_append]
    have := length_le_starPad w true tok
    omega
  | category tok desc stuff =>
    simp only [Fatdmenu.FItem.Key, Fatdmenu.FItem.MenuLine]
    have := length_le_starPad w true (tok ++ separator)
    simp only [List.length_append] at this ⊢
    omega
  | special line => simp [Fatdmenu.FItem.Key]

theorem Dtodo.key_le_menuLine_todo (itm : Dtodo.Item) (w : Int) :
    itm.Key.length ≤ (itm.MenuLine w).length := by
  simp only [Dtodo.Item.Key, Dtodo.Item.MenuLine, List.length_append]
  have := length_le_starPad w false (fmtInt itm.N)
  omega

theorem Fdmcm.key_le_menuLine_clip (e : Fdmcm.Entry) (w : Int) :
    e.Key.length ≤ (e.MenuLine w).length := by
  simp only [Fdmcm.Entry.Key, Fdmcm.Entry.MenuLine, List.length_append]
  have := Fdmcm.length_le_starZeroInt w e.n
  omega

/-- C12: the padding invariant. For every list of items of fatdmenu (`Entry`,
`Category`, `SpecialEntry`), of dtodo (`Item`), of fdmcm (`Entry`) or of fdmfc
(`DirEntry`) and every item of the list, the formatted line of the item,
rendered with the width `keyLen` computes for the list, is at least as long in
bytes as the item's `Key()`. -/
theorem key_le_formatted_line :
    (∀ (separator : Bytes) (input : List Fatdmenu.FItem) (itm : Fatdmenu.FItem), itm ∈ input →
      ((Fatdmenu.itemOps separator).Key itm).length ≤
        (ensureReturnminated ((Fatdmenu.itemOps separator).MenuLine itm
          (keyLen (Fatdmenu.itemOps separator) input))).length) ∧
    (∀ (input : List Dtodo.Item) (itm : Dtodo.Item), itm ∈ input →
      (Dtodo.itemOps.Key itm).length ≤
        (ensureReturnminated (Dtodo.itemOps.MenuLine itm (keyLen Dtodo.itemOps input))).length) ∧
    (∀ (input : List Fdmcm.Entry) (itm : Fdmcm.Entry), itm ∈ input →
      (Fdmcm.itemOps.Key itm).length ≤
        (ensureReturnminated (Fdmcm.itemOps.MenuLine itm (keyLen Fdmcm.itemOps input))).length) ∧
    (∀ (input : List Fdmfc.EntryRef) (itm : Fdmfc.EntryRef), itm ∈ input →
      (Fdmfc.itemOps.Key itm).length ≤
        (ensureReturnminated (Fdmfc.itemOps.MenuLine itm (keyLen Fdmfc.itemOps input))).length) :=
  ⟨fun separator _ itm _ =>
      Nat.le_trans (Fatdmenu.key_le_menuLine_fitem separator itm _) (length_le_ensureReturnminated _),
   fun _ itm _ => Nat.le_trans (Dtodo.key_le_menuLine_todo itm _) (length_le_ensureReturnminated _),
   fun _ itm _ => Nat.le_trans (Fdmcm.key_le_menuLine_clip itm _) (length_le_ensureReturnminated _),
   fun _ _ _ => Nat.zero_le _⟩

/-- C12, witness: the category `web/` in the list of `baseCat`, the item 2 of
the three to-do items, and a clipboard entry numbered 7 next to one numbered
120, whose line starts with `007`. -/
theorem key_le_formatted_line_witness :
    (4 ≤ (ensureReturnminated ((Fatdmenu.itemOps (ascii "/")).MenuLine
        (Fatdmenu.FItem.category (ascii "web") (ascii "sites") [])
        (keyLen (Fatdmenu.itemOps (ascii "/"))
          [Fatdmenu.FItem.category (ascii "web") (ascii "sites") []]))).length) ∧
    (1 ≤ (ensureReturnminated (Dtodo.itemOps.MenuLine ⟨2, ascii "mow"⟩
        (keyLen Dtodo.itemOps threeItems))).length) ∧
    Fdmcm.itemOps.MenuLine ⟨7, [], ascii "text"⟩
        (keyLen Fdmcm.itemOps [⟨120, [], ascii "clip"⟩, ⟨7, [], ascii "text"⟩])
      = ascii "007    text\n" ∧
    (1 ≤ (ensureReturnminated (Fdmcm.itemOps.MenuLine ⟨7, [], ascii "text"⟩
        (keyLen Fdmcm.itemOps [⟨120, [], ascii "clip"⟩, ⟨7, [], ascii "text"⟩]))).length) :=
  ⟨key_le_formatted_line.1 (ascii "/") [Fatdmenu.FItem.category (ascii "web") (ascii "sites") []]
      (Fatdmenu.FItem.category (ascii "web") (ascii "sites") []) (List.mem_singleton.2 rfl),
   key_le_formatted_line.2.1 threeItems ⟨2, ascii "mow"⟩ (by decide),
   by decide,
   key_le_formatted_line.2.2.1 [⟨120, [], ascii "clip"⟩, ⟨7, [], ascii "text"⟩]
      ⟨7, [], ascii "text"⟩ (by decide)⟩

/-! ### C16 -/

namespace Fatdmenu

theorem FItem.Key_addItemAt (separator : Bytes) (x : FItem) (path : List Nat) (itm : FItem) :
    FItem.Key separator (FItem.addItemAt x path itm) = FItem.Key separator itm := by
  cases path <;> cases itm <;> rfl

theorem noDupKeysIn_append (separator : Bytes) :
    ∀ a b : List FItem,
      noDupKeysIn separator (a ++ b) = (noDupKeysIn separator a && noDupKeysIn separator b)
  | [], b => by simp [noDupKeysIn]
  | itm :: rest, b => by
      simp [noDupKeysIn, noDupKeysIn_append separator rest b, Bool.and_assoc]

theorem map_Key_modifyNth (separator : Bytes) (f : FItem → FItem)
    (hf : ∀ itm, FItem.Key separator (f itm) = FItem.Key separator itm) :
    ∀ (i : Nat) (l : List FItem),
      (modifyNth f i l).map (FItem.Key separator) = l.map (FItem.Key separator)
  | _, [] => by simp [modifyNth]
  | 0, a :: l => by simp [modifyNth, hf]
  | i + 1, a :: l => by simp [modifyNth, map_Key_modifyNth separator f hf i l]

theorem getElem?_modifyNth {α : Type} (f : α → α) :
    ∀ (i : Nat) (l : List α), (modifyNth f i l)[i]? = (l[i]?).map f
  | _, [] => by simp [modifyNth]
  | 0, a :: l => by simp [modifyNth]
  | i + 1, a :: l => by simp [modifyNth, getElem?_modifyNth f i l]

theorem noDupKeysIn_modifyNth (separator : Bytes) (f : FItem → FItem) (extra : Bool) :
    ∀ (i : Nat) (l : List FItem) (itm : FItem), l[i]? = some itm →
      FItem.noDupKeys separator (f itm) = (FItem.noDupKeys separator itm && extra) →
      noDupKeysIn separator (modifyNth f i l) = (noDupKeysIn separator l && extra)
  | _, [], _, h, _ => by simp at h
  | 0, a :: l, itm, h, hf => by
      simp only [List.getElem?_cons_zero, Option.some.injEq] at h
      subst h
      simp only [modifyNth, noDupKeysIn, hf]
      cases FItem.noDupKeys separator a <;> cases noDupKeysIn separator l <;> cases extra <;> rfl
  | i + 1, a :: l, itm, h, hf => by
      simp only [List.getElem?_cons_succ] at h
      simp only [modifyNth, noDupKeysIn, noDupKeysIn_modifyNth separator f extra i l itm h hf,
        Bool.and_assoc]

theorem FItem.noDupKeys_addItemAt (separator : Bytes) (x : FItem) :
    ∀ (path : List Nat) (h : FItem) (stuff : List FItem), h.stuffAt path = some stuff →
      (FItem.addItemAt x path h).stuffAt path = some (stuff ++ [x]) ∧
      FItem.noDupKeys separator (FItem.addItemAt x path h) =
        (FItem.noDupKeys separator h &&
          (FItem.noDupKeys separator x &&
            decide (FItem.Key separator x ∉ stuff.map (FItem.Key separator))))
  | [], FItem.entry _ _ _, _, h => by simp [FItem.stuffAt] at h
  | [], FItem.special _, _, h => by simp [FItem.stuffAt] at h
  | _ :: _, FItem.entry _ _ _, _, h => by simp [FItem.stuffAt] at h
  | _ :: _, FItem.special _, _, h => by simp [FItem.stuffAt] at h
  | [], FItem.category tok desc s, stuff, h => by
      simp only [FItem.stuffAt, Option.some.injEq] at h
      subst h
      refine ⟨rfl, ?_⟩
      have hnd : ((s ++ [x]).map (FItem.Key separator)).Nodup ↔
          (s.map (FItem.Key separator)).Nodup ∧
            FItem.Key separator x ∉ s.map (FItem.Key separator) := by
        rw [List.map_append, List.nodup_append]
        simp [List.disjoint_singleton]
      simp only [FItem.addItemAt, Category.AddItem, Category.toItem, FItem.noDupKeys,
        noDupKeysIn_append, noDupKeysIn, Bool.and_true, hnd, Bool.decide_and]
      cases decide ((s.map (FItem.Key separator)).Nodup) <;>
        cases noDupKeysIn separator s <;> cases FItem.noDupKeys separator x <;>
        cases decide (FItem.Key separator x ∉ s.map (FItem.Key separator)) <;> rfl
  | i :: path, FItem.category tok desc s, stuff, h => by
      simp only [FItem.stuffAt] at h
      cases hi : s[i]? with
      | none => rw [hi] at h; simp at h
      | some itm =>
        rw [hi] at h
        simp only [Option.some_bind] at h
        have ih := FItem.noDupKeys_addItemAt separator x path itm stuff h
        constructor
        · simp only [FItem.addItemAt, FItem.stuffAt, getElem?_modifyNth, hi, Option.map_some',
            Option.some_bind]
          exact ih.1
        · simp only [FItem.addItemAt, FItem.noDupKeys,
            map_Key_modifyNth separator _ (FItem.Key_addItemAt separator x path),
            noDupKeysIn_modifyNth separator _ _ i s itm hi ih.2, Bool.and_assoc]

theorem noDupKeys_newItem (separator : Bytes) (selectCat : Bool) (newKey newDesc newVal : Bytes) :
    FItem.noDupKeys separator (newItem selectCat newKey newDesc newVal) = true := by
  cases selectCat <;> simp [newItem, FItem.noDupKeys, noDupKeysIn]

end Fatdmenu

/-- C16, counterexample: in `baseCat` no two children of one category have the
same `Key()`; in add mode the root is chosen as the container and the new entry
has the key `mail`; after `AddItem` the root holds two children with the key
`mail`. -/
theorem addItem_duplicate_key_counterexample :
    baseCat.toItem.noDupKeys (ascii "/") = true ∧
    Fatdmenu.addMode (ascii "/") insertionSort
        (fun _ => echoPicker (ascii "/ [ choose current category ]\n")) 1 baseCat []
      = some (Fatdmenu.Outcome.addedTo
          ⟨[], ascii "Base Category", insertionSort Fatdmenu.FItem.SortsBefore baseCat.Stuff⟩) ∧
    ((Fatdmenu.Category.AddItem
        ⟨[], ascii "Base Category", insertionSort Fatdmenu.FItem.SortsBefore baseCat.Stuff⟩
        (Fatdmenu.newItem false (ascii "mail") (ascii "more mail") (ascii "alpine"))).Stuff.map
      (Fatdmenu.FItem.Key (ascii "/"))) = [ascii "web/", ascii "mail", ascii "mail"] ∧
    (Fatdmenu.Category.AddItem
        ⟨[], ascii "Base Category", insertionSort Fatdmenu.FItem.SortsBefore baseCat.Stuff⟩
        (Fatdmenu.newItem false (ascii "mail") (ascii "more mail")
          (ascii "alpine"))).toItem.noDupKeys (ascii "/") = false ∧
    (Fatdmenu.FItem.addItemAt
        (Fatdmenu.newItem false (ascii "mail") (ascii "more mail") (ascii "alpine")) []
        baseCat.toItem).noDupKeys (ascii "/") = false := by
  refine ⟨by decide, rfl, by decide, by decide, by decide⟩

/-- C16, amended: `AddItem` appends the new item to the children of the chosen
category and compares no keys. For every hierarchy in which no two children of
one category have the same `Key()`, every category of it chosen as container
and every new key and kind of item, the children of the container after the add
step are the former ones followed by the new item, and the hierarchy still has
no two children of one category with the same `Key()` exactly when the `Key()`
of the new item differs from that of every child the container already had. -/
theorem addItem_keys_distinct_iff (separator : Bytes) (selectCat : Bool)
    (newKey newDesc newVal : Bytes) (h : Fatdmenu.FItem) (path : List Nat)
    (stuff : List Fatdmenu.FItem) (hcontainer : h.stuffAt path = some stuff)
    (hinv : h.noDupKeys separator = true) :
    (Fatdmenu.FItem.addItemAt (Fatdmenu.newItem selectCat newKey newDesc newVal) path h).stuffAt
        path = some (stuff ++ [Fatdmenu.newItem selectCat newKey newDesc newVal]) ∧
    ((Fatdmenu.FItem.addItemAt (Fatdmenu.newItem selectCat newKey newDesc newVal) path
        h).noDupKeys separator = true ↔
      Fatdmenu.FItem.Key separator (Fatdmenu.newItem selectCat newKey newDesc newVal) ∉
        stuff.map (Fatdmenu.FItem.Key separator)) := by
  have key := Fatdmenu.FItem.noDupKeys_addItemAt separator
    (Fatdmenu.newItem selectCat newKey newDesc newVal) path h stuff hcontainer
  refine ⟨key.1, ?_⟩
  rw [key.2, hinv, Fatdmenu.noDupKeys_newItem]
  simp

/-- C16, witness of the amended claim: a category `news` added to the category
`web` of `baseCat`, which holds the entry `lean` only. -/
theorem addItem_keys_distinct_iff_witness :
    (Fatdmenu.FItem.addItemAt (Fatdmenu.newItem true (ascii "news") (ascii "papers") []) [1]
        baseCat.toItem).stuffAt [1]
      = some ([Fatdmenu.FItem.entry (ascii "lean") (ascii "prover") (ascii "lean-lang.org")] ++
          [Fatdmenu.newItem true (ascii "news") (ascii "papers") []]) ∧
    ((Fatdmenu.FItem.addItemAt (Fatdmenu.newItem true (ascii "news") (ascii "papers") []) [1]
        baseCat.toItem).noDupKeys (ascii "/") = true ↔
      Fatdmenu.FItem.Key (ascii "/") (Fatdmenu.newItem true (ascii "news") (ascii "papers") []) ∉
        [Fatdmenu.FItem.entry (ascii "lean") (ascii "prover") (ascii "lean-lang.org")].map
          (Fatdmenu.FItem.Key (ascii "/"))) :=
  addItem_keys_distinct_iff (ascii "/") true (ascii "news") (ascii "papers") [] baseCat.toItem [1]
    [Fatdmenu.FItem.entry (ascii "lean") (ascii "prover") (ascii "lean-lang.org")] rfl
    (by decide)

/-! ### C17 -/

namespace Fatdmenu

theorem Node.addrs_eq (n : Node) : n.addrs = n.addr :: n.descendants := by
  cases n <;> rfl

mutual
theorem Node.takenOut_of_not_descendant (x : Nat) :
    ∀ n : Node, x ∉ n.descendants → Node.takenOut x n = n
  | Node.entry _ _ _ _, _ => rfl
  | Node.category a tok desc stuff, h => by
      rw [Node.takenOut, takenOutIn_of_not_mem x stuff h]
theorem takenOutIn_of_not_mem (x : Nat) :
    ∀ l : List Node, x ∉ addrsIn l → takenOutIn x l = l
  | [], _ => rfl
  | i :: rest, h => by
      rw [addrsIn, Node.addrs_eq, List.mem_append, List.mem_cons] at h
      have h1 : ¬ i.addr = x := fun e => h (Or.inl (Or.inl e.symm))
      have h2 : x ∉ i.descendants := fun e => h (Or.inl (Or.inr e))
      have h3 : x ∉ addrsIn rest := fun e => h (Or.inr e)
      rw [takenOutIn, if_neg h1, Node.takenOut_of_not_descendant x i h2,
        takenOutIn_of_not_mem x rest h3]
end

mutual
theorem Node.Expunge_eq (x : Nat) :
    ∀ n : Node, n.addrs.Nodup →
      Node.Expunge x n = (decide (x ∈ n.descendants), Node.takenOut x n)
  | Node.entry _ _ _ _, _ => by simp [Node.Expunge, Node.descendants, Node.takenOut]
  | Node.category a tok desc stuff, h => by
      rw [Node.addrs, List.nodup_cons] at h
      rw [Node.Expunge, expungeRange_eq x stuff h.2]
      rfl
theorem expungeRange_eq (x : Nat) :
    ∀ l : List Node, (addrsIn l).Nodup →
      expungeRange x l = (decide (x ∈ addrsIn l), takenOutIn x l)
  | [], _ => by simp [expungeRange, addrsIn, takenOutIn]
  | i :: rest, h => by
      rw [addrsIn, List.nodup_append] at h
      rcases h with ⟨hi, hrest, hdisj⟩
      rw [expungeRange, addrsIn, takenOutIn, Node.Expunge_eq x i hi]
      by_cases e : i.addr = x
      · have hx : x ∈ i.addrs := by rw [Node.addrs_eq, ← e]; exact List.mem_cons_self _ _
        have hnot : x ∉ addrsIn rest := fun hm => hdisj hx hm
        rw [if_pos e, if_pos e, takenOutIn_of_not_mem x rest hnot]
        simp [hx]
      · rw [if_neg e, if_neg e]
        by_cases hb : x ∈ i.descendants
        · have hx : x ∈ i.addrs := by rw [Node.addrs_eq]; exact List.mem_cons_of_mem _ hb
          have hnot : x ∉ addrsIn rest := fun hm => hdisj hx hm
          simp only [hb, decide_True, if_true]
          rw [takenOutIn_of_not_mem x rest hnot]
          simp [hx]
        · have hx : x ∉ i.addrs := by
            rw [Node.addrs_eq, List.mem_cons]
            rintro (h1 | h1)
            · exact e h1.symm
            · exact hb h1
          simp only [hb, decide_False, Bool.false_eq_true, if_false]
          rw [expungeRange_eq x rest hrest]
          simp [hx]
end

mutual
theorem Node.not_mem_addrs_takenOut (x : Nat) :
    ∀ n : Node, n.addr ≠ x → x ∉ (Node.takenOut x n).addrs
  | Node.entry a _ _ _, h => by
      simp only [Node.addr] at h
      simp [Node.takenOut, Node.addrs, Ne.symm h]
  | Node.category a tok desc stuff, h => by
      simp only [Node.addr] at h
      rw [Node.takenOut, Node.addrs, List.mem_cons]
      rintro (h1 | h1)
      · exact h h1.symm
      · exact not_mem_addrsIn_takenOutIn x stuff h1
theorem not_mem_addrsIn_takenOutIn (x : Nat) :
    ∀ l : List Node, x ∉ addrsIn (takenOutIn x l)
  | [] => by simp [takenOutIn, addrsIn]
  | i :: rest => by
      rw [takenOutIn]
      by_cases e : i.addr = x
      · rw [if_pos e]
        exact not_mem_addrsIn_takenOutIn x rest
      · rw [if_neg e, addrsIn, List.mem_append]
        rintro (h1 | h1)
        · exact Node.not_mem_addrs_takenOut x i e h1
        · exact not_mem_addrsIn_takenOutIn x rest h1
end

end Fatdmenu

/-- C17: `Category.Expunge` removes exactly the given item. For every hierarchy
rooted at a category `c` in which each item occurs once and every item `x`,
`c.Expunge(x)` returns true if and only if `x` occurs below `c` at some depth;
when it returns true the hierarchy is afterwards the original one with `x`, and
what `x` contains, taken out of the list that held it, every other item in its
place; when it returns false the hierarchy is unchanged. -/
theorem Expunge_removes_exactly (x a : Nat) (tok desc : Bytes) (stuff : List Fatdmenu.Node)
    (htree : (Fatdmenu.Node.category a tok desc stuff).addrs.Nodup) :
    ((Fatdmenu.Node.Expunge x (Fatdmenu.Node.category a tok desc stuff)).1 = true ↔
      x ∈ Fatdmenu.addrsIn stuff) ∧
    ((Fatdmenu.Node.Expunge x (Fatdmenu.Node.category a tok desc stuff)).1 = true →
      (Fatdmenu.Node.Expunge x (Fatdmenu.Node.category a tok desc stuff)).2
        = Fatdmenu.Node.takenOut x (Fatdmenu.Node.category a tok desc stuff) ∧
      x ∉ (Fatdmenu.Node.Expunge x (Fatdmenu.Node.category a tok desc stuff)).2.descendants) ∧
    ((Fatdmenu.Node.Expunge x (Fatdmenu.Node.category a tok desc stuff)).1 = false →
      (Fatdmenu.Node.Expunge x (Fatdmenu.Node.category a tok desc stuff)).2
        = Fatdmenu.Node.category a tok desc stuff) := by
  rw [Fatdmenu.Node.Expunge_eq x _ htree]
  refine ⟨by simp [Fatdmenu.Node.descendants], ?_, ?_⟩
  · intro _
    exact ⟨rfl, Fatdmenu.not_mem_addrsIn_takenOutIn x stuff⟩
  · intro h
    simp only [decide_eq_false_iff_not] at h
    exact Fatdmenu.Node.takenOut_of_not_descendant x _ h

/-- C17, witness: in `baseNode` the entry `lean` at address 3 is expunged from
the category `web`, which stays in place without children, next to the entry
`mail`. -/
theorem Expunge_removes_exactly_witness :
    Fatdmenu.Node.Expunge 3 baseNode
      = (true, Fatdmenu.Node.category 0 [] (ascii "Base Category")
          [Fatdmenu.Node.entry 1 (ascii "mail") (ascii "the mail") (ascii "mutt"),
           Fatdmenu.Node.category 2 (ascii "web") (ascii "sites") []]) ∧
    ((Fatdmenu.Node.Expunge 3 baseNode).1 = true ↔
      3 ∈ Fatdmenu.addrsIn
        [Fatdmenu.Node.entry 1 (ascii "mail") (ascii "the mail") (ascii "mutt"),
         Fatdmenu.Node.category 2 (ascii "web") (ascii "sites")
           [Fatdmenu.Node.entry 3 (ascii "lean") (ascii "prover") (ascii "lean-lang.org")]]) :=
  ⟨rfl,
   (Expunge_removes_exactly 3 0 [] (ascii "Base Category")
      [Fatdmenu.Node.entry 1 (ascii "mail") (ascii "the mail") (ascii "mutt"),
       Fatdmenu.Node.category 2 (ascii "web") (ascii "sites")
         [Fatdmenu.Node.entry 3 (ascii "lean") (ascii "prover") (ascii "lean-lang.org")]]
      (by decide)).1⟩

/-! ### C20 -/

namespace Fdmfc

theorem splitSlash_plain : ∀ c : Bytes, pathSeparator ∉ c → splitSlash c = [c]
  | [], _ => rfl
  | x :: c, h => by
      have hx : x ≠ pathSeparator := fun e => h (by simp [e])
      have hc : pathSeparator ∉ c := fun e => h (List.mem_cons_of_mem _ e)
      simp [splitSlash, hx, splitSlash_plain c hc]

theorem splitSlash_append_sep (rest : Bytes) :
    ∀ c : Bytes, pathSeparator ∉ c →
      splitSlash (c ++ pathSeparator :: rest) = c :: splitSlash rest
  | [], _ => by simp [splitSlash]
  | x :: c, h => by
      have hx : x ≠ pathSeparator := fun e => h (by simp [e])
      have hc : pathSeparator ∉ c := fun e => h (List.mem_cons_of_mem _ e)
      simp [splitSlash, hx, splitSlash_append_sep rest c hc]

theorem slashed_cons (c : Bytes) (cs : List Bytes) :
    slashed (c :: cs) = pathSeparator :: (c ++ slashed cs) := by
  simp [slashed]

theorem slashed_append (a b : List Bytes) : slashed (a ++ b) = slashed a ++ slashed b := by
  simp [slashed]

theorem splitSlash_slashed_sep (t : Bytes) :
    ∀ (cs : List Bytes) (c : Bytes), pathSeparator ∉ c → (∀ x ∈ cs, pathSeparator ∉ x) →
      splitSlash (c ++ slashed cs ++ pathSeparator :: t) = c :: cs ++ splitSlash t
  | [], c, hc, _ => by simp [slashed, splitSlash_append_sep t c hc]
  | c2 :: cs, c, hc, h => by
      have h2 : pathSeparator ∉ c2 := h c2 (List.mem_cons_self _ _)
      have hcs : ∀ x ∈ cs, pathSeparator ∉ x := fun x hx => h x (List.mem_cons_of_mem _ hx)
      rw [slashed_cons, List.append_assoc, List.cons_append, splitSlash_append_sep _ c hc,
        splitSlash_slashed_sep t cs c2 h2 hcs]
      simp

theorem splitSlash_slashed :
    ∀ (cs : List Bytes) (c : Bytes), pathSeparator ∉ c → (∀ x ∈ cs, pathSeparator ∉ x) →
      splitSlash (c ++ slashed cs) = c :: cs
  | [], c, hc, _ => by simp [slashed, splitSlash_plain c hc]
  | c2 :: cs, c, hc, h => by
      have h2 : pathSeparator ∉ c2 := h c2 (List.mem_cons_self _ _)
      have hcs : ∀ x ∈ cs, pathSeparator ∉ x := fun x hx => h x (List.mem_cons_of_mem _ hx)
      rw [slashed_cons, splitSlash_append_sep _ c hc, splitSlash_slashed cs c2 h2 hcs]

theorem cleanStep_plain (rooted : Bool) (out : List Bytes) (c : Bytes) (h : plainName c) :
    cleanStep rooted out c = c :: out := by
  rcases h with ⟨h1, _, h3, h4⟩
  simp [cleanStep, h1, h3, h4]

theorem foldl_cleanStep_plain (rooted : Bool) :
    ∀ (cs : List Bytes) (out : List Bytes), (∀ c ∈ cs, plainName c) →
      cs.foldl (cleanStep rooted) out = cs.reverse ++ out
  | [], _, _ => by simp
  | c :: cs, out, h => by
      rw [List.foldl_cons, cleanStep_plain rooted out c (h c (List.mem_cons_self _ _)),
        foldl_cleanStep_plain rooted cs _ (fun x hx => h x (List.mem_cons_of_mem _ hx))]
      simp

theorem intercalate_cons_eq (c : Bytes) :
    ∀ cs : List Bytes, [pathSeparator].intercalate (c :: cs) = c ++ slashed cs
  | [] => by simp [List.intercalate, slashed]
  | c2 :: cs => by
      have ih := intercalate_cons_eq c2 cs
      simp only [List.intercalate, List.intersperse, List.flatten] at ih ⊢
      rw [ih, slashed_cons]
      simp

theorem absPath_snoc (init : List Bytes) (c : Bytes) :
    pathSeparator :: [pathSeparator].intercalate (init ++ [c])
      = (pathSeparator :: [pathSeparator].intercalate init) ++
          (if init = [] then c else pathSeparator :: c) := by
  cases init with
  | nil => simp [List.intercalate]
  | cons c1 cs =>
    rw [List.cons_append, intercalate_cons_eq, intercalate_cons_eq, slashed_append]
    simp [slashed]

theorem absPath_eq_slashed (cs : List Bytes) (h : cs ≠ []) :
    pathSeparator :: [pathSeparator].intercalate cs = slashed cs := by
  cases cs with
  | nil => exact absurd rfl h
  | cons c cs => rw [intercalate_cons_eq, slashed_cons]

theorem slashed_snoc (init : List Bytes) (c : Bytes) :
    slashed (init ++ [c]) = slashed init ++ pathSeparator :: c := by
  rw [slashed_append]
  simp [slashed]

theorem filepathBase_snoc (q c : Bytes) (h : plainName c) :
    filepathBase (q ++ pathSeparator :: c) = c := by
  rcases h with ⟨h1, h2, _, _⟩
  have hall : ∀ a ∈ c.reverse, (a != pathSeparator) = true := by
    intro a ha
    have : a ≠ pathSeparator := fun e => h2 (e ▸ List.mem_reverse.1 ha)
    simpa using this
  rcases List.eq_nil_or_concat c with hc | ⟨ini, x, hc⟩
  · exact absurd hc h1
  · have hx : x ≠ pathSeparator := fun e => h2 (by rw [hc, e]; simp)
    have hrev : (q ++ pathSeparator :: c).reverse = x :: (ini.reverse ++ pathSeparator :: q.reverse) := by
      rw [hc]; simp
    have hstrip : ((q ++ pathSeparator :: c).reverse.dropWhile (fun a => a == pathSeparator))
        = (q ++ pathSeparator :: c).reverse := by
      rw [hrev, List.dropWhile_cons_of_neg (by simpa using hx)]
    have hrev2 : (q ++ pathSeparator :: c).reverse = c.reverse ++ pathSeparator :: q.reverse := by
      simp
    have hne : q ++ pathSeparator :: c ≠ [] := by simp
    unfold filepathBase
    simp only [hne, if_false, hstrip, List.reverse_reverse]
    rw [hrev2, List.takeWhile_append_of_pos hall, List.takeWhile_cons_of_neg (by simp)]
    simp [h1]

theorem filepathDir_snoc (q c : Bytes) (h : plainName c) :
    filepathDir (q ++ pathSeparator :: c) = filepathClean (q ++ [pathSeparator]) := by
  have hall : ∀ a ∈ c.reverse, (a != pathSeparator) = true := by
    intro a ha
    have : a ≠ pathSeparator := fun e => h.2.1 (e ▸ List.mem_reverse.1 ha)
    simpa using this
  have hrev : (q ++ pathSeparator :: c).reverse = c.reverse ++ pathSeparator :: q.reverse := by
    simp
  unfold filepathDir
  rw [hrev, List.dropWhile_append_of_pos hall, List.dropWhile_cons_of_neg (by simp)]
  simp

theorem filepathClean_rooted (rest : Bytes) (cs : List Bytes) (hplain : ∀ c ∈ cs, plainName c)
    (hsplit : splitSlash rest = cs ++ [[]] ∨ splitSlash rest = [] :: cs ∨ splitSlash rest = cs) :
    filepathClean (pathSeparator :: rest) = pathSeparator :: [pathSeparator].intercalate cs := by
  have hfold : (splitSlash (pathSeparator :: rest)).foldl (cleanStep true) [] = cs.reverse := by
    have h0 : splitSlash (pathSeparator :: rest) = [] :: splitSlash rest := by simp [splitSlash]
    have hnil : ∀ out, cleanStep true out [] = out := by intro out; simp [cleanStep]
    rw [h0, List.foldl_cons, hnil]
    rcases hsplit with h | h | h
    · rw [h, List.foldl_append, foldl_cleanStep_plain true cs [] hplain]
      simp [hnil]
    · rw [h, List.foldl_cons, hnil, foldl_cleanStep_plain true cs [] hplain]
      simp
    · rw [h, foldl_cleanStep_plain true cs [] hplain]
      simp
  simp only [filepathClean, beq_self_eq_true, hfold, List.reverse_reverse, if_true]

theorem plain_no_sep (cs : List Bytes) (h : ∀ c ∈ cs, plainName c) :
    ∀ x ∈ cs, pathSeparator ∉ x := fun x hx => (h x hx).2.1

theorem filepathClean_slashed_sep (init : List Bytes) (h : ∀ c ∈ init, plainName c) :
    filepathClean (slashed init ++ [pathSeparator])
      = pathSeparator :: [pathSeparator].intercalate init := by
  cases init with
  | nil =>
    exact filepathClean_rooted [] [] (by simp) (Or.inl rfl)
  | cons c cs =>
    have hc : pathSeparator ∉ c := (h c (List.mem_cons_self _ _)).2.1
    have hcs : ∀ x ∈ cs, pathSeparator ∉ x :=
      fun x hx => (h x (List.mem_cons_of_mem _ hx)).2.1
    rw [slashed_cons, List.cons_append]
    refine filepathClean_rooted _ (c :: cs) h (Or.inl ?_)
    have := splitSlash_slashed_sep [] cs c hc hcs
    simpa [splitSlash] using this

theorem filepathJoin_root (comps : List Bytes) (h : ∀ c ∈ comps, plainName c) :
    filepathJoin ([pathSeparator] :: comps)
      = pathSeparator :: [pathSeparator].intercalate comps := by
  have h1 : ([pathSeparator] :: comps).dropWhile (fun e => e == []) = [pathSeparator] :: comps := by
    simp [List.dropWhile]
  unfold filepathJoin
  rw [h1]
  simp only
  rw [intercalate_cons_eq, List.singleton_append]
  refine filepathClean_rooted _ comps h ?_
  cases comps with
  | nil => left; simp [slashed, splitSlash]
  | cons c cs =>
    right; left
    have hc : pathSeparator ∉ c := (h c (List.mem_cons_self _ _)).2.1
    have hcs : ∀ x ∈ cs, pathSeparator ∉ x :=
      fun x hx => (h x (List.mem_cons_of_mem _ hx)).2.1
    rw [slashed_cons]
    simp [splitSlash, splitSlash_slashed cs c hc hcs]

theorem parsePath_abs :
    ∀ (comps : List Bytes), (∀ c ∈ comps, plainName c) → ∀ k : Nat,
      parsePath (comps.length + 1 + k) (pathSeparator :: [pathSeparator].intercalate comps)
        = some ([pathSeparator] :: comps) := by
  intro comps
  induction comps using List.reverseRecOn with
  | nil =>
    intro _ k
    have : ([] : List Bytes).length + 1 + k = k + 1 := by simp [Nat.add_comm]
    rw [this, parsePath]
    have hb : filepathBase (pathSeparator :: [pathSeparator].intercalate []) = [pathSeparator] := by
      decide
    rw [if_pos hb, hb]
  | append_singleton init c ih =>
    intro h k
    have hinit : ∀ x ∈ init, plainName x := fun x hx => h x (List.mem_append_left _ hx)
    have hc : plainName c := h c (by simp)
    have hfuel : (init ++ [c]).length + 1 + k = (init.length + 1 + k) + 1 := by
      simp; omega
    have hpath : pathSeparator :: [pathSeparator].intercalate (init ++ [c])
        = slashed init ++ pathSeparator :: c := by
      rw [absPath_eq_slashed _ (by simp), slashed_snoc]
    have hbase := filepathBase_snoc (slashed init) c hc
    have hdir : filepathDir (slashed init ++ pathSeparator :: c)
        = pathSeparator :: [pathSeparator].intercalate init := by
      rw [filepathDir_snoc _ c hc, filepathClean_slashed_sep init hinit]
    have hbne : c ≠ [pathSeparator] := fun e => hc.2.1 (by rw [e]; simp)
    rw [hfuel, hpath, parsePath, hbase, hdir, if_neg hbne]
    cases init with
    | nil => simp [List.intercalate]
    | cons c1 cs =>
      have hc1 : c1 ≠ [] := (hinit c1 (List.mem_cons_self _ _)).1
      have hdne : pathSeparator :: [pathSeparator].intercalate (c1 :: cs) ≠ [pathSeparator] := by
        rw [intercalate_cons_eq]
        intro e
        simp only [List.cons.injEq, true_and, List.append_eq_nil] at e
        exact hc1 e.1
      rw [if_neg hdne, ih hinit k]
      simp

end Fdmfc

/-- C20: `parsePath` splits an absolute path into its hierarchy of names. For
every path made of the separator followed by `n ≥ 0` elements joined by the
separator, each element non-empty, without separator and neither `.` nor `..`,
`parsePath` returns, within `n + 1` calls, the list of the separator and the
elements in order, and `filepath.Join` of that list is the path again. -/
theorem parsePath_splits (comps : List Bytes) (hplain : ∀ c ∈ comps, Fdmfc.plainName c)
    (k : Nat) :
    Fdmfc.parsePath (comps.length + 1 + k)
        (Fdmfc.pathSeparator :: [Fdmfc.pathSeparator].intercalate comps)
      = some ([Fdmfc.pathSeparator] :: comps) ∧
    Fdmfc.filepathJoin ([Fdmfc.pathSeparator] :: comps)
      = Fdmfc.pathSeparator :: [Fdmfc.pathSeparator].intercalate comps :=
  ⟨Fdmfc.parsePath_abs comps hplain k, Fdmfc.filepathJoin_root comps hplain⟩

/-- C20, witness: `/home/dan/.config` gives `/`, `home`, `dan`, `.config`. -/
theorem parsePath_splits_witness :
    Fdmfc.parsePath 4 (ascii "/home/dan/.config")
      = some [ascii "/", ascii "home", ascii "dan", ascii ".config"] ∧
    Fdmfc.filepathJoin [ascii "/", ascii "home", ascii "dan", ascii ".config"]
      = ascii "/home/dan/.config" :=
  parsePath_splits [ascii "home", ascii "dan", ascii ".config"] (by decide) 0

/-! ### C18 -/

namespace Fdmfc

theorem buildEntriez_toggle (caseSensitiveSort : Bool) (toLower : Bytes → Bytes)
    (sortFn : (EntryRef → EntryRef → Bool) → List EntryRef → List EntryRef)
    (hperm : ∀ less l, (sortFn less l).Perm l)
    (returnDir showHidden : Bool) (actual_filez : List FileInfo) (entriez : List EntryRef)
    (h : buildEntriez caseSensitiveSort toLower sortFn returnDir showHidden actual_filez
      = some entriez) :
    ∃ reals, entriez = (if returnDir then [EntryRef.directorySelector] else []) ++
        toggleSentinel showHidden :: reals ∧ (∀ x ∈ reals, x.isSentinel = false) := by
  rcases buildEntriez_split caseSensitiveSort toLower sortFn hperm returnDir showHidden
    actual_filez entriez h with ⟨reals, he, hreal, _⟩
  exact ⟨reals, by rw [he]; simp [toggleSentinel], hreal⟩

theorem scanLines_toggle (f : EntryRef → Bytes) (returnDir showHidden : Bool)
    (reals : List EntryRef)
    (hne : f EntryRef.directorySelector ≠ f (toggleSentinel showHidden)) :
    scanLines (f (toggleSentinel showHidden))
      (((if returnDir then [EntryRef.directorySelector] else []) ++
        toggleSentinel showHidden :: reals).map f)
      ((if returnDir then [EntryRef.directorySelector] else []) ++
        toggleSentinel showHidden :: reals)
      = some (toggleSentinel showHidden) := by
  cases returnDir with
  | false => simp [scanLines]
  | true => simp [scanLines, Ne.symm hne]

theorem selectStep_of_choice (caseSensitiveSort : Bool) (toLower : Bytes → Bytes)
    (sortFn : (EntryRef → EntryRef → Bool) → List EntryRef → List EntryRef)
    (join : List Bytes → Bytes) (readdir : Bytes → Option (List FileInfo))
    (dcmd : Picker) (returnDir : Bool) (pathElts : List Bytes) (showHidden : Bool)
    (actual_filez : List FileInfo) (entriez : List EntryRef)
    (hread : readdir (join pathElts) = some actual_filez)
    (hbuilt : buildEntriez caseSensitiveSort toLower sortFn returnDir showHidden actual_filez
      = some entriez)
    (hchoice : (DmenuSelect itemOps dcmd (join pathElts) entriez).1
      = some (toggleSentinel showHidden)) :
    selectStep caseSensitiveSort toLower sortFn join readdir dcmd returnDir pathElts showHidden
      = (Sum.inr (pathElts, !showHidden), some (join pathElts, entriez)) := by
  unfold selectStep
  simp only [hread, hbuilt, hchoice]
  cases showHidden <;> rfl

end Fdmfc

/-- C18: the toggle-hidden transition of `selectPath`. `sort.Sort` permuting its
argument, for every state (path, `showHidden`) and every directory listing the
list shown holds exactly one toggle sentinel, `hiddenHider` when `showHidden`
is true and `hiddenShower` when it is false, and not the other one; when the
picker's response is the line of that sentinel, the pass of the loop returns no
result and leaves the state with the same path and the negated `showHidden`. -/
theorem toggle_hidden_transition (caseSensitiveSort : Bool) (toLower : Bytes → Bytes)
    (sortFn : (Fdmfc.EntryRef → Fdmfc.EntryRef → Bool) → List Fdmfc.EntryRef →
      List Fdmfc.EntryRef)
    (hperm : ∀ less l, (sortFn less l).Perm l)
    (join : List Bytes → Bytes) (readdir : Bytes → Option (List Fdmfc.FileInfo))
    (dcmd : Picker) (returnDir : Bool) (pathElts : List Bytes) (showHidden : Bool)
    (actual_filez : List Fdmfc.FileInfo) (entriez : List Fdmfc.EntryRef)
    (hread : readdir (join pathElts) = some actual_filez)
    (hbuilt : Fdmfc.buildEntriez caseSensitiveSort toLower sortFn returnDir showHidden
      actual_filez = some entriez) :
    entriez.count (Fdmfc.toggleSentinel showHidden) = 1 ∧
    entriez.count (Fdmfc.toggleSentinel (!showHidden)) = 0 ∧
    (dcmd entriez.length (join pathElts) (menuLines Fdmfc.itemOps entriez).flatten
        = ⟨none, ensureReturnminated (Fdmfc.itemOps.MenuLine (Fdmfc.toggleSentinel showHidden)
            (keyLen Fdmfc.itemOps entriez))⟩ →
      DmenuSelect Fdmfc.itemOps dcmd (join pathElts) entriez
        = (some (Fdmfc.toggleSentinel showHidden), none) ∧
      Fdmfc.selectStep caseSensitiveSort toLower sortFn join readdir dcmd returnDir pathElts
          showHidden
        = (Sum.inr (pathElts, !showHidden), some (join pathElts, entriez))) := by
  rcases Fdmfc.buildEntriez_toggle caseSensitiveSort toLower sortFn hperm returnDir showHidden
    actual_filez entriez hbuilt with ⟨reals, he, hreal⟩
  have hnotmem : ∀ b : Bool, Fdmfc.toggleSentinel b ∉ reals := by
    intro b hm
    have := hreal _ hm
    cases b <;> simp [Fdmfc.toggleSentinel, Fdmfc.EntryRef.isSentinel] at this
  refine ⟨?_, ?_, ?_⟩
  · rw [he, List.count_append, List.count_cons_self, List.count_eq_zero_of_not_mem (hnotmem _)]
    cases returnDir <;> cases showHidden <;> decide
  · rw [he, List.count_append, List.count_cons, List.count_eq_zero_of_not_mem (hnotmem _)]
    cases returnDir <;> cases showHidden <;> decide
  · intro hout
    have hsel : DmenuSelect Fdmfc.itemOps dcmd (join pathElts) entriez
        = (some (Fdmfc.toggleSentinel showHidden), none) := by
      rw [DmenuSelect_of_ok Fdmfc.itemOps dcmd (join pathElts) entriez (by rw [hout]), hout]
      simp only
      unfold menuLines
      have hne : ensureReturnminated (Fdmfc.itemOps.MenuLine Fdmfc.EntryRef.directorySelector
            (keyLen Fdmfc.itemOps entriez))
          ≠ ensureReturnminated (Fdmfc.itemOps.MenuLine (Fdmfc.toggleSentinel showHidden)
            (keyLen Fdmfc.itemOps entriez)) := by
        cases showHidden <;>
          simp only [Fdmfc.itemOps, Fdmfc.DirEntry.MenuLine, Fdmfc.EntryRef.get,
            Fdmfc.toggleSentinel] <;> decide
      have := Fdmfc.scanLines_toggle
        (fun itm => ensureReturnminated (Fdmfc.itemOps.MenuLine itm
          (keyLen Fdmfc.itemOps entriez))) returnDir showHidden reals hne
      rw [← he] at this
      rw [this]
    exact ⟨hsel, Fdmfc.selectStep_of_choice caseSensitiveSort toLower sortFn join readdir dcmd
      returnDir pathElts showHidden actual_filez entriez hread hbuilt (by rw [hsel])⟩

/-- C18, witness: in the root of `smallFs`, hidden files hidden, the picker
answers with the line of `hiddenShower`; the next state is the same path with
hidden files shown. -/
theorem toggle_hidden_transition_witness :
    [Fdmfc.EntryRef.hiddenShower, Fdmfc.EntryRef.fresh ⟨ascii "etc", true, ascii "etc"⟩,
        Fdmfc.EntryRef.fresh ⟨ascii "f", false, ascii "f"⟩].count
      (Fdmfc.toggleSentinel false) = 1 ∧
    Fdmfc.selectStep false asciiToLower insertionSort Fdmfc.filepathJoin smallFs
        (echoPicker (ascii ". [ show hidden files ]\n")) false [ascii "/"] false
      = (Sum.inr ([ascii "/"], true),
          some (ascii "/", [Fdmfc.EntryRef.hiddenShower,
            Fdmfc.EntryRef.fresh ⟨ascii "etc", true, ascii "etc"⟩,
            Fdmfc.EntryRef.fresh ⟨ascii "f", false, ascii "f"⟩])) :=
  ⟨(toggle_hidden_transition false asciiToLower insertionSort
      (fun less l => insertionSort_perm less l) Fdmfc.filepathJoin smallFs
      (echoPicker (ascii ". [ show hidden files ]\n")) false [ascii "/"] false
      [⟨ascii "f", false⟩, ⟨ascii ".git", true⟩, ⟨ascii "etc", true⟩]
      [Fdmfc.EntryRef.hiddenShower, Fdmfc.EntryRef.fresh ⟨ascii "etc", true, ascii "etc"⟩,
        Fdmfc.EntryRef.fresh ⟨ascii "f", false, ascii "f"⟩]
      (by decide) (by decide)).1,
   ((toggle_hidden_transition false asciiToLower insertionSort
      (fun less l => insertionSort_perm less l) Fdmfc.filepathJoin smallFs
      (echoPicker (ascii ". [ show hidden files ]\n")) false [ascii "/"] false
      [⟨ascii "f", false⟩, ⟨ascii ".git", true⟩, ⟨ascii "etc", true⟩]
      [Fdmfc.EntryRef.hiddenShower, Fdmfc.EntryRef.fresh ⟨ascii "etc", true, ascii "etc"⟩,
        Fdmfc.EntryRef.fresh ⟨ascii "f", false, ascii "f"⟩]
      (by decide) (by decide)).2.2 (by decide)).2⟩

/-! ### C19 -/

theorem Fdmfc.selectPath_of_cancel (caseSensitiveSort : Bool) (toLower : Bytes → Bytes)
    (sortFn : (Fdmfc.EntryRef → Fdmfc.EntryRef → Bool) → List Fdmfc.EntryRef →
      List Fdmfc.EntryRef)
    (join : List Bytes → Bytes) (readdir : Bytes → Option (List Fdmfc.FileInfo))
    (picker : Nat → Picker) (returnDir : Bool) (fuel : Nat) (pathElts : List Bytes)
    (showHidden : Bool) (shown : Fdmfc.Shown) (actual_filez : List Fdmfc.FileInfo)
    (entriez : List Fdmfc.EntryRef)
    (hread : readdir (join pathElts) = some actual_filez)
    (hbuilt : Fdmfc.buildEntriez caseSensitiveSort toLower sortFn returnDir showHidden
      actual_filez = some entriez)
    (h : picker shown.length entriez.length (join pathElts)
        (menuLines Fdmfc.itemOps entriez).flatten = ⟨none, []⟩) :
    Fdmfc.selectPath caseSensitiveSort toLower sortFn join readdir picker returnDir (fuel + 1)
        pathElts showHidden shown
      = if pathElts.length ≤ 1 then
          some (Fdmfc.Exit.returned [], shown ++ [(join pathElts, entriez)])
        else
          Fdmfc.selectPath caseSensitiveSort toLower sortFn join readdir picker returnDir fuel
            (pathElts.take (pathElts.length - 1)) showHidden
            (shown ++ [(join pathElts, entriez)]) := by
  rw [Fdmfc.selectPath, Fdmfc.selectStep]
  simp only [hread, hbuilt, DmenuSelect_cancel _ _ _ _ h]
  by_cases hl : pathElts.length ≤ 1
  · simp [hl]
  · simp [hl]

theorem take_length_cons {α : Type} (a : α) :
    ∀ l : List α, l ≠ [] → (a :: l).take ((a :: l).length - 1) = a :: l.dropLast
  | [], h => absurd rfl h
  | b :: l, _ => by
      rw [List.dropLast_eq_take]
      simp

/-- C19, counterexample: `selectPath` is started on `parsePath` of `/etc` and
the picker's first response is no selection; `selectPath` does not end but
shows the directory `/` next, and returns the file chosen there. -/
theorem cancel_at_start_counterexample :
    Fdmfc.parsePath 2 (ascii "/etc") = some [ascii "/", ascii "etc"] ∧
    cancelThenFile 0 2 (ascii "/etc") (ascii ". [ show hidden files ]\nhosts\n") = ⟨none, []⟩ ∧
    Fdmfc.selectPath false asciiToLower insertionSort Fdmfc.filepathJoin smallFs cancelThenFile
        false 2 [ascii "/", ascii "etc"] false []
      = some (Fdmfc.Exit.returned (ascii "/f"),
          [(ascii "/etc", [Fdmfc.EntryRef.hiddenShower,
              Fdmfc.EntryRef.fresh ⟨ascii "hosts", false, ascii "hosts"⟩]),
           (ascii "/", [Fdmfc.EntryRef.hiddenShower,
              Fdmfc.EntryRef.fresh ⟨ascii "etc", true, ascii "etc"⟩,
              Fdmfc.EntryRef.fresh ⟨ascii "f", false, ascii "f"⟩])]) := by
  decide

/-- C19, amended: a no-selection response ends `selectPath` only at the root of
the file system. For every directory `d`, the separator followed by `n ≥ 0`
plain names, and every flag setting, `parsePath` gives the separator and the
names; when `selectPath` is started on that list and the picker's first
response is no selection, `selectPath` ends at once with the empty string, after
that one invocation, if `d` is the root directory, and otherwise goes on from
the parent directory of `d` with `showHidden` as it was. -/
theorem cancel_at_start (caseSensitiveSort : Bool) (toLower : Bytes → Bytes)
    (sortFn : (Fdmfc.EntryRef → Fdmfc.EntryRef → Bool) → List Fdmfc.EntryRef →
      List Fdmfc.EntryRef)
    (join : List Bytes → Bytes) (readdir : Bytes → Option (List Fdmfc.FileInfo))
    (picker : Nat → Picker) (returnDir showHidden : Bool) (fuel k : Nat)
    (comps : List Bytes) (hplain : ∀ c ∈ comps, Fdmfc.plainName c)
    (actual_filez : List Fdmfc.FileInfo) (entriez : List Fdmfc.EntryRef)
    (hread : readdir (join ([Fdmfc.pathSeparator] :: comps)) = some actual_filez)
    (hbuilt : Fdmfc.buildEntriez caseSensitiveSort toLower sortFn returnDir showHidden
      actual_filez = some entriez)
    (hcancel : picker 0 entriez.length (join ([Fdmfc.pathSeparator] :: comps))
        (menuLines Fdmfc.itemOps entriez).flatten = ⟨none, []⟩) :
    Fdmfc.parsePath (comps.length + 1 + k)
        (Fdmfc.pathSeparator :: [Fdmfc.pathSeparator].intercalate comps)
      = some ([Fdmfc.pathSeparator] :: comps) ∧
    (comps = [] →
      Fdmfc.selectPath caseSensitiveSort toLower sortFn join readdir picker returnDir
          (fuel + 1) ([Fdmfc.pathSeparator] :: comps) showHidden []
        = some (Fdmfc.Exit.returned [],
            [(join ([Fdmfc.pathSeparator] :: comps), entriez)])) ∧
    (comps ≠ [] →
      Fdmfc.selectPath caseSensitiveSort toLower sortFn join readdir picker returnDir
          (fuel + 1) ([Fdmfc.pathSeparator] :: comps) showHidden []
        = Fdmfc.selectPath caseSensitiveSort toLower sortFn join readdir picker returnDir fuel
            ([Fdmfc.pathSeparator] :: comps.dropLast) showHidden
            [(join ([Fdmfc.pathSeparator] :: comps), entriez)]) := by
  have hrun := Fdmfc.selectPath_of_cancel caseSensitiveSort toLower sortFn join readdir picker
    returnDir fuel ([Fdmfc.pathSeparator] :: comps) showHidden [] actual_filez entriez hread
    hbuilt hcancel
  refine ⟨Fdmfc.parsePath_abs comps hplain k, ?_, ?_⟩
  · intro hc
    rw [hrun, hc]
    simp
  · intro hc
    have hlen : ¬ ([Fdmfc.pathSeparator] :: comps).length ≤ 1 := by
      cases comps with
      | nil => exact absurd rfl hc
      | cons c cs => simp
    rw [hrun, if_neg hlen, take_length_cons _ comps hc]
    simp

/-- C19, witness of the amended claim: started on the root of `smallFs`, a
no-selection response ends `selectPath` with the empty string. -/
theorem cancel_at_start_witness :
    Fdmfc.parsePath 1 (ascii "/") = some [ascii "/"] ∧
    Fdmfc.selectPath false asciiToLower insertionSort Fdmfc.filepathJoin smallFs
        (fun _ => echoPicker []) false 1 [ascii "/"] false []
      = some (Fdmfc.Exit.returned [],
          [(ascii "/", [Fdmfc.EntryRef.hiddenShower,
              Fdmfc.EntryRef.fresh ⟨ascii "etc", true, ascii "etc"⟩,
              Fdmfc.EntryRef.fresh ⟨ascii "f", false, ascii "f"⟩])]) :=
  ⟨(cancel_at_start false asciiToLower insertionSort Fdmfc.filepathJoin smallFs
      (fun _ => echoPicker []) false false 0 0 [] (by decide)
      [⟨ascii "f", false⟩, ⟨ascii ".git", true⟩, ⟨ascii "etc", true⟩]
      [Fdmfc.EntryRef.hiddenShower, Fdmfc.EntryRef.fresh ⟨ascii "etc", true, ascii "etc"⟩,
        Fdmfc.EntryRef.fresh ⟨ascii "f", false, ascii "f"⟩]
      (by decide) (by decide) rfl).1,
   (cancel_at_start false asciiToLower insertionSort Fdmfc.filepathJoin smallFs
      (fun _ => echoPicker []) false false 0 0 [] (by decide)
      [⟨ascii "f", false⟩, ⟨ascii ".git", true⟩, ⟨ascii "etc", true⟩]
      [Fdmfc.EntryRef.hiddenShower, Fdmfc.EntryRef.fresh ⟨ascii "etc", true, ascii "etc"⟩,
        Fdmfc.EntryRef.fresh ⟨ascii "f", false, ascii "f"⟩]
      (by decide) (by decide) rfl).2.1 rfl⟩

/-! ### The free number of add mode -/

namespace Dtodo

theorem nSupLoop_some :
    ∀ (lst : List Item) (n : Nat) (m : Int), (lst.map (fun x => x.N)).Pairwise (· ≤ ·) →
      nSupLoop n lst = some m → (n : Int) ≤ m ∧ ∀ itm ∈ lst, itm.N ≠ m
  | [], _, _, _, h => by simp [nSupLoop] at h
  | x :: rest, n, m, hs, h => by
      rw [List.map_cons, List.pairwise_cons] at hs
      rw [nSupLoop] at h
      by_cases hlt : (n : Int) < x.N
      · rw [if_pos hlt] at h
        simp only [Option.some.injEq] at h
        subst h
        refine ⟨Int.le_refl _, ?_⟩
        intro itm hitm
        rcases List.mem_cons.1 hitm with rfl | hmem
        · omega
        · have := hs.1 itm.N (List.mem_map_of_mem (fun x => x.N) hmem)
          omega
      · rw [if_neg hlt] at h
        have ih := nSupLoop_some rest (n + 1) m hs.2 h
        refine ⟨by have := ih.1; push_cast at this; omega, ?_⟩
        intro itm hitm
        rcases List.mem_cons.1 hitm with rfl | hmem
        · have := ih.1
          push_cast at this
          omega
        · exact ih.2 itm hmem

theorem nSupLoop_none :
    ∀ (lst : List Item) (n : Nat), nSupLoop n lst = none →
      ∀ itm ∈ lst, itm.N < (n : Int) + (lst.length : Int)
  | [], _, _ => by simp
  | x :: rest, n, h => by
      rw [nSupLoop] at h
      by_cases hlt : (n : Int) < x.N
      · rw [if_pos hlt] at h
        cases h
      · rw [if_neg hlt] at h
        have ih := nSupLoop_none rest (n + 1) h
        intro itm hitm
        rcases List.mem_cons.1 hitm with rfl | hmem
        · simp only [List.length_cons]
          push_cast
          omega
        · have := ih itm hmem
          simp only [List.length_cons]
          push_cast at this ⊢
          omega

theorem nSup_ne (lst : List Item) (hs : (lst.map (fun x => x.N)).Pairwise (· ≤ ·)) :
    ∀ itm ∈ lst, nSup lst ≠ itm.N := by
  intro itm hitm
  unfold nSup
  cases h : nSupLoop 0 lst with
  | some m =>
    simp only [Option.getD_some]
    exact fun e => (nSupLoop_some lst 0 m hs h).2 itm hitm e.symm
  | none =>
    simp only [Option.getD_none]
    have := nSupLoop_none lst 0 h itm hitm
    push_cast at this
    omega

end Dtodo

/-! ### The decimal digits of a number -/

theorem decDigits_mem : ∀ (fuel n : Nat) (x : Nat), x ∈ decDigits fuel n → 48 ≤ x ∧ x ≤ 57
  | 0, _, x, h => by simp [decDigits] at h
  | fuel + 1, n, x, h => by
      rw [decDigits] at h
      by_cases hn : n < 10
      · rw [if_pos hn] at h
        have hx : x = 48 + n := List.mem_singleton.1 h
        omega
      · rw [if_neg hn, List.mem_append] at h
        rcases h with h | h
        · exact decDigits_mem fuel (n / 10) x h
        · have hx : x = 48 + n % 10 := List.mem_singleton.1 h
          omega

theorem digitsVal_snoc (l : Bytes) (d : Byte) :
    digitsVal (l ++ [d]) = digitsVal l * 10 + (d - 48) := by
  simp [digitsVal, List.foldl_append]

theorem digitsVal_decDigits : ∀ (fuel n : Nat), n < fuel → digitsVal (decDigits fuel n) = n
  | 0, _, h => by omega
  | fuel + 1, n, h => by
      rw [decDigits]
      by_cases hn : n < 10
      · rw [if_pos hn]
        simp [digitsVal]
      · rw [if_neg hn, digitsVal_snoc, digitsVal_decDigits fuel (n / 10) (by omega)]
        omega

theorem fmtNat_inj (a b : Nat) (h : fmtNat a = fmtNat b) : a = b := by
  have ha := digitsVal_decDigits (a + 1) a (Nat.lt_succ_self a)
  have hb := digitsVal_decDigits (b + 1) b (Nat.lt_succ_self b)
  unfold fmtNat at h
  rw [h, hb] at ha
  exact ha.symm

theorem fmtNat_ne_nil (n : Nat) : fmtNat n ≠ [] := by
  unfold fmtNat
  rw [decDigits]
  by_cases hn : n < 10
  · rw [if_pos hn]; simp
  · rw [if_neg hn]; simp

theorem fmtNat_mem (n : Nat) (x : Nat) (h : x ∈ fmtNat n) : 48 ≤ x ∧ x ≤ 57 :=
  decDigits_mem (n + 1) n x h

theorem fmtInt_inj (a b : Int) (h : fmtInt a = fmtInt b) : a = b := by
  unfold fmtInt at h
  by_cases ha : a < 0 <;> by_cases hb : b < 0
  · rw [if_pos ha, if_pos hb] at h
    have := fmtNat_inj _ _ (List.cons.inj h).2
    omega
  · rw [if_pos ha, if_neg hb] at h
    have := fmtNat_mem b.toNat 45 (by rw [← h]; exact List.mem_cons_self _ _)
    omega
  · rw [if_neg ha, if_pos hb] at h
    have := fmtNat_mem a.toNat 45 (by rw [h]; exact List.mem_cons_self _ _)
    omega
  · rw [if_neg ha, if_neg hb] at h
    have := fmtNat_inj _ _ h
    omega

theorem fmtInt_ne_nil (n : Int) : fmtInt n ≠ [] := by
  unfold fmtInt
  by_cases h : n < 0
  · rw [if_pos h]; simp
  · rw [if_neg h]; exact fmtNat_ne_nil _

theorem fmtInt_no_blank (n : Int) : (32 : Nat) ∉ fmtInt n := by
  unfold fmtInt
  by_cases h : n < 0
  · rw [if_pos h]
    intro hm
    rcases List.mem_cons.1 hm with e | hm
    · cases e
    · have := fmtNat_mem _ 32 hm
      omega
  · rw [if_neg h]
    intro hm
    have := fmtNat_mem _ 32 hm
    omega

/-! ### The number field of a line -/

theorem numField_padded (k : Nat) (d rest : Bytes) (hne : d ≠ []) (hd : (32 : Nat) ∉ d) :
    numField (List.replicate k 32 ++ (d ++ 32 :: rest)) = d := by
  have hrep : ∀ a ∈ List.replicate k (32 : Nat), (a == 32) = true := by
    intro a ha
    rw [List.eq_of_mem_replicate ha]
    rfl
  have hall : ∀ a ∈ d, (a != 32) = true := by
    intro a ha
    have : a ≠ 32 := fun e => hd (e ▸ ha)
    simpa using this
  cases d with
  | nil => exact absurd rfl hne
  | cons c cs =>
    have hc : c ≠ 32 := fun e => hd (by rw [e]; exact List.mem_cons_self _ _)
    have e1 : (c :: cs ++ 32 :: rest).dropWhile (fun a => a == 32) = c :: cs ++ 32 :: rest := by
      rw [List.cons_append, List.dropWhile_cons]
      simp [hc]
    have e2 : (32 :: rest).takeWhile (fun a => a != 32) = [] := by
      simp [List.takeWhile]
    unfold numField
    rw [List.dropWhile_append_of_pos hrep, e1, List.takeWhile_append_of_pos hall, e2]
    simp

theorem starPad_nat (n : Nat) (d : Bytes) :
    (tooLarge (n : Int) = true → starPad (n : Int) false d = badWidthString ++ d) ∧
    (tooLarge (n : Int) = false → ∃ k, starPad (n : Int) false d = List.replicate k 32 ++ d) := by
  unfold starPad
  constructor
  · intro ht
    rw [if_pos ht]
    simp [padString]
  · intro ht
    have hneg : ¬ ((n : Int) < 0) := by omega
    rw [ht, if_neg (by simp), if_neg hneg]
    unfold padString
    by_cases h0 : (!true || (n : Int).toNat == 0) = true
    · exact ⟨0, by rw [if_pos h0]; simp⟩
    · rw [if_neg h0]
      exact ⟨_, by simp [writePadding]; rfl⟩

namespace Dtodo

theorem Item.MenuLine_inj (n : Nat) (a b : Item)
    (h : a.MenuLine (n : Int) = b.MenuLine (n : Int)) : a.N = b.N := by
  have hblank : ascii "  " = [32, 32] := by decide
  unfold Item.MenuLine at h
  rw [hblank] at h
  simp only [List.append_assoc, List.cons_append, List.nil_append] at h
  apply fmtInt_inj
  have e1 := fun k => numField_padded k (fmtInt a.N) (32 :: (a.Title ++ ascii "\n"))
    (fmtInt_ne_nil _) (fmtInt_no_blank _)
  have e2 := fun k => numField_padded k (fmtInt b.N) (32 :: (b.Title ++ ascii "\n"))
    (fmtInt_ne_nil _) (fmtInt_no_blank _)
  cases ht : tooLarge (n : Int) with
  | true =>
    rw [(starPad_nat n _).1 ht, (starPad_nat n _).1 ht] at h
    simp only [List.append_assoc] at h
    have h2 := List.append_cancel_left h
    have e1 := e1 0
    have e2 := e2 0
    simp only [List.replicate_zero, List.nil_append] at e1 e2
    rw [← e1, ← e2, h2]
  | false =>
    rcases (starPad_nat n (fmtInt a.N)).2 ht with ⟨ka, ha⟩
    rcases (starPad_nat n (fmtInt b.N)).2 ht with ⟨kb, hb⟩
    rw [ha, hb] at h
    simp only [List.append_assoc] at h
    rw [← e1 ka, ← e2 kb, h]

theorem Item.ensureReturnminated_MenuLine (itm : Item) (w : Int) :
    ensureReturnminated (itm.MenuLine w) = itm.MenuLine w := by
  have hnl : ascii "\n" = [10] := by decide
  unfold Item.MenuLine
  rw [hnl, ensureReturnminated_snoc]
  simp

theorem Item.fileName_inj (a b : Item) (h : a.fileName = b.fileName) : a.N = b.N :=
  fmtInt_inj _ _ (List.append_cancel_right h)

end Dtodo

/-! ### C21 -/

/-- C21: a new to-do item never takes the number of an existing one. For every
to-do list in ascending order of item number, duplicates allowed, the number
`n_sup` add mode computes differs from the number of every item of the list, so
the file of the new item is the file of none of them. -/
theorem new_item_number_fresh (lst : List Dtodo.Item)
    (hsorted : (lst.map (fun x => x.N)).Pairwise (· ≤ ·)) (addDesc : Bytes)
    (itm : Dtodo.Item) (hmem : itm ∈ lst) :
    Dtodo.nSup lst ≠ itm.N ∧
    Dtodo.Item.fileName ⟨Dtodo.nSup lst, addDesc⟩ ≠ itm.fileName :=
  ⟨Dtodo.nSup_ne lst hsorted itm hmem,
   fun e => Dtodo.nSup_ne lst hsorted itm hmem (Dtodo.Item.fileName_inj _ _ e)⟩

/-- C21, witness: for the items numbered 0, 0, 1 and 5 the new number is 3,
which is not the number 5 of the last item. -/
theorem new_item_number_fresh_witness :
    Dtodo.nSup gapItems = 3 ∧ Dtodo.nSup threeItems = 0 ∧
    (Dtodo.nSup gapItems ≠ 5 ∧
      Dtodo.Item.fileName ⟨Dtodo.nSup gapItems, ascii "dig"⟩
        ≠ Dtodo.Item.fileName ⟨5, ascii "hoe"⟩) :=
  ⟨by decide, by decide,
   new_item_number_fresh gapItems (by decide) (ascii "dig") ⟨5, ascii "hoe"⟩ (by decide)⟩

/-! ### C22 -/

/-- C22: distinct numbers give distinct menu lines. For every list of to-do
items whose numbers are pairwise distinct, with any titles, the formatted lines
are pairwise distinct; so whenever the picker exits successfully with the
formatted line of item `i`, `DmenuSelect` returns item `i` and no error. -/
theorem distinct_numbers_distinct_lines (input : List Dtodo.Item)
    (hdistinct : (input.map (fun x => x.N)).Nodup) :
    (menuLines Dtodo.itemOps input).Nodup ∧
    (∀ (dcmd : Picker) (prompt : Bytes) (i : Nat) (hi : i < input.length),
      (dcmd input.length prompt (menuLines Dtodo.itemOps input).flatten).err = none →
      (dcmd input.length prompt (menuLines Dtodo.itemOps input).flatten).stdout =
        ensureReturnminated (Dtodo.itemOps.MenuLine (input.get ⟨i, hi⟩)
          (keyLen Dtodo.itemOps input)) →
      DmenuSelect Dtodo.itemOps dcmd prompt input = (some (input.get ⟨i, hi⟩), none)) := by
  have hnd : (menuLines Dtodo.itemOps input).Nodup := by
    unfold menuLines
    refine List.Nodup.map_on ?_ (List.Nodup.of_map _ hdistinct)
    intro a ha b hb hab
    have hN : a.N = b.N := by
      have h1 : Dtodo.itemOps.MenuLine a (keyLen Dtodo.itemOps input)
          = a.MenuLine (keyLen Dtodo.itemOps input) := rfl
      have h2 : Dtodo.itemOps.MenuLine b (keyLen Dtodo.itemOps input)
          = b.MenuLine (keyLen Dtodo.itemOps input) := rfl
      rw [h1, h2, Dtodo.Item.ensureReturnminated_MenuLine,
        Dtodo.Item.ensureReturnminated_MenuLine] at hab
      exact Dtodo.Item.MenuLine_inj _ a b hab
    exact List.inj_on_of_nodup_map hdistinct ha hb hN
  refine ⟨hnd, ?_⟩
  intro dcmd prompt i hi hok hout
  rw [DmenuSelect_of_ok Dtodo.itemOps dcmd prompt input hok, hout]
  have := scanLines_map
    (fun itm => ensureReturnminated (Dtodo.itemOps.MenuLine itm (keyLen Dtodo.itemOps input)))
    (ensureReturnminated (Dtodo.itemOps.MenuLine (input.get ⟨i, hi⟩)
      (keyLen Dtodo.itemOps input))) input i hi hnd rfl
  unfold menuLines
  rw [this]

/-- C22, witness: the three to-do items numbered 1, 2 and 3 have the distinct
lines `1  rake`, `2  mow` and `3  sow`, and the line of item 3 resolves to
item 3. -/
theorem distinct_numbers_distinct_lines_witness :
    (menuLines Dtodo.itemOps threeItems).Nodup ∧
    DmenuSelect Dtodo.itemOps (echoPicker (ascii "3  sow\n")) (ascii ">") threeItems
      = (some ⟨3, ascii "sow"⟩, none) :=
  ⟨(distinct_numbers_distinct_lines threeItems (by decide)).1,
   (distinct_numbers_distinct_lines threeItems (by decide)).2
      (echoPicker (ascii "3  sow\n")) (ascii ">") 2 (by decide) (by decide) (by decide)⟩

end Dmx
